import Mathlib

/-!
# az-spec-validator: the `all` command

A shallow embedding of `cmd/all.go` (the category registry built by
`runAllValidations`, the consistency checker `validateErrorTypes`, the file
locator `getSpecFiles`, the worker, the aggregation loop and the run as a
whole) together with the standard-library string and path functions they call,
followed by the properties of the specification that are settled against it.

Go strings are embedded as `String`; the helpers work on the underlying
character lists.  Every separator and literal the program searches for is
ASCII, so splitting and searching by character agrees with Go's byte-wise
behaviour on well-formed UTF-8.
-/

set_option autoImplicit false
set_option linter.dupNamespace false

namespace AzSpecValidator

/-! ## Package `strings` -/

namespace Strings

/-- Pieces of `s` between occurrences of the one-character separator `sep`;
the result always has at least one piece (`[[]]` for the empty input). -/
def splitChars (sep : Char) : List Char → List (List Char)
  | [] => [[]]
  | c :: cs =>
    if c = sep then [] :: splitChars sep cs
    else
      match splitChars sep cs with
      | [] => [[c]]
      | h :: t => (c :: h) :: t

/-- Go `strings.Split(s, sep)` for a one-character separator, the only form
the program uses (`"/"`). -/
def Split (s : String) (sep : Char) : List String :=
  (splitChars sep s.data).map String.mk

/-- The pieces `elems` written one after another with `sep` between
consecutive pieces (Go `strings.Join` on character lists). -/
def joinChars (sep : Char) : List (List Char) → List Char
  | [] => []
  | [a] => a
  | a :: b :: rest => a ++ sep :: joinChars sep (b :: rest)

/-- Position of the first occurrence of `sub` in `s`, counting from `i`;
`-1` when there is none. -/
def indexFrom (sub : List Char) : List Char → Nat → Int
  | [], i => if sub.isPrefixOf [] then (i : Int) else -1
  | c :: cs, i => if sub.isPrefixOf (c :: cs) then (i : Int) else indexFrom sub cs (i + 1)

/-- Go `strings.Index(s, substr)`: index of the first instance of `substr`
in `s`, or `-1` if `substr` is not present. -/
def Index (s substr : String) : Int :=
  indexFrom substr.data s.data 0

/-- Go `strings.Contains(s, substr)`, which is `Index(s, substr) >= 0`. -/
def Contains (s substr : String) : Bool :=
  decide (0 ≤ Index s substr)

end Strings

/-! ## The document model -/

/-- The go-openapi `spec.Operation`; the document types (`loads.Document`,
`spec.Swagger`, `spec.Info`, `spec.Paths`, `spec.PathItem`) belong to that
external library and are embedded with the fields the program reads.  An
operation is kept abstract as its identifier. -/
structure Operation where
  ID : String
  deriving DecidableEq, Repr

/-- The go-openapi `spec.PathItem`, a path entry of the document; the checker
only inspects whether the entry defines a POST operation. -/
structure PathItem where
  Get : Option Operation
  Post : Option Operation
  deriving DecidableEq, Repr

/-- The go-openapi `spec.Info`: the `info` object of a document with its
declared version field. -/
structure Info where
  Version : String
  deriving DecidableEq, Repr

/-- The go-openapi `spec.Paths`: the path entries of a document.  Go keeps
them in a map from URL template to entry; the list gives the entries in the
order in which the `range` loop visits them. -/
structure Paths where
  Paths : List (String × PathItem)
  deriving DecidableEq, Repr

/-- The go-openapi `spec.Swagger`: the parsed specification held by a
document.  Its `Info` and `Paths` are pointers (`*Info`, `*Paths`), nil (`none`)
when the JSON of the document has no `info` or no `paths` member; such a
document still loads without error. -/
structure Swagger where
  Info : Option Info
  Paths : Option Paths
  deriving DecidableEq, Repr

/-- The go-openapi `loads.Document`: a loaded document.  A `*loads.Document`
that is nil (load failure) is `none : Option Document`. -/
structure Document where
  spec : Swagger
  deriving DecidableEq, Repr

/-- Accessor `doc.Spec()`. -/
def Document.Spec (d : Document) : Swagger := d.spec

/-! ## Categories and findings (`cmd/all.go`) -/

def ErrorSchemaValidationFailed : String := "SchemaValidationFailed"
def ErrorTypeIncorrectSchemaVersion : String := "IncorrectSchemaVersion"
def ErrorPreviewSchemaWithoutPreviewVersion : String := "PreviewSchemaWithoutPreviewVersion"
def ErrorStableSchemaWithPreviewVersion : String := "StableSchemaWithPreviewVersion"
def InconsistencyListOperationUsingPost : String := "ListOperationUsingPost"

/-- The five known category identifiers. -/
def knownCategories : List String :=
  [ErrorSchemaValidationFailed, ErrorTypeIncorrectSchemaVersion,
   ErrorPreviewSchemaWithoutPreviewVersion, ErrorStableSchemaWithPreviewVersion,
   InconsistencyListOperationUsingPost]

structure SpecErrorOrInconsistency where
  Inconsistency : String
  Err : String
  deriving DecidableEq, Repr

/-- A Go `map[string]*bool`: an association list with pairwise distinct keys;
the value `none` is the nil pointer. -/
abbrev CategoriesMap := List (String × Option Bool)

namespace CategoriesMap

/-- Map read `m[k]`: the stored pointer, or nil when the key is absent. -/
def get (m : CategoriesMap) (k : String) : Option Bool :=
  match m.lookup k with
  | some v => v
  | none => none

/-- Map write `m[k] = v`: overwrite the entry of `k`, or add one. -/
def set (m : CategoriesMap) (k : String) (v : Option Bool) : CategoriesMap :=
  if m.any (fun e => e.1 == k) then m.map (fun e => if e.1 == k then (k, v) else e)
  else m ++ [(k, v)]

/-- The test `m[k] != nil` that gates every rule. -/
def enabled (m : CategoriesMap) (k : String) : Bool :=
  (m.get k).isSome

end CategoriesMap

/-- One iteration of the loop over the path entries in `validateErrorTypes`
(lines 162-171); `none` is an index-out-of-range fault. -/
def listOperationStep (inconsistencies : List SpecErrorOrInconsistency)
    (entry : String × PathItem) : Option (List SpecErrorOrInconsistency) := do
  let url := entry.1
  let path := entry.2
  let ending ← (Strings.Split url '/')[(Strings.Split url '/').length - 1]?
  if path.Post.isSome && Strings.Index ending "list" == 0 then
    pure (inconsistencies ++
      [{ Inconsistency := InconsistencyListOperationUsingPost,
         Err := "list operation using post. Path: " ++ url }])
  else
    pure inconsistencies

/-- The function `validateErrorTypes`.  `none` is a run-time fault: an index
out of range on the split path (lines 134-135), the dereference of a nil
document or of its nil `Info` (line 136), or, when ListOperationUsingPost is
enabled, the dereference of its nil `Paths` (line 162). -/
def validateErrorTypes (doc : Option Document) (specFile : String)
    (categories : CategoriesMap) : Option (List SpecErrorOrInconsistency) := do
  let inconsistencies : List SpecErrorOrInconsistency := []
  let stability ← (Strings.Split specFile '/')[5]?
  let isPreviewDirectory := stability == "preview"
  let versionFromPath ← (Strings.Split specFile '/')[6]?
  let d ← doc
  let info ← d.Spec.Info
  let versionFromSpec := info.Version
  let inconsistencies :=
    if categories.enabled ErrorTypeIncorrectSchemaVersion then
      if versionFromPath != versionFromSpec then
        inconsistencies ++
          [{ Inconsistency := ErrorTypeIncorrectSchemaVersion,
             Err := "incorrect schema version. Path: " ++ versionFromPath ++
                    ", Spec: " ++ versionFromSpec }]
      else inconsistencies
    else inconsistencies
  let inconsistencies :=
    if categories.enabled ErrorPreviewSchemaWithoutPreviewVersion then
      if isPreviewDirectory && !Strings.Contains versionFromSpec "preview" then
        inconsistencies ++
          [{ Inconsistency := ErrorPreviewSchemaWithoutPreviewVersion,
             Err := "preview schema without preview version. Path: " ++ versionFromPath ++
                    ", Spec: " ++ versionFromSpec }]
      else inconsistencies
    else inconsistencies
  let inconsistencies :=
    if categories.enabled ErrorStableSchemaWithPreviewVersion then
      if !isPreviewDirectory && Strings.Contains versionFromSpec "preview" then
        inconsistencies ++
          [{ Inconsistency := ErrorStableSchemaWithPreviewVersion,
             Err := "stable schema with preview version. Path: " ++ versionFromPath ++
                    ", Spec: " ++ versionFromSpec }]
      else inconsistencies
    else inconsistencies
  if categories.enabled InconsistencyListOperationUsingPost then do
    let paths ← d.Spec.Paths
    paths.Paths.foldlM listOperationStep inconsistencies
  else
    pure inconsistencies

/-! ### Vocabulary of the rule properties -/

/-- The findings of one category in a result, in order. -/
def findingsOf (category : String) (r : List SpecErrorOrInconsistency) :
    List SpecErrorOrInconsistency :=
  r.filter (fun f => f.Inconsistency == category)

/-- The final `/`-delimited segment of a URL template. -/
def finalSegment (url : String) : String :=
  ((Strings.Split url '/').getLast?).getD ""

/-- A path entry that defines a POST operation under a URL whose final segment
begins with `list`. -/
def listsViaPost (entry : String × PathItem) : Bool :=
  entry.2.Post.isSome && "list".data.isPrefixOf (finalSegment entry.1).data

/-- The path entries of a document, none for a document without `paths`. -/
def pathEntries (d : Document) : List (String × PathItem) :=
  match d.Spec.Paths with
  | some paths => paths.Paths
  | none => []

/-- The finding that reports a list operation using POST at `url`. -/
def listOperationFinding (url : String) : SpecErrorOrInconsistency :=
  { Inconsistency := InconsistencyListOperationUsingPost,
    Err := "list operation using post. Path: " ++ url }

/-- The categories that the built-in defaults of `runAllValidations` mark as
on (`&pTrue` in the map literal). -/
def defaultOnCategories : List String :=
  [ErrorTypeIncorrectSchemaVersion, ErrorPreviewSchemaWithoutPreviewVersion,
   ErrorStableSchemaWithPreviewVersion, InconsistencyListOperationUsingPost]

/-- The category mapping built at the start of `runAllValidations`
(lines 40-55).  `supplied = none` stands for `viper.IsSet("categories")` being
false (no flag, environment variable or configuration value was given);
`supplied = some l` for it being true with `viper.GetStringSlice("categories")`
returning `l`. -/
def categoriesMap (supplied : Option (List String)) : CategoriesMap :=
  let categoriesMap : CategoriesMap :=
    [(ErrorSchemaValidationFailed, none),
     (ErrorTypeIncorrectSchemaVersion, some true),
     (ErrorPreviewSchemaWithoutPreviewVersion, some true),
     (ErrorStableSchemaWithPreviewVersion, some true),
     (InconsistencyListOperationUsingPost, some true)]
  match supplied with
  | none => categoriesMap
  | some categories =>
    let categoriesMap :=
      (categoriesMap.map Prod.fst).foldl (fun m category => m.set category none) categoriesMap
    categories.foldl (fun m category => m.set category (some true)) categoriesMap

/-! ## Package `path` -/

namespace Path

/-- One element of the path read by `path.Clean`, applied to the elements
written so far: an empty element and `.` are dropped, `..` removes the last
written element when that is not itself `..` and is otherwise kept on an
unrooted path and dropped on a rooted one, and any other element is written. -/
def cleanStep (rooted : Bool) (out : List (List Char)) (e : List Char) : List (List Char) :=
  if e = [] then out
  else if e = ['.'] then out
  else if e = ['.', '.'] then
    match out.getLast? with
    | some t =>
      if t = ['.', '.'] then (if rooted then out else out ++ [e])
      else out.dropLast
    | none => if rooted then out else out ++ [e]
  else out ++ [e]

/-- Go `path.Clean`: the shortest path name equivalent to `path` by purely
lexical processing, computed element by element. -/
def Clean (path : String) : String :=
  if path = "" then "."
  else
    let rooted := path.data.head? == some '/'
    let out := (Strings.splitChars '/' path.data).foldl (cleanStep rooted) []
    if rooted then String.mk ('/' :: Strings.joinChars '/' out)
    else if out = [] then "."
    else String.mk (Strings.joinChars '/' out)

/-- Go `path.Join`: the elements from the first non-empty one on, separated by
slashes, then cleaned; the empty string when every element is empty. -/
def Join (elem : List String) : String :=
  let rest := elem.dropWhile (fun e => e == "")
  if rest = [] then ""
  else Clean (String.mk (Strings.joinChars '/' (rest.map String.data)))

/-- The scan of `path.Ext` from the end of the name: `rev` holds the bytes not
yet visited, last first, and `acc` the bytes already passed. -/
def extScan : List Char → List Char → List Char
  | [], _ => []
  | c :: rev, acc =>
    if c = '/' then []
    else if c = '.' then c :: acc
    else extScan rev (c :: acc)

/-- Go `path.Ext`: the suffix beginning at the final dot in the final
slash-separated element of `path`; empty if there is no dot. -/
def Ext (path : String) : String :=
  String.mk (extScan path.data.reverse [])

/-- An element that `path.Clean` writes as it stands. -/
def Normal (e : List Char) : Prop :=
  e ≠ [] ∧ '/' ∉ e ∧ e ≠ ['.'] ∧ e ≠ ['.', '.']

/-- The shape of the elements written by `path.Clean`: a run of `..` (none on
a rooted path) followed by names. -/
def CleanOut (rooted : Bool) (out : List (List Char)) : Prop :=
  ∃ dds names, out = dds ++ names ∧ (∀ e ∈ dds, e = ['.', '.']) ∧
    (∀ e ∈ names, Normal e) ∧ (rooted = true → dds = [])

/-- A path that `path.Clean` yields for a directory below which names can be
appended: the rendering of a non-empty list of cleaned elements. -/
def CleanDir (p : String) : Prop :=
  ∃ rooted out, CleanOut rooted out ∧ out ≠ [] ∧
    p.data = (if rooted = true then ['/'] else []) ++ Strings.joinChars '/' out

end Path

/-! ## The file locator (`getSpecFiles`) -/

/-- The part of `os.FileInfo` the locator reads. -/
structure FileInfo where
  Name : String
  IsDir : Bool
  deriving DecidableEq, Repr

/-- The file system as seen through `ioutil.ReadDir`: the entries of the
directory at a path, or the error of a failed listing. -/
abbrev ReadDirFn := String → Except String (List FileInfo)

/-- Body of the loop over the entries of a version directory (lines 220-224). -/
def specFileLoop (stableVersionPath : String) (specFilePaths : List String)
    (specFile : FileInfo) : List String :=
  if !specFile.IsDir && Path.Ext specFile.Name == ".json" then
    specFilePaths ++ [Path.Join [stableVersionPath, specFile.Name]]
  else specFilePaths

/-- Body of the loop over the entries of a stability-tier directory
(lines 213-226). -/
def stableVersionLoop (ReadDir : ReadDirFn) (stablePreviewPath : String)
    (specFilePaths : List String) (stableVersion : FileInfo) : Except String (List String) :=
  if stableVersion.IsDir then do
    let stableVersionPath := Path.Join [stablePreviewPath, stableVersion.Name]
    let specFiles ← ReadDir stableVersionPath
    pure (specFiles.foldl (specFileLoop stableVersionPath) specFilePaths)
  else pure specFilePaths

/-- Body of the loop over the entries of a resource-namespace directory
(lines 206-228).  The condition is parsed as Go parses it: `&&` binds tighter
than `||`. -/
def stablePreviewLoop (ReadDir : ReadDirFn) (namespacePath : String)
    (specFilePaths : List String) (stablePreview : FileInfo) : Except String (List String) :=
  if (stablePreview.IsDir && stablePreview.Name == "stable") || stablePreview.Name == "preview" then do
    let stablePreviewPath := Path.Join [namespacePath, stablePreview.Name]
    let stableVersions ← ReadDir stablePreviewPath
    stableVersions.foldlM (stableVersionLoop ReadDir stablePreviewPath) specFilePaths
  else pure specFilePaths

/-- Body of the loop over the entries of a `resource-manager` directory
(lines 198-230). -/
def namespaceLoop (ReadDir : ReadDirFn) (specPath : String) (specDir resourceManager : FileInfo)
    (specFilePaths : List String) (ns : FileInfo) : Except String (List String) :=
  if ns.IsDir then do
    let namespacePath := Path.Join [specPath, specDir.Name, resourceManager.Name, ns.Name]
    let stablePreviewDirs ← ReadDir namespacePath
    stablePreviewDirs.foldlM (stablePreviewLoop ReadDir namespacePath) specFilePaths
  else pure specFilePaths

/-- Body of the loop over the entries of a service directory (lines 191-232). -/
def resourceManagerLoop (ReadDir : ReadDirFn) (specPath : String) (specDir : FileInfo)
    (specFilePaths : List String) (resourceManager : FileInfo) : Except String (List String) :=
  if resourceManager.IsDir && resourceManager.Name == "resource-manager" then do
    let namespacesDir ← ReadDir (Path.Join [specPath, specDir.Name, resourceManager.Name])
    namespacesDir.foldlM (namespaceLoop ReadDir specPath specDir resourceManager) specFilePaths
  else pure specFilePaths

/-- Body of the loop over the entries of the `specification` directory
(lines 184-234). -/
def specDirLoop (ReadDir : ReadDirFn) (specPath : String)
    (specFilePaths : List String) (specDir : FileInfo) : Except String (List String) :=
  if specDir.IsDir then do
    let resourceManagerDir ← ReadDir (Path.Join [specPath, specDir.Name])
    resourceManagerDir.foldlM (resourceManagerLoop ReadDir specPath specDir) specFilePaths
  else pure specFilePaths

/-- The function `getSpecFiles`: the list of paths, or the error of the first
listing that fails (Go returns a nil list with it). -/
def getSpecFiles (ReadDir : ReadDirFn) (sourceDir : String) : Except String (List String) := do
  let specFilePaths : List String := []
  let specPath := Path.Join [sourceDir, "specification"]
  let specFiles ← ReadDir specPath
  specFiles.foldlM (specDirLoop ReadDir specPath) specFilePaths

/-! ### The directory convention, as the specification words it -/

/-- The entries of the directory at `p`; none when it cannot be listed. -/
def entriesOf (ReadDir : ReadDirFn) (p : String) : List FileInfo :=
  match ReadDir p with
  | .ok l => l
  | .error _ => []

/-- The `.json` files directly inside the version directory `versionPath`. -/
def versionFiles (ReadDir : ReadDirFn) (versionPath : String) : List String :=
  ((entriesOf ReadDir versionPath).filter
      (fun f => !f.IsDir && Path.Ext f.Name == ".json")).map
    (fun f => versionPath ++ "/" ++ f.Name)

/-- The files of every version directory inside the tier directory `tierPath`. -/
def tierFiles (ReadDir : ReadDirFn) (tierPath : String) : List String :=
  ((entriesOf ReadDir tierPath).filter (fun v => v.IsDir)).flatMap
    (fun v => versionFiles ReadDir (tierPath ++ "/" ++ v.Name))

/-- The files below the subdirectories named `stable` or `preview` of the
resource-namespace directory `namespacePath`. -/
def namespaceFiles (ReadDir : ReadDirFn) (namespacePath : String) : List String :=
  ((entriesOf ReadDir namespacePath).filter
      (fun t => t.IsDir && (t.Name == "stable" || t.Name == "preview"))).flatMap
    (fun t => tierFiles ReadDir (namespacePath ++ "/" ++ t.Name))

/-- The files below every resource-namespace directory inside
`resourceManagerPath`. -/
def resourceManagerFiles (ReadDir : ReadDirFn) (resourceManagerPath : String) : List String :=
  ((entriesOf ReadDir resourceManagerPath).filter (fun n => n.IsDir)).flatMap
    (fun n => namespaceFiles ReadDir (resourceManagerPath ++ "/" ++ n.Name))

/-- The files below the subdirectory named `resource-manager` of the service
directory `servicePath`. -/
def serviceFiles (ReadDir : ReadDirFn) (servicePath : String) : List String :=
  ((entriesOf ReadDir servicePath).filter
      (fun m => m.IsDir && m.Name == "resource-manager")).flatMap
    (fun m => resourceManagerFiles ReadDir (servicePath ++ "/" ++ m.Name))

/-- The paths `root/specification/<ns>/resource-manager/<rns>/<tier>/<version>/<file>`
of the convention, in nested directory-listing order; `root/specification` is
the cleaned join of the root with `specification`. -/
def conventionPaths (ReadDir : ReadDirFn) (sourceDir : String) : List String :=
  ((entriesOf ReadDir (Path.Join [sourceDir, "specification"])).filter
      (fun s => s.IsDir)).flatMap
    (fun s => serviceFiles ReadDir (Path.Join [sourceDir, "specification"] ++ "/" ++ s.Name))

/-- A name as a directory listing returns it: non-empty, without a slash, and
neither `.` nor `..`. -/
def IsFileName (name : String) : Prop :=
  Path.Normal name.data

instance (name : String) : Decidable (IsFileName name) := by
  unfold IsFileName Path.Normal
  infer_instance

/-- What holds of `ioutil.ReadDir` on a tree of directories and regular files:
a listing holds file names, no name twice, and an entry that is not a
directory cannot itself be listed. -/
structure DirectoryTree (ReadDir : ReadDirFn) : Prop where
  names : ∀ p l, ReadDir p = .ok l → ∀ e ∈ l, IsFileName e.Name
  distinct : ∀ p l, ReadDir p = .ok l → (l.map (fun e => e.Name)).Nodup
  files : ∀ p l, ReadDir p = .ok l → ∀ e ∈ l, e.IsDir = false →
    ∀ l2, ReadDir (p ++ "/" ++ e.Name) ≠ .ok l2

/-- Every path that `g` lists below a directory extends the path of that
directory by a slash and more. -/
def Below (g : String → List String) : Prop :=
  ∀ D, ∀ q ∈ g D, ∃ rest, q.data = D.data ++ '/' :: rest

/-! ### Sample inputs -/

/-- A sample document: `/items/list` defined with POST only, a GET-only
`/items/listAll`, and a POST `/items/create`. -/
def sampleDocument : Document :=
  ⟨⟨some ⟨"2020-01-01"⟩,
    some ⟨[("/items/list", ⟨none, some ⟨"Items_List"⟩⟩),
      ("/items/listAll", ⟨some ⟨"Items_ListAll"⟩, none⟩),
      ("/items/create", ⟨none, some ⟨"Items_Create"⟩⟩)]⟩⟩⟩

/-- A document that loads without error from JSON with an `info` member
declaring version `declared` and no `paths` member. -/
def documentWithoutPaths (declared : String) : Document :=
  ⟨⟨some ⟨declared⟩, none⟩⟩

/-- A document that loads without error from JSON with no `info` member, whose
`paths` define `/items/list` with POST only. -/
def documentWithoutInfo : Document :=
  ⟨⟨none, some ⟨[("/items/list", ⟨none, some ⟨"Items_List"⟩⟩)]⟩⟩⟩

/-- A sample path in a preview directory. -/
def samplePreviewPath : String :=
  "r/specification/foo/resource-manager/bar/preview/2021-01-01-preview/svc.json"

/-- A sample path that follows the directory convention below a one-segment
source root. -/
def samplePath : String :=
  "r/specification/foo/resource-manager/bar/stable/2020-01-01/svc.json"

/-- The file system given by a table of directories and their listings; any
path outside the table cannot be listed. -/
def treeOf (table : List (String × List FileInfo)) : ReadDirFn := fun p =>
  match table.lookup p with
  | some l => .ok l
  | none => .error ("open " ++ p ++ ": cannot be listed")

/-- A sample tree below the root `r`: one service with a `resource-manager`
directory beside a `data-plane` one, one resource namespace with a `stable`, a
`preview` and an `other` tier, and version directories holding files of
several kinds. -/
def sampleTable : List (String × List FileInfo) :=
  [("r/specification", [⟨"foo", true⟩, ⟨"readme.md", false⟩]),
   ("r/specification/foo", [⟨"data-plane", true⟩, ⟨"resource-manager", true⟩]),
   ("r/specification/foo/data-plane", [⟨"bar", true⟩]),
   ("r/specification/foo/data-plane/bar", [⟨"stable", true⟩]),
   ("r/specification/foo/data-plane/bar/stable", [⟨"2020-01-01", true⟩]),
   ("r/specification/foo/data-plane/bar/stable/2020-01-01", [⟨"dp.json", false⟩]),
   ("r/specification/foo/resource-manager", [⟨"bar", true⟩, ⟨"readme.md", false⟩]),
   ("r/specification/foo/resource-manager/bar",
     [⟨"other", true⟩, ⟨"preview", true⟩, ⟨"stable", true⟩]),
   ("r/specification/foo/resource-manager/bar/other", [⟨"2019-01-01", true⟩]),
   ("r/specification/foo/resource-manager/bar/other/2019-01-01", [⟨"old.json", false⟩]),
   ("r/specification/foo/resource-manager/bar/preview",
     [⟨"2021-01-01-preview", true⟩, ⟨"x.json", false⟩]),
   ("r/specification/foo/resource-manager/bar/stable", [⟨"2020-01-01", true⟩]),
   ("r/specification/foo/resource-manager/bar/preview/2021-01-01-preview",
     [⟨"b.json", false⟩, ⟨"svc.json", false⟩]),
   ("r/specification/foo/resource-manager/bar/stable/2020-01-01",
     [⟨"a.txt", false⟩, ⟨"examples", true⟩, ⟨"svc.json", false⟩]),
   ("r/specification/foo/resource-manager/bar/stable/2020-01-01/examples",
     [⟨"get.json", false⟩])]

/-- The sample tree as a file system. -/
def sampleTree : ReadDirFn := treeOf sampleTable

/-- A tree whose resource-namespace directory `bar` holds a regular file
named `preview` next to a `stable` directory. -/
def previewFileTable : List (String × List FileInfo) :=
  [("r/specification", [⟨"foo", true⟩]),
   ("r/specification/foo", [⟨"resource-manager", true⟩]),
   ("r/specification/foo/resource-manager", [⟨"bar", true⟩]),
   ("r/specification/foo/resource-manager/bar", [⟨"preview", false⟩, ⟨"stable", true⟩]),
   ("r/specification/foo/resource-manager/bar/stable", [⟨"2020-01-01", true⟩]),
   ("r/specification/foo/resource-manager/bar/stable/2020-01-01", [⟨"svc.json", false⟩])]

/-- The tree with the regular file `preview` as a file system. -/
def previewFileTree : ReadDirFn := treeOf previewFileTable

/-- A tree whose resource-namespace directory `bar` holds a symbolic link named
`preview` that points to a directory: the listing of `bar` reports the link as
not a directory, and the link can itself be listed. -/
def previewLinkTable : List (String × List FileInfo) :=
  [("r/specification", [⟨"foo", true⟩]),
   ("r/specification/foo", [⟨"resource-manager", true⟩]),
   ("r/specification/foo/resource-manager", [⟨"bar", true⟩]),
   ("r/specification/foo/resource-manager/bar", [⟨"preview", false⟩, ⟨"stable", true⟩]),
   ("r/specification/foo/resource-manager/bar/preview", [⟨"2021-01-01-preview", true⟩]),
   ("r/specification/foo/resource-manager/bar/preview/2021-01-01-preview",
     [⟨"svc.json", false⟩]),
   ("r/specification/foo/resource-manager/bar/stable", [⟨"2020-01-01", true⟩]),
   ("r/specification/foo/resource-manager/bar/stable/2020-01-01", [⟨"svc.json", false⟩])]

/-- The tree with the symbolic link `preview` as a file system. -/
def previewLinkTree : ReadDirFn := treeOf previewLinkTable

/-- The same tree with the link named `stable` instead: `preview` is a
directory, `stable` a symbolic link that points to a directory. -/
def stableLinkTable : List (String × List FileInfo) :=
  [("r/specification", [⟨"foo", true⟩]),
   ("r/specification/foo", [⟨"resource-manager", true⟩]),
   ("r/specification/foo/resource-manager", [⟨"bar", true⟩]),
   ("r/specification/foo/resource-manager/bar", [⟨"preview", true⟩, ⟨"stable", false⟩]),
   ("r/specification/foo/resource-manager/bar/preview", [⟨"2021-01-01-preview", true⟩]),
   ("r/specification/foo/resource-manager/bar/preview/2021-01-01-preview",
     [⟨"svc.json", false⟩]),
   ("r/specification/foo/resource-manager/bar/stable", [⟨"2020-01-01", true⟩]),
   ("r/specification/foo/resource-manager/bar/stable/2020-01-01", [⟨"svc.json", false⟩])]

/-- The tree with the symbolic link `stable` as a file system. -/
def stableLinkTree : ReadDirFn := treeOf stableLinkTable

end AzSpecValidator

/-! ## The worker, the aggregation loop and the run (`runAllValidations`) -/

namespace AzSpecValidator

/-- The record a worker sends for one file. -/
structure Result where
  file : String
  errs : List SpecErrorOrInconsistency
  deriving DecidableEq, Repr

/-- The Go `map[string][]SpecErrorOrInconsistency` of the report: an
association list with pairwise distinct keys. -/
abbrev ReportMap := List (String × List SpecErrorOrInconsistency)

namespace ReportMap

/-- Map read with presence test, `v, ok := m[k]`. -/
def get (m : ReportMap) (k : String) : Option (List SpecErrorOrInconsistency) :=
  m.lookup k

/-- Map write `m[k] = v`: overwrite the entry of `k`, or add one. -/
def set (m : ReportMap) (k : String) (v : List SpecErrorOrInconsistency) : ReportMap :=
  if m.any (fun e => e.1 == k) then m.map (fun e => if e.1 == k then (k, v) else e)
  else m ++ [(k, v)]

end ReportMap

/-- Body of the worker loop for one job (lines 73-93).  `JSONSpec` is
`loads.JSONSpec`, `none` being the nil document that comes with a load error
(the error is printed and the worker goes on); `Validate` is the schema
validator, giving the messages of `validation.Errors`, or `none` for a nil
validation.  The result `none` is a run-time fault of the worker. -/
def worker (JSONSpec : String → Option Document) (Validate : Document → Option (List String))
    (categoriesMap : CategoriesMap) (specFile : String) : Option Result := do
  let doc := JSONSpec specFile
  let inconsistencies ← validateErrorTypes doc specFile categoriesMap
  let inconsistencies ←
    if categoriesMap.enabled ErrorSchemaValidationFailed then do
      let d ← doc
      match Validate d with
      | some errors =>
        if errors.length > 0 then
          pure (errors.foldl
            (fun acc err => acc ++ [{ Inconsistency := ErrorSchemaValidationFailed, Err := err }])
            inconsistencies)
        else pure inconsistencies
      | none => pure inconsistencies
    else pure inconsistencies
  pure { file := specFile, errs := inconsistencies }

/-- The findings the worker appends for the messages of the schema validator. -/
def schemaFindings (Validate : Document → Option (List String)) (d : Document) :
    List SpecErrorOrInconsistency :=
  match Validate d with
  | some errors =>
    errors.map (fun err => { Inconsistency := ErrorSchemaValidationFailed, Err := err })
  | none => []

/-- The records of all jobs in job order; a fault of any worker ends the
process, so there is no list of records then. -/
def runWorkers (JSONSpec : String → Option Document) (Validate : Document → Option (List String))
    (categoriesMap : CategoriesMap) : List String → Option (List Result)
  | [] => some []
  | specFile :: rest => do
    let result ← worker JSONSpec Validate categoriesMap specFile
    let results ← runWorkers JSONSpec Validate categoriesMap rest
    pure (result :: results)

/-- One iteration of the aggregation loop (lines 100-106), without the progress
line. -/
def aggregateStep (validationErrors : ReportMap) (result : Result) : ReportMap :=
  if result.errs.length > 0 then validationErrors.set result.file result.errs
  else validationErrors

/-- The aggregation loop over the records in the order in which the channel
delivers them, from the empty report map. -/
def aggregate (results : List Result) : ReportMap :=
  results.foldl aggregateStep []

/-- The order in which the result channel delivers the records of the ten
workers: some rearrangement of them. -/
structure Schedule where
  arrival : List Result → List Result
  perm : ∀ l, (arrival l).Perm l

/-- What a run of `runAllValidations` works with: the file system, the
document loader, the schema validator and the scheduling of the workers. -/
structure Env where
  ReadDir : ReadDirFn
  JSONSpec : String → Option Document
  Validate : Document → Option (List String)
  schedule : Schedule

/-- What a run that returns has done: the error returned (`none` is nil), the
files handed to the workers, and the report map written to the output file,
if one was written. -/
structure Run where
  err : Option String
  validated : List String
  report : Option ReportMap
  deriving DecidableEq, Repr

/-- The function `runAllValidations`, without its console output.  The result
`none` is a run that does not return because a worker faulted; marshalling the
report map of strings cannot fail, and the error of writing the file is
ignored as in the source. -/
def runAllValidations (env : Env) (supplied : Option (List String)) (sourceDir : String) :
    Option Run :=
  let categoriesMap := categoriesMap supplied
  match getSpecFiles env.ReadDir sourceDir with
  | .error err => some { err := some err, validated := [], report := none }
  | .ok specFiles =>
    match runWorkers env.JSONSpec env.Validate categoriesMap specFiles with
    | none => none
    | some results =>
      let validationErrors := (env.schedule.arrival results).foldl aggregateStep []
      some { err := none, validated := specFiles, report := some validationErrors }

/-- The default of the `--source` flag (`cmd/root.go`, line 33). -/
def defaultSource : String := "./azure-rest-api-specs"

/-! ### Vocabulary of the locator properties -/

/-- Listings hold file names only. -/
def PlainNames (ReadDir : ReadDirFn) : Prop :=
  ∀ p l, ReadDir p = .ok l → ∀ e ∈ l, IsFileName e.Name

/-- A path that is one relative segment: non-empty, without a slash, and not
the `.` that names no segment. -/
def IsRelativeSegment (p : String) : Prop :=
  p.data ≠ [] ∧ '/' ∉ p.data ∧ p.data ≠ ['.']

instance (p : String) : Decidable (IsRelativeSegment p) := by
  unfold IsRelativeSegment
  infer_instance

/-- The condition of line 207 on an entry of a resource-namespace directory,
parsed as Go parses it. -/
def tierCondition (e : FileInfo) : Bool :=
  (e.IsDir && e.Name == "stable") || e.Name == "preview"

/-- The files below the entries of `namespacePath` that pass the condition of
line 207. -/
def locatedNamespaceFiles (ReadDir : ReadDirFn) (namespacePath : String) : List String :=
  ((entriesOf ReadDir namespacePath).filter tierCondition).flatMap
    (fun t => tierFiles ReadDir (namespacePath ++ "/" ++ t.Name))

/-- The located files below every resource-namespace directory inside
`resourceManagerPath`. -/
def locatedResourceManagerFiles (ReadDir : ReadDirFn) (resourceManagerPath : String) :
    List String :=
  ((entriesOf ReadDir resourceManagerPath).filter (fun n => n.IsDir)).flatMap
    (fun n => locatedNamespaceFiles ReadDir (resourceManagerPath ++ "/" ++ n.Name))

/-- The located files below the subdirectory named `resource-manager` of
`servicePath`. -/
def locatedServiceFiles (ReadDir : ReadDirFn) (servicePath : String) : List String :=
  ((entriesOf ReadDir servicePath).filter
      (fun m => m.IsDir && m.Name == "resource-manager")).flatMap
    (fun m => locatedResourceManagerFiles ReadDir (servicePath ++ "/" ++ m.Name))

/-- The paths that a traversal without listing failure collects, with the tier
condition as the code has it. -/
def locatedPaths (ReadDir : ReadDirFn) (sourceDir : String) : List String :=
  ((entriesOf ReadDir (Path.Join [sourceDir, "specification"])).filter
      (fun s => s.IsDir)).flatMap
    (fun s => locatedServiceFiles ReadDir
      (Path.Join [sourceDir, "specification"] ++ "/" ++ s.Name))

/-- The error of a result, if it is one. -/
def errorOf {α : Type} : Except String α → Option String
  | .error e => some e
  | .ok _ => none

/-- The error of the first path in `dirs` whose listing fails. -/
def firstError (ReadDir : ReadDirFn) (dirs : List String) : Option String :=
  dirs.findSome? (fun p => errorOf (ReadDir p))

/-- The directories the traversal lists for one entry of a tier directory. -/
def versionDirs (stablePreviewPath : String) (stableVersion : FileInfo) : List String :=
  if stableVersion.IsDir then [Path.Join [stablePreviewPath, stableVersion.Name]] else []

/-- The directories the traversal lists for one entry of a resource-namespace
directory, in the order of listing. -/
def stablePreviewDirs (ReadDir : ReadDirFn) (namespacePath : String) (stablePreview : FileInfo) :
    List String :=
  if tierCondition stablePreview then
    Path.Join [namespacePath, stablePreview.Name] ::
      (entriesOf ReadDir (Path.Join [namespacePath, stablePreview.Name])).flatMap
        (versionDirs (Path.Join [namespacePath, stablePreview.Name]))
  else []

/-- The directories the traversal lists for one entry of a `resource-manager`
directory. -/
def namespaceDirs (ReadDir : ReadDirFn) (specPath : String) (specDir resourceManager : FileInfo)
    (ns : FileInfo) : List String :=
  if ns.IsDir then
    Path.Join [specPath, specDir.Name, resourceManager.Name, ns.Name] ::
      (entriesOf ReadDir
        (Path.Join [specPath, specDir.Name, resourceManager.Name, ns.Name])).flatMap
        (stablePreviewDirs ReadDir
          (Path.Join [specPath, specDir.Name, resourceManager.Name, ns.Name]))
  else []

/-- The directories the traversal lists for one entry of a service directory. -/
def resourceManagerDirs (ReadDir : ReadDirFn) (specPath : String) (specDir : FileInfo)
    (resourceManager : FileInfo) : List String :=
  if resourceManager.IsDir && resourceManager.Name == "resource-manager" then
    Path.Join [specPath, specDir.Name, resourceManager.Name] ::
      (entriesOf ReadDir (Path.Join [specPath, specDir.Name, resourceManager.Name])).flatMap
        (namespaceDirs ReadDir specPath specDir resourceManager)
  else []

/-- The directories the traversal lists for one entry of the `specification`
directory. -/
def specDirDirs (ReadDir : ReadDirFn) (specPath : String) (specDir : FileInfo) : List String :=
  if specDir.IsDir then
    Path.Join [specPath, specDir.Name] ::
      (entriesOf ReadDir (Path.Join [specPath, specDir.Name])).flatMap
        (resourceManagerDirs ReadDir specPath specDir)
  else []

/-- The directories that `getSpecFiles` descends into, in the order in which it
lists them: the `specification` directory first, then depth-first through the
entries that pass the condition of each level.  Below a directory whose
listing fails there is nothing to descend into. -/
def traversalDirs (ReadDir : ReadDirFn) (sourceDir : String) : List String :=
  Path.Join [sourceDir, "specification"] ::
    (entriesOf ReadDir (Path.Join [sourceDir, "specification"])).flatMap
      (specDirDirs ReadDir (Path.Join [sourceDir, "specification"]))

/-! ### Sample runs -/

/-- The schedule that delivers the records in job order. -/
def inOrder : Schedule := ⟨fun l => l, fun l => List.Perm.refl l⟩

/-- A document in a stable directory that declares a preview version and
defines `/items/list` with POST. -/
def sampleMixedDocument : Document :=
  ⟨⟨some ⟨"2020-01-01-preview"⟩, some ⟨[("/items/list", ⟨none, some ⟨"Items_List"⟩⟩)]⟩⟩⟩

/-- A run over the sample tree in which every file loads as the sample
document and the schema validator has nothing to report. -/
def sampleEnv : Env :=
  { ReadDir := sampleTree
    JSONSpec := fun _ => some sampleDocument
    Validate := fun _ => some []
    schedule := inOrder }

/-- A run over the sample tree in which the file `b.json` of the preview
version fails to load. -/
def failedLoadEnv : Env :=
  { ReadDir := sampleTree
    JSONSpec := fun p =>
      if p = "r/specification/foo/resource-manager/bar/preview/2021-01-01-preview/b.json"
      then none else some sampleDocument
    Validate := fun _ => some []
    schedule := inOrder }

/-- A run over the tree whose resource-namespace directory holds a regular file
named `preview`. -/
def previewFileEnv : Env :=
  { ReadDir := previewFileTree
    JSONSpec := fun _ => some sampleDocument
    Validate := fun _ => some []
    schedule := inOrder }

/-- A run over a tree whose `specification` directory has no entries. -/
def emptyEnv : Env :=
  { ReadDir := treeOf [("r/specification", [])]
    JSONSpec := fun _ => some sampleDocument
    Validate := fun _ => some []
    schedule := inOrder }

/-- Three records, the second without findings. -/
def sampleResults : List Result :=
  [⟨"a.json", [⟨ErrorTypeIncorrectSchemaVersion, "first"⟩]⟩,
   ⟨"b.json", []⟩,
   ⟨"c.json", [⟨InconsistencyListOperationUsingPost, "second"⟩,
               ⟨ErrorSchemaValidationFailed, "third"⟩]⟩]

/-- The findings of the checker on the mixed sample document at the sample
path, under the default categories. -/
def sampleMixedFindings : List SpecErrorOrInconsistency :=
  [⟨ErrorTypeIncorrectSchemaVersion,
    "incorrect schema version. Path: 2020-01-01, Spec: 2020-01-01-preview"⟩,
   ⟨ErrorStableSchemaWithPreviewVersion,
    "stable schema with preview version. Path: 2020-01-01, Spec: 2020-01-01-preview"⟩,
   ⟨InconsistencyListOperationUsingPost, "list operation using post. Path: /items/list"⟩]

/-- The record of a worker on the mixed sample document when only
SchemaValidationFailed and ListOperationUsingPost are supplied and the schema
validator reports one message. -/
def sampleRecord : Result :=
  ⟨samplePath,
   [⟨InconsistencyListOperationUsingPost, "list operation using post. Path: /items/list"⟩,
    ⟨ErrorSchemaValidationFailed, "info.title is required"⟩]⟩

/-- A tree below a root of five segments, `a/b/c/d/e`. -/
def deepTable : List (String × List FileInfo) :=
  [("a/b/c/d/e/specification", [⟨"foo", true⟩]),
   ("a/b/c/d/e/specification/foo", [⟨"resource-manager", true⟩]),
   ("a/b/c/d/e/specification/foo/resource-manager", [⟨"bar", true⟩]),
   ("a/b/c/d/e/specification/foo/resource-manager/bar", [⟨"stable", true⟩]),
   ("a/b/c/d/e/specification/foo/resource-manager/bar/stable", [⟨"2020-01-01", true⟩]),
   ("a/b/c/d/e/specification/foo/resource-manager/bar/stable/2020-01-01",
     [⟨"svc.json", false⟩])]

/-- The tree below the five-segment root as a file system. -/
def deepTree : ReadDirFn := treeOf deepTable

/-- A tree below the default source, as `path.Join` cleans it. -/
def defaultTable : List (String × List FileInfo) :=
  [("azure-rest-api-specs/specification", [⟨"foo", true⟩]),
   ("azure-rest-api-specs/specification/foo", [⟨"resource-manager", true⟩]),
   ("azure-rest-api-specs/specification/foo/resource-manager", [⟨"bar", true⟩]),
   ("azure-rest-api-specs/specification/foo/resource-manager/bar",
     [⟨"preview", true⟩, ⟨"stable", true⟩]),
   ("azure-rest-api-specs/specification/foo/resource-manager/bar/preview",
     [⟨"2021-01-01-preview", true⟩]),
   ("azure-rest-api-specs/specification/foo/resource-manager/bar/preview/2021-01-01-preview",
     [⟨"svc.json", false⟩]),
   ("azure-rest-api-specs/specification/foo/resource-manager/bar/stable",
     [⟨"2020-01-01", true⟩]),
   ("azure-rest-api-specs/specification/foo/resource-manager/bar/stable/2020-01-01",
     [⟨"svc.json", false⟩])]

/-- The tree below the default source as a file system. -/
def defaultTree : ReadDirFn := treeOf defaultTable

end AzSpecValidator

/-! ## Lemmas on the string functions -/

namespace AzSpecValidator

namespace Strings

theorem splitChars_ne_nil (sep : Char) (l : List Char) : splitChars sep l ≠ [] := by
  induction l with
  | nil => simp [splitChars]
  | cons c cs ih =>
    unfold splitChars
    split_ifs
    · simp
    · cases h : splitChars sep cs <;> simp

theorem Split_length_pos (s : String) (sep : Char) : 0 < (Split s sep).length := by
  have h := splitChars_ne_nil sep s.data
  unfold Split
  rw [List.length_map]
  exact List.length_pos.mpr h

/-- The trailing-segment read `Split(url)[len(Split(url))-1]` is always in range. -/
theorem Split_last_isSome (s : String) (sep : Char) :
    ∃ ending, (Split s sep)[(Split s sep).length - 1]? = some ending := by
  have h := Split_length_pos s sep
  exact ⟨(Split s sep)[(Split s sep).length - 1], List.getElem?_eq_getElem (by omega)⟩

theorem indexFrom_ge (sub l : List Char) (i : Nat) :
    indexFrom sub l i = -1 ∨ (i : Int) ≤ indexFrom sub l i := by
  induction l generalizing i with
  | nil => unfold indexFrom; split_ifs <;> simp
  | cons c cs ih =>
    unfold indexFrom
    split_ifs
    · simp
    · rcases ih (i + 1) with h | h
      · exact Or.inl h
      · right; push_cast at h; omega

theorem indexFrom_eq_start_iff (sub l : List Char) (i : Nat) :
    indexFrom sub l i = (i : Int) ↔ sub <+: l := by
  cases l with
  | nil =>
    unfold indexFrom
    rw [← List.isPrefixOf_iff_prefix]
    split_ifs with h
    · simp [h]
    · simp [h]
  | cons c cs =>
    unfold indexFrom
    rw [← List.isPrefixOf_iff_prefix]
    split_ifs with h
    · simp [h]
    · simp only [h, Bool.false_eq_true, iff_false]
      rcases indexFrom_ge sub cs (i + 1) with h1 | h1
      · omega
      · push_cast at h1; omega

theorem indexFrom_nonneg_iff (sub l : List Char) (i : Nat) :
    0 ≤ indexFrom sub l i ↔ sub <:+: l := by
  induction l generalizing i with
  | nil =>
    unfold indexFrom
    split_ifs with h
    · have := List.isPrefixOf_iff_prefix.mp h
      simp [this.isInfix]
    · have h2 : ¬ sub <+: [] := fun hp => h (List.isPrefixOf_iff_prefix.mpr hp)
      simp only [List.prefix_nil] at h2
      simp [List.infix_nil, h2]
  | cons c cs ih =>
    unfold indexFrom
    rw [List.infix_cons_iff]
    split_ifs with h
    · have := List.isPrefixOf_iff_prefix.mp h
      simp [this]
    · have h2 : ¬ sub <+: c :: cs := fun hp => h (List.isPrefixOf_iff_prefix.mpr hp)
      rw [ih (i + 1)]
      simp [h2]

/-- `strings.Index(s, sub) == 0` holds exactly when `s` begins with `sub`. -/
theorem Index_eq_zero_iff (s sub : String) : Index s sub = 0 ↔ sub.data <+: s.data := by
  unfold Index
  exact_mod_cast indexFrom_eq_start_iff sub.data s.data 0

/-- `strings.Contains(s, sub)` holds exactly when `sub` is a substring of `s`. -/
theorem Contains_iff (s sub : String) : Contains s sub = true ↔ sub.data <:+: s.data := by
  unfold Contains Index
  rw [decide_eq_true_iff]
  exact indexFrom_nonneg_iff sub.data s.data 0

end Strings

end AzSpecValidator

/-! ## The consistency checker -/

namespace AzSpecValidator

theorem listOperationStep_eq (acc : List SpecErrorOrInconsistency) (entry : String × PathItem) :
    listOperationStep acc entry =
      some (acc ++ if listsViaPost entry then [listOperationFinding entry.1] else []) := by
  obtain ⟨ending, hend⟩ := Strings.Split_last_isSome entry.1 '/'
  have hlast : finalSegment entry.1 = ending := by
    unfold finalSegment
    rw [List.getLast?_eq_getElem?, hend]
    rfl
  have hidx : (Strings.Index ending "list" == 0) = "list".data.isPrefixOf ending.data := by
    rw [Bool.eq_iff_iff, beq_iff_eq, Strings.Index_eq_zero_iff, List.isPrefixOf_iff_prefix]
  unfold listOperationStep listsViaPost
  simp only [hend, hlast, hidx, Option.bind_eq_bind, Option.some_bind]
  split_ifs <;> simp_all [listOperationFinding]

theorem foldlM_listOperationStep (paths : List (String × PathItem))
    (acc : List SpecErrorOrInconsistency) :
    paths.foldlM listOperationStep acc =
      some (acc ++ (paths.filter listsViaPost).map (fun e => listOperationFinding e.1)) := by
  induction paths generalizing acc with
  | nil => simp
  | cons e es ih =>
    rw [List.foldlM_cons, listOperationStep_eq]
    simp only [Option.bind_eq_bind, Option.some_bind, ih]
    by_cases h : listsViaPost e = true
    · simp [h, List.filter_cons]
    · simp [h, List.filter_cons]

theorem pathEntries_of_some (d : Document) (paths : Paths) (h : d.Spec.Paths = some paths) :
    pathEntries d = paths.Paths := by
  unfold pathEntries
  rw [h]

/-- The result of `validateErrorTypes`, rule by rule, on a loaded document
that has its `info`, and its `paths` when ListOperationUsingPost is enabled,
and a path with segments 5 and 6. -/
theorem validateErrorTypes_eq (d : Document) (specFile : String) (categories : CategoriesMap)
    (stability versionFromPath : String) (info : Info)
    (h5 : (Strings.Split specFile '/')[5]? = some stability)
    (h6 : (Strings.Split specFile '/')[6]? = some versionFromPath)
    (hi : d.Spec.Info = some info)
    (hp : categories.enabled InconsistencyListOperationUsingPost = true →
      d.Spec.Paths ≠ none) :
    validateErrorTypes (some d) specFile categories = some (
      (if categories.enabled ErrorTypeIncorrectSchemaVersion = true ∧
          versionFromPath ≠ info.Version then
        [{ Inconsistency := ErrorTypeIncorrectSchemaVersion,
           Err := "incorrect schema version. Path: " ++ versionFromPath ++
                  ", Spec: " ++ info.Version }] else []) ++
      (if categories.enabled ErrorPreviewSchemaWithoutPreviewVersion = true ∧
          stability = "preview" ∧ Strings.Contains info.Version "preview" = false then
        [{ Inconsistency := ErrorPreviewSchemaWithoutPreviewVersion,
           Err := "preview schema without preview version. Path: " ++ versionFromPath ++
                  ", Spec: " ++ info.Version }] else []) ++
      (if categories.enabled ErrorStableSchemaWithPreviewVersion = true ∧
          stability ≠ "preview" ∧ Strings.Contains info.Version "preview" = true then
        [{ Inconsistency := ErrorStableSchemaWithPreviewVersion,
           Err := "stable schema with preview version. Path: " ++ versionFromPath ++
                  ", Spec: " ++ info.Version }] else []) ++
      (if categories.enabled InconsistencyListOperationUsingPost = true then
        ((pathEntries d).filter listsViaPost).map (fun e => listOperationFinding e.1)
       else [])) := by
  unfold validateErrorTypes
  simp only [h5, h6, hi, Option.bind_eq_bind, Option.some_bind]
  by_cases c4 : categories.enabled InconsistencyListOperationUsingPost = true
  · obtain ⟨paths, hps⟩ := Option.ne_none_iff_exists'.mp (hp c4)
    rw [pathEntries_of_some d paths hps]
    simp only [c4, hps, if_true, Option.some_bind, foldlM_listOperationStep]
    by_cases c1 : categories.enabled ErrorTypeIncorrectSchemaVersion = true <;>
    by_cases c2 : categories.enabled ErrorPreviewSchemaWithoutPreviewVersion = true <;>
    by_cases c3 : categories.enabled ErrorStableSchemaWithPreviewVersion = true <;>
    by_cases e1 : versionFromPath = info.Version <;>
    by_cases e2 : stability = "preview" <;>
    cases e3 : Strings.Contains info.Version "preview" <;>
    simp [c1, c2, c3, e1, e2, e3]
  · by_cases c1 : categories.enabled ErrorTypeIncorrectSchemaVersion = true <;>
    by_cases c2 : categories.enabled ErrorPreviewSchemaWithoutPreviewVersion = true <;>
    by_cases c3 : categories.enabled ErrorStableSchemaWithPreviewVersion = true <;>
    by_cases e1 : versionFromPath = info.Version <;>
    by_cases e2 : stability = "preview" <;>
    cases e3 : Strings.Contains info.Version "preview" <;>
    simp [c1, c2, c3, c4, e1, e2, e3]

end AzSpecValidator

namespace AzSpecValidator

theorem findingsOf_append (c : String) (a b : List SpecErrorOrInconsistency) :
    findingsOf c (a ++ b) = findingsOf c a ++ findingsOf c b := by
  simp [findingsOf]

theorem findingsOf_listOperation (c : String) (l : List (String × PathItem)) :
    findingsOf c (l.map (fun e => listOperationFinding e.1)) =
      if c = InconsistencyListOperationUsingPost then l.map (fun e => listOperationFinding e.1)
      else [] := by
  induction l with
  | nil => simp [findingsOf]
  | cons e es ih =>
    unfold findingsOf at ih ⊢
    rw [List.map_cons, List.filter_cons, ih]
    by_cases h : c = InconsistencyListOperationUsingPost
    · simp [h, listOperationFinding]
    · have h2 : ¬ InconsistencyListOperationUsingPost = c := fun e => h e.symm
      simp [h, h2, listOperationFinding]

theorem findingsOf_singleton (c : String) (f : SpecErrorOrInconsistency) :
    findingsOf c [f] = if f.Inconsistency = c then [f] else [] := by
  by_cases hc : f.Inconsistency = c <;> simp [findingsOf, hc]

theorem findingsOf_ite_list (c : String) (P : Prop) [Decidable P]
    (l : List SpecErrorOrInconsistency) :
    findingsOf c (if P then l else []) = if P then findingsOf c l else [] := by
  by_cases hP : P <;> simp [findingsOf, hP]

theorem segments_of_length (specFile : String)
    (hlen : 7 ≤ (Strings.Split specFile '/').length) :
    ∃ stability versionFromPath,
      (Strings.Split specFile '/')[5]? = some stability ∧
      (Strings.Split specFile '/')[6]? = some versionFromPath :=
  ⟨(Strings.Split specFile '/')[5], (Strings.Split specFile '/')[6],
    List.getElem?_eq_getElem (by omega), List.getElem?_eq_getElem (by omega)⟩

theorem listOperationFinding_injective (u v : String)
    (h : listOperationFinding u = listOperationFinding v) : u = v := by
  unfold listOperationFinding at h
  have h2 := congrArg SpecErrorOrInconsistency.Err h
  simp only at h2
  have h3 := congrArg String.data h2
  simp only [String.data_append, List.append_cancel_left_eq] at h3
  exact String.ext h3

/-- Schema-version rule on a loaded document that has its info object (and its
paths object when ListOperationUsingPost is enabled) and a path of at least 7
segments: with IncorrectSchemaVersion enabled, the result has exactly one
IncorrectSchemaVersion finding, whose message gives the path version and the
declared version, when segment 6 differs from the declared version, and none
when they are equal. -/
theorem schema_version_rule (d : Document) (specFile : String) (categories : CategoriesMap)
    (info : Info)
    (hlen : 7 ≤ (Strings.Split specFile '/').length)
    (hen : categories.enabled ErrorTypeIncorrectSchemaVersion = true)
    (hi : d.Spec.Info = some info)
    (hp : categories.enabled InconsistencyListOperationUsingPost = true →
      d.Spec.Paths ≠ none) :
    ∃ versionFromPath r,
      (Strings.Split specFile '/')[6]? = some versionFromPath ∧
      validateErrorTypes (some d) specFile categories = some r ∧
      (versionFromPath ≠ info.Version →
        findingsOf ErrorTypeIncorrectSchemaVersion r =
          [{ Inconsistency := ErrorTypeIncorrectSchemaVersion,
             Err := "incorrect schema version. Path: " ++ versionFromPath ++
                    ", Spec: " ++ info.Version }]) ∧
      (versionFromPath = info.Version →
        findingsOf ErrorTypeIncorrectSchemaVersion r = []) := by
  obtain ⟨stability, versionFromPath, h5, h6⟩ := segments_of_length specFile hlen
  have n1 : ErrorPreviewSchemaWithoutPreviewVersion ≠ ErrorTypeIncorrectSchemaVersion := by decide
  have n2 : ErrorStableSchemaWithPreviewVersion ≠ ErrorTypeIncorrectSchemaVersion := by decide
  have n3 : ErrorTypeIncorrectSchemaVersion ≠ InconsistencyListOperationUsingPost := by decide
  refine ⟨versionFromPath, _, h6,
    validateErrorTypes_eq d specFile categories _ _ info h5 h6 hi hp, ?_, ?_⟩
  · intro hne
    simp only [findingsOf_append, findingsOf_ite_list, findingsOf_singleton,
      findingsOf_listOperation]
    simp [hen, hne, n1, n2, n3]
  · intro heq
    simp only [findingsOf_append, findingsOf_ite_list, findingsOf_singleton,
      findingsOf_listOperation]
    simp [hen, heq, n1, n2, n3]

/-- The schema-version rule at the stable 2020-01-01 path with declared version
2020-01-02. -/
theorem schema_version_rule_witness :
    (7 ≤ (Strings.Split "r/specification/foo/resource-manager/bar/stable/2020-01-01/svc.json"
        '/').length ∧
      (categoriesMap none).enabled ErrorTypeIncorrectSchemaVersion = true) ∧
    ∃ versionFromPath r,
      (Strings.Split "r/specification/foo/resource-manager/bar/stable/2020-01-01/svc.json"
        '/')[6]? = some versionFromPath ∧
      validateErrorTypes (some ⟨⟨some ⟨"2020-01-02"⟩, some ⟨[]⟩⟩⟩)
        "r/specification/foo/resource-manager/bar/stable/2020-01-01/svc.json"
        (categoriesMap none) = some r ∧
      (versionFromPath ≠ "2020-01-02" →
        findingsOf ErrorTypeIncorrectSchemaVersion r =
          [{ Inconsistency := ErrorTypeIncorrectSchemaVersion,
             Err := "incorrect schema version. Path: " ++ versionFromPath ++
                    ", Spec: " ++ "2020-01-02" }]) ∧
      (versionFromPath = "2020-01-02" →
        findingsOf ErrorTypeIncorrectSchemaVersion r = []) :=
  ⟨⟨by decide, by decide⟩,
   schema_version_rule ⟨⟨some ⟨"2020-01-02"⟩, some ⟨[]⟩⟩⟩
     "r/specification/foo/resource-manager/bar/stable/2020-01-01/svc.json"
     (categoriesMap none) ⟨"2020-01-02"⟩ (by decide) (by decide) rfl (fun _ => by decide)⟩

/-- Preview-without-preview-version rule on a loaded document that has its info
object (and its paths object when ListOperationUsingPost is enabled) and a path
of at least 7 segments: with PreviewSchemaWithoutPreviewVersion enabled, the
result has exactly one finding of
that category when segment 5 is "preview" and the declared version does not
contain "preview", and none when segment 5 is "preview" and it does. -/
theorem preview_without_preview_version_rule (d : Document) (specFile : String)
    (categories : CategoriesMap) (info : Info)
    (hlen : 7 ≤ (Strings.Split specFile '/').length)
    (hen : categories.enabled ErrorPreviewSchemaWithoutPreviewVersion = true)
    (hi : d.Spec.Info = some info)
    (hp : categories.enabled InconsistencyListOperationUsingPost = true →
      d.Spec.Paths ≠ none) :
    ∃ stability versionFromPath r,
      (Strings.Split specFile '/')[5]? = some stability ∧
      (Strings.Split specFile '/')[6]? = some versionFromPath ∧
      validateErrorTypes (some d) specFile categories = some r ∧
      (stability = "preview" → ¬ "preview".data <:+: info.Version.data →
        findingsOf ErrorPreviewSchemaWithoutPreviewVersion r =
          [{ Inconsistency := ErrorPreviewSchemaWithoutPreviewVersion,
             Err := "preview schema without preview version. Path: " ++ versionFromPath ++
                    ", Spec: " ++ info.Version }]) ∧
      (stability = "preview" → "preview".data <:+: info.Version.data →
        findingsOf ErrorPreviewSchemaWithoutPreviewVersion r = []) := by
  obtain ⟨stability, versionFromPath, h5, h6⟩ := segments_of_length specFile hlen
  have n1 : ErrorTypeIncorrectSchemaVersion ≠ ErrorPreviewSchemaWithoutPreviewVersion := by
    decide
  have n2 : ErrorStableSchemaWithPreviewVersion ≠ ErrorPreviewSchemaWithoutPreviewVersion := by
    decide
  have n3 : ErrorPreviewSchemaWithoutPreviewVersion ≠ InconsistencyListOperationUsingPost := by
    decide
  refine ⟨stability, versionFromPath, _, h5, h6,
    validateErrorTypes_eq d specFile categories _ _ info h5 h6 hi hp, ?_, ?_⟩
  · intro hs hc
    rw [← Strings.Contains_iff, Bool.not_eq_true] at hc
    simp only [findingsOf_append, findingsOf_ite_list, findingsOf_singleton,
      findingsOf_listOperation]
    simp [hen, hs, hc, n1, n2, n3]
  · intro hs hc
    rw [← Strings.Contains_iff] at hc
    simp only [findingsOf_append, findingsOf_ite_list, findingsOf_singleton,
      findingsOf_listOperation]
    simp [hen, hs, hc, n1, n2, n3]

/-- The preview-without-preview-version rule at a preview directory whose
document declares 2021-01-01. -/
theorem preview_without_preview_version_rule_witness :
    (7 ≤ (Strings.Split
        "r/specification/foo/resource-manager/bar/preview/2021-01-01-preview/svc.json"
        '/').length ∧
      (categoriesMap none).enabled ErrorPreviewSchemaWithoutPreviewVersion = true) ∧
    ∃ stability versionFromPath r,
      (Strings.Split
        "r/specification/foo/resource-manager/bar/preview/2021-01-01-preview/svc.json"
        '/')[5]? = some stability ∧
      (Strings.Split
        "r/specification/foo/resource-manager/bar/preview/2021-01-01-preview/svc.json"
        '/')[6]? = some versionFromPath ∧
      validateErrorTypes (some ⟨⟨some ⟨"2021-01-01"⟩, some ⟨[]⟩⟩⟩)
        "r/specification/foo/resource-manager/bar/preview/2021-01-01-preview/svc.json"
        (categoriesMap none) = some r ∧
      (stability = "preview" → ¬ "preview".data <:+: "2021-01-01".data →
        findingsOf ErrorPreviewSchemaWithoutPreviewVersion r =
          [{ Inconsistency := ErrorPreviewSchemaWithoutPreviewVersion,
             Err := "preview schema without preview version. Path: " ++ versionFromPath ++
                    ", Spec: " ++ "2021-01-01" }]) ∧
      (stability = "preview" → "preview".data <:+: "2021-01-01".data →
        findingsOf ErrorPreviewSchemaWithoutPreviewVersion r = []) :=
  ⟨⟨by decide, by decide⟩,
   preview_without_preview_version_rule ⟨⟨some ⟨"2021-01-01"⟩, some ⟨[]⟩⟩⟩
     "r/specification/foo/resource-manager/bar/preview/2021-01-01-preview/svc.json"
     (categoriesMap none) ⟨"2021-01-01"⟩ (by decide) (by decide) rfl (fun _ => by decide)⟩

/-- Stable-with-preview-version rule on a loaded document that has its info
object (and its paths object when ListOperationUsingPost is enabled) and a path
of at least 7 segments: with StableSchemaWithPreviewVersion enabled, the result
has exactly one finding of that
category if segment 5 is not "preview" and the declared version contains
"preview", and none of that category otherwise. -/
theorem stable_with_preview_version_rule (d : Document) (specFile : String)
    (categories : CategoriesMap) (info : Info)
    (hlen : 7 ≤ (Strings.Split specFile '/').length)
    (hen : categories.enabled ErrorStableSchemaWithPreviewVersion = true)
    (hi : d.Spec.Info = some info)
    (hp : categories.enabled InconsistencyListOperationUsingPost = true →
      d.Spec.Paths ≠ none) :
    ∃ stability versionFromPath r,
      (Strings.Split specFile '/')[5]? = some stability ∧
      (Strings.Split specFile '/')[6]? = some versionFromPath ∧
      validateErrorTypes (some d) specFile categories = some r ∧
      ((stability ≠ "preview" ∧ "preview".data <:+: info.Version.data) →
        findingsOf ErrorStableSchemaWithPreviewVersion r =
          [{ Inconsistency := ErrorStableSchemaWithPreviewVersion,
             Err := "stable schema with preview version. Path: " ++ versionFromPath ++
                    ", Spec: " ++ info.Version }]) ∧
      (¬ (stability ≠ "preview" ∧ "preview".data <:+: info.Version.data) →
        findingsOf ErrorStableSchemaWithPreviewVersion r = []) := by
  obtain ⟨stability, versionFromPath, h5, h6⟩ := segments_of_length specFile hlen
  have n1 : ErrorTypeIncorrectSchemaVersion ≠ ErrorStableSchemaWithPreviewVersion := by decide
  have n2 : ErrorPreviewSchemaWithoutPreviewVersion ≠ ErrorStableSchemaWithPreviewVersion := by
    decide
  have n3 : ErrorStableSchemaWithPreviewVersion ≠ InconsistencyListOperationUsingPost := by
    decide
  refine ⟨stability, versionFromPath, _, h5, h6,
    validateErrorTypes_eq d specFile categories _ _ info h5 h6 hi hp, ?_, ?_⟩
  · rintro ⟨hs, hc⟩
    rw [← Strings.Contains_iff] at hc
    simp only [findingsOf_append, findingsOf_ite_list, findingsOf_singleton,
      findingsOf_listOperation]
    simp [hen, hs, hc, n1, n2, n3]
  · intro hn
    rw [← Strings.Contains_iff] at hn
    simp only [findingsOf_append, findingsOf_ite_list, findingsOf_singleton,
      findingsOf_listOperation]
    simp only [ne_eq] at hn
    simp [hen, hn, n1, n2, n3]

/-- The stable-with-preview-version rule at a stable directory whose document
declares a preview version. -/
theorem stable_with_preview_version_rule_witness :
    (7 ≤ (Strings.Split "r/specification/foo/resource-manager/bar/stable/2020-01-01/svc.json"
        '/').length ∧
      (categoriesMap none).enabled ErrorStableSchemaWithPreviewVersion = true) ∧
    ∃ stability versionFromPath r,
      (Strings.Split "r/specification/foo/resource-manager/bar/stable/2020-01-01/svc.json"
        '/')[5]? = some stability ∧
      (Strings.Split "r/specification/foo/resource-manager/bar/stable/2020-01-01/svc.json"
        '/')[6]? = some versionFromPath ∧
      validateErrorTypes (some ⟨⟨some ⟨"2020-01-01-preview"⟩, some ⟨[]⟩⟩⟩)
        "r/specification/foo/resource-manager/bar/stable/2020-01-01/svc.json"
        (categoriesMap none) = some r ∧
      ((stability ≠ "preview" ∧ "preview".data <:+: "2020-01-01-preview".data) →
        findingsOf ErrorStableSchemaWithPreviewVersion r =
          [{ Inconsistency := ErrorStableSchemaWithPreviewVersion,
             Err := "stable schema with preview version. Path: " ++ versionFromPath ++
                    ", Spec: " ++ "2020-01-01-preview" }]) ∧
      (¬ (stability ≠ "preview" ∧ "preview".data <:+: "2020-01-01-preview".data) →
        findingsOf ErrorStableSchemaWithPreviewVersion r = []) :=
  ⟨⟨by decide, by decide⟩,
   stable_with_preview_version_rule ⟨⟨some ⟨"2020-01-01-preview"⟩, some ⟨[]⟩⟩⟩
     "r/specification/foo/resource-manager/bar/stable/2020-01-01/svc.json"
     (categoriesMap none) ⟨"2020-01-01-preview"⟩ (by decide) (by decide) rfl (fun _ => by decide)⟩

end AzSpecValidator

namespace AzSpecValidator

/-- List-via-POST rule on a loaded document that has its info and paths objects:
with ListOperationUsingPost enabled, the loop over the path entries appends, in
visiting order, exactly one finding naming the URL for each entry that defines a
POST operation and whose final URL segment begins with "list", and nothing for
any other entry; on a path of at least 7 segments these are exactly the
ListOperationUsingPost findings of the result, and different URLs give different
findings. -/
theorem list_operation_using_post_rule (d : Document) (categories : CategoriesMap)
    (info : Info) (paths : Paths)
    (hen : categories.enabled InconsistencyListOperationUsingPost = true)
    (hi : d.Spec.Info = some info) (hp : d.Spec.Paths = some paths) :
    (∀ acc : List SpecErrorOrInconsistency,
      paths.Paths.foldlM listOperationStep acc =
        some (acc ++ (paths.Paths.filter listsViaPost).map
          (fun e => listOperationFinding e.1))) ∧
    (∀ specFile : String, 7 ≤ (Strings.Split specFile '/').length →
      ∃ r, validateErrorTypes (some d) specFile categories = some r ∧
        findingsOf InconsistencyListOperationUsingPost r =
          (paths.Paths.filter listsViaPost).map (fun e => listOperationFinding e.1)) ∧
    (∀ e : String × PathItem, listsViaPost e = true ↔
      e.2.Post ≠ none ∧ ∃ ending, (Strings.Split e.1 '/').getLast? = some ending ∧
        "list".data <+: ending.data) ∧
    (∀ u v : String, listOperationFinding u = listOperationFinding v → u = v) := by
  refine ⟨fun acc => foldlM_listOperationStep _ acc, ?_, ?_, listOperationFinding_injective⟩
  · intro specFile hlen
    obtain ⟨stability, versionFromPath, h5, h6⟩ := segments_of_length specFile hlen
    have n1 : ErrorTypeIncorrectSchemaVersion ≠ InconsistencyListOperationUsingPost := by
      decide
    have n2 : ErrorPreviewSchemaWithoutPreviewVersion ≠ InconsistencyListOperationUsingPost := by
      decide
    have n3 : ErrorStableSchemaWithPreviewVersion ≠ InconsistencyListOperationUsingPost := by
      decide
    have hp2 : categories.enabled InconsistencyListOperationUsingPost = true →
        d.Spec.Paths ≠ none := fun _ => by rw [hp]; exact Option.some_ne_none paths
    refine ⟨_, validateErrorTypes_eq d specFile categories _ _ info h5 h6 hi hp2, ?_⟩
    rw [pathEntries_of_some d paths hp]
    simp only [findingsOf_append, findingsOf_ite_list, findingsOf_singleton,
      findingsOf_listOperation]
    simp [hen, n1, n2, n3]
  · intro e
    obtain ⟨ending, hend⟩ := Strings.Split_last_isSome e.1 '/'
    rw [← List.getLast?_eq_getElem?] at hend
    unfold listsViaPost finalSegment
    rw [hend, Bool.and_eq_true, List.isPrefixOf_iff_prefix, Option.isSome_iff_ne_none]
    simp

/-- The list-via-POST rule at the sample document under the default categories. -/
theorem list_operation_using_post_rule_witness :
    (categoriesMap none).enabled InconsistencyListOperationUsingPost = true ∧
    7 ≤ (Strings.Split samplePath '/').length ∧
    ∃ r, validateErrorTypes (some sampleDocument) samplePath (categoriesMap none) = some r ∧
      findingsOf InconsistencyListOperationUsingPost r =
        ((pathEntries sampleDocument).filter listsViaPost).map
          (fun e => listOperationFinding e.1) :=
  ⟨by decide, by decide,
   (list_operation_using_post_rule sampleDocument (categoriesMap none) ⟨"2020-01-01"⟩
     ⟨pathEntries sampleDocument⟩ (by decide) rfl rfl).2.1 samplePath (by decide)⟩

end AzSpecValidator

namespace AzSpecValidator

/-- C1: a loaded document that declares version 2020-01-02 and has no paths
object, checked at the stable 2020-01-01 path of 8 segments under the default
categories, where IncorrectSchemaVersion is enabled: segment 6 differs from the
declared version, yet no result is returned, because the check faults at the
dereference of the absent paths object (line 162) after the finding was built.
The same document checked with IncorrectSchemaVersion alone returns exactly that
one finding, and a loaded document without an info object faults at line 136
under every category selection. -/
theorem missing_paths_loses_version_finding :
    (Strings.Split samplePath '/').length = 8 ∧
    (Strings.Split samplePath '/')[6]? = some "2020-01-01" ∧
    (categoriesMap none).enabled ErrorTypeIncorrectSchemaVersion = true ∧
    validateErrorTypes (some (documentWithoutPaths "2020-01-02")) samplePath
      (categoriesMap none) = none ∧
    validateErrorTypes (some (documentWithoutPaths "2020-01-02")) samplePath
      (categoriesMap (some [ErrorTypeIncorrectSchemaVersion])) =
        some [{ Inconsistency := ErrorTypeIncorrectSchemaVersion,
                Err := "incorrect schema version. Path: 2020-01-01, Spec: 2020-01-02" }] ∧
    validateErrorTypes (some documentWithoutInfo) samplePath
      (categoriesMap (some [ErrorTypeIncorrectSchemaVersion])) = none := by
  decide

/-- C2: a loaded document that declares version 2021-01-01 and has no paths
object, checked at the preview 2021-01-01-preview path of 8 segments under the
default categories, where PreviewSchemaWithoutPreviewVersion is enabled: segment
5 is "preview" and the declared version does not contain "preview", yet no
result is returned, because the check faults at the dereference of the absent
paths object (line 162). The same document checked with
PreviewSchemaWithoutPreviewVersion alone returns exactly that one finding, and a
loaded document without an info object faults at line 136. -/
theorem missing_paths_loses_preview_finding :
    (Strings.Split samplePreviewPath '/').length = 8 ∧
    (Strings.Split samplePreviewPath '/')[5]? = some "preview" ∧
    Strings.Contains "2021-01-01" "preview" = false ∧
    (categoriesMap none).enabled ErrorPreviewSchemaWithoutPreviewVersion = true ∧
    validateErrorTypes (some (documentWithoutPaths "2021-01-01")) samplePreviewPath
      (categoriesMap none) = none ∧
    validateErrorTypes (some (documentWithoutPaths "2021-01-01")) samplePreviewPath
      (categoriesMap (some [ErrorPreviewSchemaWithoutPreviewVersion])) =
        some [{ Inconsistency := ErrorPreviewSchemaWithoutPreviewVersion,
                Err := "preview schema without preview version. Path: 2021-01-01-preview" ++
                       ", Spec: 2021-01-01" }] ∧
    validateErrorTypes (some documentWithoutInfo) samplePreviewPath
      (categoriesMap (some [ErrorPreviewSchemaWithoutPreviewVersion])) = none := by
  decide

/-- C3: a loaded document that declares version 2020-01-01-preview and has no
paths object, checked at the stable 2020-01-01 path of 8 segments under the
default categories, where StableSchemaWithPreviewVersion is enabled: segment 5
is not "preview" and the declared version contains "preview", yet no result is
returned, because the check faults at the dereference of the absent paths object
(line 162). The same document checked with StableSchemaWithPreviewVersion alone
returns exactly that one finding, and a loaded document without an info object
faults at line 136. -/
theorem missing_paths_loses_stable_finding :
    (Strings.Split samplePath '/').length = 8 ∧
    (Strings.Split samplePath '/')[5]? = some "stable" ∧
    Strings.Contains "2020-01-01-preview" "preview" = true ∧
    (categoriesMap none).enabled ErrorStableSchemaWithPreviewVersion = true ∧
    validateErrorTypes (some (documentWithoutPaths "2020-01-01-preview")) samplePath
      (categoriesMap none) = none ∧
    validateErrorTypes (some (documentWithoutPaths "2020-01-01-preview")) samplePath
      (categoriesMap (some [ErrorStableSchemaWithPreviewVersion])) =
        some [{ Inconsistency := ErrorStableSchemaWithPreviewVersion,
                Err := "stable schema with preview version. Path: 2020-01-01" ++
                       ", Spec: 2020-01-01-preview" }] ∧
    validateErrorTypes (some documentWithoutInfo) samplePath
      (categoriesMap (some [ErrorStableSchemaWithPreviewVersion])) = none := by
  decide

/-- C4: a loaded document without an info object whose one path entry,
/items/list, defines a POST operation, checked with ListOperationUsingPost
enabled: the entry qualifies for a finding, yet no result is returned, because
the check faults at the dereference of the absent info object (line 136) before
the loop over the path entries is reached. A loaded document that declares a
version and has no paths object, so no path entry at all, faults at line 162
instead of returning a result without ListOperationUsingPost findings. -/
theorem missing_info_loses_list_finding :
    (categoriesMap none).enabled InconsistencyListOperationUsingPost = true ∧
    (pathEntries documentWithoutInfo).filter listsViaPost =
      [("/items/list", ⟨none, some ⟨"Items_List"⟩⟩)] ∧
    validateErrorTypes (some documentWithoutInfo) samplePath (categoriesMap none) = none ∧
    validateErrorTypes (some documentWithoutInfo) samplePath
      (categoriesMap (some [InconsistencyListOperationUsingPost])) = none ∧
    pathEntries (documentWithoutPaths "2020-01-01") = [] ∧
    validateErrorTypes (some (documentWithoutPaths "2020-01-01")) samplePath
      (categoriesMap (some [InconsistencyListOperationUsingPost])) = none := by
  decide

end AzSpecValidator

/-! ## The category registry -/

namespace AzSpecValidator

namespace CategoriesMap

theorem get_nil (k : String) : get [] k = none := rfl

theorem get_cons (e : String × Option Bool) (m : CategoriesMap) (k : String) :
    get (e :: m) k = if k = e.1 then e.2 else get m k := by
  unfold get
  obtain ⟨a, b⟩ := e
  by_cases h : k = a
  · subst h
    simp [List.lookup]
  · have h2 : (k == a) = false := by simpa using h
    simp [List.lookup, h, h2]

theorem get_append_singleton (m : CategoriesMap) (k k2 : String) (v : Option Bool)
    (hk : m.any (fun e => e.1 == k) = false) :
    get (m ++ [(k, v)]) k2 = if k2 = k then v else get m k2 := by
  induction m with
  | nil => simp [get_cons, get_nil]
  | cons e es ih =>
    simp only [List.any_cons, Bool.or_eq_false_iff, beq_eq_false_iff_ne, ne_eq] at hk
    rw [List.cons_append, get_cons, get_cons, ih hk.2]
    by_cases h1 : k2 = e.1
    · have h2 : ¬ k2 = k := fun h => hk.1 (h1.symm.trans h)
      simp [h1, hk.1]
    · simp [h1]

theorem get_map_update (m : CategoriesMap) (k k2 : String) (v : Option Bool) :
    get (m.map (fun e => if e.1 == k then (k, v) else e)) k2 =
      if k2 = k ∧ m.any (fun e => e.1 == k) = true then v else get m k2 := by
  induction m with
  | nil => simp [get_nil]
  | cons e es ih =>
    rw [List.map_cons, get_cons, ih, get_cons]
    by_cases h1 : e.1 = k
    · by_cases h2 : k2 = k
      · simp [h1, h2]
      · simp [h1, h2]
    · have h1b : (e.1 == k) = false := by simpa using h1
      by_cases h2 : k2 = k
      · have h3 : ¬ k = e.1 := fun h => h1 h.symm
        simp [h1, h1b, h2, h3]
      · simp [h1, h1b, h2]

/-- Reading after a write: the written key gives the written value, any other
key is unchanged. -/
theorem get_set (m : CategoriesMap) (k k2 : String) (v : Option Bool) :
    get (set m k v) k2 = if k2 = k then v else get m k2 := by
  unfold set
  by_cases h : m.any (fun e => e.1 == k) = true
  · rw [if_pos h, get_map_update]
    simp [h]
  · rw [if_neg h]
    rw [Bool.not_eq_true] at h
    exact get_append_singleton m k k2 v h

theorem get_foldl_set (v : Option Bool) (l : List String) (m : CategoriesMap) (k : String) :
    get (l.foldl (fun m category => m.set category v) m) k =
      if k ∈ l then v else get m k := by
  induction l generalizing m with
  | nil => simp
  | cons a as ih =>
    rw [List.foldl_cons, ih, get_set]
    by_cases h1 : k ∈ as
    · simp [h1]
    · by_cases h2 : k = a
      · simp [h1, h2]
      · simp [h1, h2]

end CategoriesMap

/-- The enabled state of any key in the mapping built from a supplied list. -/
theorem enabled_categoriesMap_some (categories : List String) (k : String) :
    (categoriesMap (some categories)).enabled k = decide (k ∈ categories) := by
  unfold CategoriesMap.enabled categoriesMap
  simp only [CategoriesMap.get_foldl_set]
  by_cases h : k ∈ categories
  · simp [h]
  · rw [if_neg h]
    split_ifs with h2
    · simp [h]
    · simp only [List.map_cons, List.map_nil, List.mem_cons, List.mem_singleton,
        List.not_mem_nil, or_false, not_or] at h2
      simp [h, CategoriesMap.get_cons, CategoriesMap.get_nil, h2]

/-- The enabled state of any key in the mapping built when no list is supplied. -/
theorem enabled_categoriesMap_none (k : String) :
    (categoriesMap none).enabled k =
      decide (k ∈ defaultOnCategories) := by
  unfold defaultOnCategories
  by_cases h0 : k = ErrorSchemaValidationFailed
  · subst h0
    decide
  · unfold CategoriesMap.enabled categoriesMap
    simp only [CategoriesMap.get_cons, CategoriesMap.get_nil, if_neg h0]
    split_ifs <;> simp_all

end AzSpecValidator

namespace AzSpecValidator

/-- The checker reads the mapping only through the enabled state of the known
categories. -/
theorem validateErrorTypes_congr (doc : Option Document) (specFile : String)
    (m1 m2 : CategoriesMap)
    (h : ∀ k ∈ knownCategories, m1.enabled k = m2.enabled k) :
    validateErrorTypes doc specFile m1 = validateErrorTypes doc specFile m2 := by
  have h1 := h ErrorTypeIncorrectSchemaVersion (by decide)
  have h2 := h ErrorPreviewSchemaWithoutPreviewVersion (by decide)
  have h3 := h ErrorStableSchemaWithPreviewVersion (by decide)
  have h4 := h InconsistencyListOperationUsingPost (by decide)
  unfold validateErrorTypes
  simp only [h1, h2, h3, h4]

/-- C5 as stated fails: a supplied list that names only SchemaValidationFailed,
and likewise the empty list, leaves the default-on category
IncorrectSchemaVersion disabled. -/
theorem forced_on_counterexample :
    (categoriesMap (some [ErrorSchemaValidationFailed])).enabled
        ErrorTypeIncorrectSchemaVersion = false ∧
    (categoriesMap (some [])).enabled ErrorTypeIncorrectSchemaVersion = false := by
  decide

/-- C5 amended: every default-on category is enabled when no list is supplied,
and when a list is supplied a category is enabled exactly if the list names it. -/
theorem default_on_follows_supplied_list :
    (∀ k ∈ defaultOnCategories, (categoriesMap none).enabled k = true) ∧
    (∀ (categories : List String) (k : String),
      (categoriesMap (some categories)).enabled k = true ↔ k ∈ categories) := by
  constructor
  · intro k hk
    rw [enabled_categoriesMap_none]
    exact decide_eq_true hk
  · intro categories k
    rw [enabled_categoriesMap_some, decide_eq_true_iff]

/-- C6 as stated fails: with no list supplied SchemaValidationFailed is not
enabled. -/
theorem default_set_counterexample :
    (categoriesMap none).enabled ErrorSchemaValidationFailed = false := by
  decide

/-- C6 amended: with no list supplied the enabled categories are exactly the four
default-on ones. -/
theorem default_set_is_default_on (k : String) :
    (categoriesMap none).enabled k = true ↔ k ∈ defaultOnCategories := by
  rw [enabled_categoriesMap_none, decide_eq_true_iff]

/-- C7: SchemaValidationFailed is enabled exactly when a list was supplied and
that list names it. -/
theorem default_off_policy (supplied : Option (List String)) :
    (categoriesMap supplied).enabled ErrorSchemaValidationFailed = true ↔
      ∃ categories, supplied = some categories ∧ ErrorSchemaValidationFailed ∈ categories := by
  cases supplied with
  | none =>
    have h : (categoriesMap none).enabled ErrorSchemaValidationFailed = false := by decide
    simp [h]
  | some categories =>
    rw [enabled_categoriesMap_some, decide_eq_true_iff]
    simp

/-- C8: inserting a name that is not a known category anywhere in the supplied
list leaves the enabled state of every known category unchanged, and with it the
result of the checker on every document and path; building the mapping is a
total function, so no error arises. -/
theorem unknown_category_no_effect (l1 l2 : List String) (u : String)
    (hu : u ∉ knownCategories) :
    (∀ k ∈ knownCategories,
      (categoriesMap (some (l1 ++ u :: l2))).enabled k =
        (categoriesMap (some (l1 ++ l2))).enabled k) ∧
    (∀ (doc : Option Document) (specFile : String),
      validateErrorTypes doc specFile (categoriesMap (some (l1 ++ u :: l2))) =
        validateErrorTypes doc specFile (categoriesMap (some (l1 ++ l2)))) := by
  have key : ∀ k ∈ knownCategories,
      (categoriesMap (some (l1 ++ u :: l2))).enabled k =
        (categoriesMap (some (l1 ++ l2))).enabled k := by
    intro k hk
    have hne : k ≠ u := fun h => hu (h ▸ hk)
    rw [enabled_categoriesMap_some, enabled_categoriesMap_some]
    simp [hne]
  exact ⟨key, fun doc specFile => validateErrorTypes_congr doc specFile _ _ key⟩

/-- Witness for C8: the unknown name `Bogus` between two known categories. -/
theorem unknown_category_no_effect_witness :
    "Bogus" ∉ knownCategories ∧
    (∀ k ∈ knownCategories,
      (categoriesMap (some ([ErrorTypeIncorrectSchemaVersion] ++
          "Bogus" :: [InconsistencyListOperationUsingPost]))).enabled k =
        (categoriesMap (some ([ErrorTypeIncorrectSchemaVersion] ++
          [InconsistencyListOperationUsingPost]))).enabled k) ∧
    (∀ (doc : Option Document) (specFile : String),
      validateErrorTypes doc specFile (categoriesMap (some ([ErrorTypeIncorrectSchemaVersion] ++
          "Bogus" :: [InconsistencyListOperationUsingPost]))) =
        validateErrorTypes doc specFile (categoriesMap (some ([ErrorTypeIncorrectSchemaVersion] ++
          [InconsistencyListOperationUsingPost])))) :=
  ⟨by decide,
   unknown_category_no_effect [ErrorTypeIncorrectSchemaVersion]
     [InconsistencyListOperationUsingPost] "Bogus" (by decide)⟩

end AzSpecValidator

/-! ## Lemmas on splitting, joining and cleaning paths -/

namespace AzSpecValidator

namespace Strings

theorem splitChars_cons (sep c : Char) (cs : List Char) :
    splitChars sep (c :: cs) =
      if c = sep then [] :: splitChars sep cs
      else
        match splitChars sep cs with
        | [] => [[c]]
        | h :: t => (c :: h) :: t := by
  rw [splitChars]

theorem splitChars_append_sep (sep : Char) (a b : List Char) :
    splitChars sep (a ++ sep :: b) = splitChars sep a ++ splitChars sep b := by
  induction a with
  | nil =>
    rw [List.nil_append, splitChars_cons, if_pos rfl]
    rfl
  | cons c cs ih =>
    rw [List.cons_append, splitChars_cons, splitChars_cons sep c cs, ih]
    split_ifs with h
    · rfl
    · cases hs : splitChars sep cs with
      | nil => exact absurd hs (splitChars_ne_nil sep cs)
      | cons x xs => rfl

theorem splitChars_of_not_mem (sep : Char) (a : List Char) (h : sep ∉ a) :
    splitChars sep a = [a] := by
  induction a with
  | nil => rfl
  | cons c cs ih =>
    rw [List.mem_cons, not_or] at h
    unfold splitChars
    rw [if_neg (fun e => h.1 e.symm), ih h.2]

theorem mem_splitChars_not_mem (sep : Char) (l : List Char) :
    ∀ e ∈ splitChars sep l, sep ∉ e := by
  induction l with
  | nil => simp [splitChars]
  | cons c cs ih =>
    unfold splitChars
    split_ifs with h
    · intro e he
      rw [List.mem_cons] at he
      rcases he with rfl | he
      · simp
      · exact ih e he
    · cases hs : splitChars sep cs with
      | nil => exact absurd hs (splitChars_ne_nil sep cs)
      | cons x xs =>
        rw [hs] at ih
        intro e he
        simp only [List.mem_cons] at he
        rcases he with rfl | he
        · have hx := ih x (List.mem_cons_self _ _)
          simp only [List.mem_cons, not_or]
          exact ⟨fun e => h e.symm, hx⟩
        · exact ih e (List.mem_cons_of_mem _ he)

theorem joinChars_cons (sep : Char) (a : List Char) (l : List (List Char)) :
    joinChars sep (a :: l) = a ++ l.flatMap (fun e => sep :: e) := by
  induction l generalizing a with
  | nil => simp [joinChars]
  | cons b bs ih =>
    rw [joinChars, ih b]
    simp

theorem joinChars_append (sep : Char) (a b : List (List Char)) (ha : a ≠ []) (hb : b ≠ []) :
    joinChars sep (a ++ b) = joinChars sep a ++ sep :: joinChars sep b := by
  obtain ⟨x, xs, rfl⟩ := List.exists_cons_of_ne_nil ha
  obtain ⟨y, ys, rfl⟩ := List.exists_cons_of_ne_nil hb
  rw [List.cons_append, joinChars_cons, joinChars_cons, joinChars_cons]
  simp

theorem joinChars_append_flatMap (sep : Char) (a b : List (List Char)) (ha : a ≠ []) :
    joinChars sep (a ++ b) = joinChars sep a ++ b.flatMap (fun e => sep :: e) := by
  obtain ⟨x, xs, rfl⟩ := List.exists_cons_of_ne_nil ha
  rw [List.cons_append, joinChars_cons, joinChars_cons]
  simp

theorem splitChars_joinChars (sep : Char) (segs : List (List Char)) (hne : segs ≠ [])
    (h : ∀ e ∈ segs, sep ∉ e) : splitChars sep (joinChars sep segs) = segs := by
  induction segs with
  | nil => exact absurd rfl hne
  | cons a rest ih =>
    cases rest with
    | nil => exact splitChars_of_not_mem sep a (h a (List.mem_cons_self _ _))
    | cons b bs =>
      rw [joinChars, splitChars_append_sep, splitChars_of_not_mem sep a (h a (List.mem_cons_self _ _)),
        ih (by simp) (fun e he => h e (List.mem_cons_of_mem _ he))]
      rfl

end Strings

namespace Path

theorem cleanStep_normal (rooted : Bool) (out : List (List Char)) (e : List Char)
    (h : Normal e) : cleanStep rooted out e = out ++ [e] := by
  unfold cleanStep
  rw [if_neg h.1, if_neg h.2.2.1, if_neg h.2.2.2]

theorem foldl_cleanStep_normal (rooted : Bool) (names out : List (List Char))
    (h : ∀ e ∈ names, Normal e) : names.foldl (cleanStep rooted) out = out ++ names := by
  induction names generalizing out with
  | nil => simp
  | cons n ns ih =>
    rw [List.foldl_cons, cleanStep_normal rooted out n (h n (List.mem_cons_self _ _)),
      ih _ (fun e he => h e (List.mem_cons_of_mem _ he))]
    simp

theorem foldl_cleanStep_dotdot (dds out : List (List Char))
    (hd : ∀ e ∈ dds, e = ['.', '.']) (ho : ∀ e ∈ out, e = ['.', '.']) :
    dds.foldl (cleanStep false) out = out ++ dds := by
  induction dds generalizing out with
  | nil => simp
  | cons d ds ih =>
    have hd0 : d = ['.', '.'] := hd d (List.mem_cons_self _ _)
    have hstep : cleanStep false out d = out ++ [d] := by
      subst hd0
      unfold cleanStep
      simp only [List.cons_ne_nil, if_false, if_true, reduceCtorEq]
      cases hl : out.getLast? with
      | none => simp
      | some t =>
        have ht : t = ['.', '.'] := ho t (List.mem_of_mem_getLast? hl)
        simp [ht]
    rw [List.foldl_cons, hstep, ih]
    · simp
    · exact fun e he => hd e (List.mem_cons_of_mem _ he)
    · intro e he
      rw [List.mem_append, List.mem_singleton] at he
      rcases he with he | he
      · exact ho e he
      · exact he ▸ hd0

theorem cleanOut_nil (rooted : Bool) : CleanOut rooted [] :=
  ⟨[], [], rfl, by simp, by simp, fun _ => rfl⟩

theorem cleanOut_fixed (rooted : Bool) (out : List (List Char)) (h : CleanOut rooted out) :
    out.foldl (cleanStep rooted) [] = out := by
  obtain ⟨dds, names, rfl, hd, hn, hr⟩ := h
  rw [List.foldl_append]
  cases rooted with
  | true =>
    rw [hr rfl]
    simp [foldl_cleanStep_normal true names [] hn]
  | false =>
    rw [foldl_cleanStep_dotdot dds [] hd (by simp), foldl_cleanStep_normal false names _ hn]
    simp

theorem cleanOut_append_normal (rooted : Bool) (out more : List (List Char))
    (h : CleanOut rooted out) (hm : ∀ e ∈ more, Normal e) : CleanOut rooted (out ++ more) := by
  obtain ⟨dds, names, rfl, hd, hn, hr⟩ := h
  refine ⟨dds, names ++ more, by simp, hd, ?_, hr⟩
  intro e he
  rw [List.mem_append] at he
  exact he.elim (hn e) (hm e)

theorem cleanOut_step (rooted : Bool) (out : List (List Char)) (e : List Char)
    (h : CleanOut rooted out) (he : '/' ∉ e) : CleanOut rooted (cleanStep rooted out e) := by
  by_cases h1 : e = []
  · simp [cleanStep, h1, h]
  by_cases h2 : e = ['.']
  · simp [cleanStep, h2, h]
  by_cases h3 : e = ['.', '.']
  · subst h3
    obtain ⟨dds, names, rfl, hd, hn, hr⟩ := h
    unfold cleanStep
    simp only [List.cons_ne_nil, if_false, if_true, reduceCtorEq]
    rcases List.eq_nil_or_concat' names with hnm | ⟨ns, n, hnm⟩
    · subst hnm
      rw [List.append_nil]
      have hres : CleanOut rooted (if rooted = true then dds else dds ++ [['.', '.']]) := by
        cases rooted with
        | true => exact ⟨dds, [], by simp, hd, by simp, hr⟩
        | false =>
          refine ⟨dds ++ [['.', '.']], [], by simp, ?_, by simp, by simp⟩
          intro e he
          rw [List.mem_append, List.mem_singleton] at he
          exact he.elim (hd e) id
      cases hl : dds.getLast? with
      | none => simpa using hres
      | some t =>
        have ht : t = ['.', '.'] := hd t (List.mem_of_mem_getLast? hl)
        simpa [ht] using hres
    · subst hnm
      have hnN : Normal n := hn n (by simp)
      have hl : (dds ++ (ns ++ [n])).getLast? = some n := by
        rw [← List.append_assoc, List.getLast?_append]
        simp
      rw [hl]
      simp only [if_neg hnN.2.2.2]
      rw [← List.append_assoc, List.dropLast_concat]
      exact ⟨dds, ns, rfl, hd, fun e he => hn e (by simp [he]), hr⟩
  · rw [cleanStep_normal rooted out e ⟨h1, he, h2, h3⟩]
    exact cleanOut_append_normal rooted out [e] h (by simpa using ⟨h1, he, h2, h3⟩)

theorem cleanOut_foldl (rooted : Bool) (segs out : List (List Char))
    (h : CleanOut rooted out) (hs : ∀ e ∈ segs, '/' ∉ e) :
    CleanOut rooted (segs.foldl (cleanStep rooted) out) := by
  induction segs generalizing out with
  | nil => exact h
  | cons s ss ih =>
    rw [List.foldl_cons]
    exact ih _ (cleanOut_step rooted out s h (hs s (List.mem_cons_self _ _)))
      (fun e he => hs e (List.mem_cons_of_mem _ he))

theorem cleanOut_elem (rooted : Bool) (out : List (List Char)) (h : CleanOut rooted out) :
    ∀ e ∈ out, e ≠ [] ∧ '/' ∉ e := by
  obtain ⟨dds, names, rfl, hd, hn, -⟩ := h
  intro e he
  rw [List.mem_append] at he
  rcases he with he | he
  · rw [hd e he]
    decide
  · exact ⟨(hn e he).1, (hn e he).2.1⟩

end Path

end AzSpecValidator

namespace AzSpecValidator

namespace Path

theorem cleanDir_data_ne_nil (p : String) (h : CleanDir p) : p.data ≠ [] := by
  obtain ⟨rooted, out, hco, hne, hp⟩ := h
  obtain ⟨x, xs, rfl⟩ := List.exists_cons_of_ne_nil hne
  have hx := (cleanOut_elem rooted _ hco x (List.mem_cons_self _ _)).1
  obtain ⟨c, cs, rfl⟩ := List.exists_cons_of_ne_nil hx
  rw [hp, Strings.joinChars_cons]
  cases rooted <;> simp

/-- Cleaning the rendering of cleaned elements followed by names gives the same
text back. -/
theorem Clean_render (rooted : Bool) (out : List (List Char)) (hco : CleanOut rooted out)
    (hne : out ≠ []) :
    Clean (String.mk ((if rooted = true then ['/'] else []) ++ Strings.joinChars '/' out)) =
      String.mk ((if rooted = true then ['/'] else []) ++ Strings.joinChars '/' out) := by
  have helem := cleanOut_elem rooted out hco
  have hsplit : Strings.splitChars '/' (Strings.joinChars '/' out) = out :=
    Strings.splitChars_joinChars '/' out hne (fun e he => (helem e he).2)
  obtain ⟨x, xs, rfl⟩ := List.exists_cons_of_ne_nil hne
  have hx := helem x (List.mem_cons_self _ _)
  obtain ⟨c, cs, rfl⟩ := List.exists_cons_of_ne_nil hx.1
  have hc : c ≠ '/' := fun e => hx.2 (e ▸ List.mem_cons_self _ _)
  cases rooted with
  | true =>
    have hfold : (Strings.splitChars '/' ('/' :: Strings.joinChars '/' ((c :: cs) :: xs))).foldl
        (cleanStep true) [] = (c :: cs) :: xs := by
      rw [Strings.splitChars_cons, if_pos rfl, hsplit, List.foldl_cons]
      have h0 : cleanStep true [] [] = [] := rfl
      rw [h0]
      exact cleanOut_fixed true _ hco
    unfold Clean
    simp only [if_true, List.singleton_append]
    rw [if_neg (by simp [String.ext_iff])]
    simp only [List.head?_cons, beq_self_eq_true, if_true, hfold]
  | false =>
    have hfold : (Strings.splitChars '/' (Strings.joinChars '/' ((c :: cs) :: xs))).foldl
        (cleanStep false) [] = (c :: cs) :: xs := by
      rw [hsplit]
      exact cleanOut_fixed false _ hco
    have hhead : (Strings.joinChars '/' ((c :: cs) :: xs)).head? = some c := by
      rw [Strings.joinChars_cons]
      rfl
    have hne2 : Strings.joinChars '/' ((c :: cs) :: xs) ≠ [] := by
      intro h
      rw [h] at hhead
      simp at hhead
    unfold Clean
    simp only [Bool.false_eq_true, if_false, List.nil_append]
    rw [if_neg (by simpa [String.ext_iff] using hne2)]
    have hb : (some c == some '/') = false := by simpa using hc
    simp only [hhead, hb, Bool.false_eq_true, if_false, hfold, List.cons_ne_nil, reduceCtorEq]

theorem normal_specification : Normal "specification".data := by
  unfold Normal
  decide

/-- Joining names onto a cleaned directory path appends them, each after a
slash, and gives a cleaned directory path again. -/
theorem Join_cleanDir (p : String) (names : List String) (hp : CleanDir p)
    (hn : ∀ n ∈ names, IsFileName n) :
    Join (p :: names) = String.mk (p.data ++ names.flatMap (fun n => '/' :: n.data)) ∧
    CleanDir (String.mk (p.data ++ names.flatMap (fun n => '/' :: n.data))) := by
  have hpne := cleanDir_data_ne_nil p hp
  obtain ⟨rooted, out, hco, hne, hpd⟩ := hp
  have hco2 : CleanOut rooted (out ++ names.map String.data) := by
    apply cleanOut_append_normal rooted out _ hco
    intro e he
    rw [List.mem_map] at he
    obtain ⟨n, hnm, rfl⟩ := he
    exact hn n hnm
  have hne2 : out ++ names.map String.data ≠ [] := by simp [hne]
  have htext : p.data ++ names.flatMap (fun n => '/' :: n.data) =
      (if rooted = true then ['/'] else []) ++
        Strings.joinChars '/' (out ++ names.map String.data) := by
    rw [hpd, Strings.joinChars_append_flatMap '/' out _ hne, List.append_assoc,
      List.flatMap_map]
  have hpb : (p == "") = false := by
    rw [beq_eq_false_iff_ne]
    intro h
    exact hpne (by rw [h])
  constructor
  · unfold Join
    simp only [List.dropWhile_cons, hpb, Bool.false_eq_true, if_false, List.cons_ne_nil,
      reduceCtorEq, List.map_cons, Strings.joinChars_cons, List.flatMap_map]
    rw [htext]
    exact Clean_render rooted _ hco2 hne2
  · exact ⟨rooted, _, hco2, hne2, htext⟩

/-- The specification directory path is a cleaned directory path, whatever the
source directory. -/
theorem cleanDir_specPath (sourceDir : String) :
    CleanDir (Join [sourceDir, "specification"]) := by
  by_cases hs : sourceDir = ""
  · subst hs
    have h : Join ["", "specification"] = "specification" := by decide
    rw [h]
    exact ⟨false, ["specification".data],
      ⟨[], ["specification".data], rfl, by simp, by simpa using normal_specification, by simp⟩,
      by simp, rfl⟩
  · have hsb : (sourceDir == "") = false := by simpa using hs
    have hd : sourceDir.data ≠ [] := fun h => hs (String.ext h)
    obtain ⟨c, cs, hcs⟩ := List.exists_cons_of_ne_nil hd
    have hout : ∀ rooted : Bool,
        (Strings.splitChars '/' (sourceDir.data ++ '/' :: "specification".data)).foldl
          (cleanStep rooted) [] =
        (Strings.splitChars '/' sourceDir.data).foldl (cleanStep rooted) [] ++
          ["specification".data] := by
      intro rooted
      rw [Strings.splitChars_append_sep, List.foldl_append,
        Strings.splitChars_of_not_mem '/' "specification".data (by decide)]
      exact cleanStep_normal rooted _ _ normal_specification
    have hco : ∀ rooted : Bool, CleanOut rooted
        ((Strings.splitChars '/' sourceDir.data).foldl (cleanStep rooted) [] ++
          ["specification".data]) := by
      intro rooted
      apply cleanOut_append_normal
      · exact cleanOut_foldl rooted _ [] (cleanOut_nil rooted)
          (Strings.mem_splitChars_not_mem '/' sourceDir.data)
      · simpa using normal_specification
    have hjoin : Join [sourceDir, "specification"] =
        Clean (String.mk (sourceDir.data ++ '/' :: "specification".data)) := by
      unfold Join
      simp only [List.dropWhile_cons, hsb, Bool.false_eq_true, if_false, List.cons_ne_nil,
        reduceCtorEq, List.map_cons, List.map_nil, Strings.joinChars]
    rw [hjoin]
    unfold Clean
    rw [if_neg (by simp [String.ext_iff, hd])]
    simp only [hout]
    by_cases hr : ((sourceDir.data ++ '/' :: "specification".data).head? == some '/') = true
    · simp only [hr, if_true]
      exact ⟨true, _, hco true, by simp, by simp⟩
    · rw [Bool.not_eq_true] at hr
      simp only [hr, Bool.false_eq_true, if_false]
      rw [if_neg (by simp)]
      exact ⟨false, _, hco false, by simp, by simp⟩

theorem Join_one (p n : String) (hp : CleanDir p) (hn : IsFileName n) :
    Join [p, n] = p ++ "/" ++ n ∧ CleanDir (p ++ "/" ++ n) := by
  have h := Join_cleanDir p [n] hp (by simpa using hn)
  have e : String.mk (p.data ++ [n].flatMap (fun n => '/' :: n.data)) = p ++ "/" ++ n := by
    apply String.ext
    simp
  rw [e] at h
  exact h

theorem Join_two (p a b : String) (hp : CleanDir p) (ha : IsFileName a) (hb : IsFileName b) :
    Join [p, a, b] = p ++ "/" ++ a ++ "/" ++ b := by
  have h := (Join_cleanDir p [a, b] hp (by simp [ha, hb])).1
  rw [h]
  apply String.ext
  simp

theorem Join_three (p a b c : String) (hp : CleanDir p) (ha : IsFileName a)
    (hb : IsFileName b) (hc : IsFileName c) :
    Join [p, a, b, c] = p ++ "/" ++ a ++ "/" ++ b ++ "/" ++ c := by
  have h := (Join_cleanDir p [a, b, c] hp (by simp [ha, hb, hc])).1
  rw [h]
  apply String.ext
  simp

end Path

end AzSpecValidator

/-! ## The file locator -/

namespace AzSpecValidator

theorem foldlM_ok_flatMap {α : Type} (step : List String → α → Except String (List String))
    (g : α → List String) (l : List α)
    (hstep : ∀ a ∈ l, ∀ acc res, step acc a = .ok res → res = acc ++ g a) :
    ∀ acc res, l.foldlM step acc = .ok res → res = acc ++ l.flatMap g := by
  induction l with
  | nil =>
    intro acc res h
    simp only [List.foldlM_nil, pure, Except.pure, Except.ok.injEq] at h
    simp [h]
  | cons a as ih =>
    intro acc res h
    rw [List.foldlM_cons] at h
    cases hs : step acc a with
    | error e => simp [hs, bind, Except.bind] at h
    | ok mid =>
      simp only [hs, bind, Except.bind] at h
      have h1 := hstep a (List.mem_cons_self _ _) acc mid hs
      have h2 := ih (fun b hb => hstep b (List.mem_cons_of_mem _ hb)) mid res h
      rw [h2, h1]
      simp

theorem flatMap_ite_filter {α β : Type} (c : α → Bool) (g : α → List β) (l : List α) :
    l.flatMap (fun a => if c a = true then g a else []) = (l.filter c).flatMap g := by
  induction l with
  | nil => rfl
  | cons a as ih =>
    rw [List.flatMap_cons, ih, List.filter_cons]
    by_cases h : c a = true <;> simp [h]

theorem entriesOf_ok (ReadDir : ReadDirFn) (p : String) (l : List FileInfo)
    (h : ReadDir p = .ok l) : entriesOf ReadDir p = l := by
  unfold entriesOf
  rw [h]

theorem specFileLoop_foldl (vp : String) (hvp : Path.CleanDir vp) (files : List FileInfo)
    (hfn : ∀ f ∈ files, IsFileName f.Name) (acc : List String) :
    files.foldl (specFileLoop vp) acc =
      acc ++ (files.filter (fun f => !f.IsDir && Path.Ext f.Name == ".json")).map
        (fun f => vp ++ "/" ++ f.Name) := by
  induction files generalizing acc with
  | nil => simp
  | cons f fs ih =>
    rw [List.foldl_cons, ih (fun g hg => hfn g (List.mem_cons_of_mem _ hg)), List.filter_cons]
    unfold specFileLoop
    rw [(Path.Join_one vp f.Name hvp (hfn f (List.mem_cons_self _ _))).1]
    by_cases h : (!f.IsDir && Path.Ext f.Name == ".json") = true <;> simp [h]

theorem stableVersionLoop_ok (ReadDir : ReadDirFn) (hT : DirectoryTree ReadDir) (tp : String)
    (htp : Path.CleanDir tp) (sv : FileInfo) (hsv : IsFileName sv.Name)
    (acc res : List String) (h : stableVersionLoop ReadDir tp acc sv = .ok res) :
    res = acc ++ if sv.IsDir = true then versionFiles ReadDir (tp ++ "/" ++ sv.Name) else [] := by
  unfold stableVersionLoop at h
  have hj := Path.Join_one tp sv.Name htp hsv
  rw [hj.1] at h
  by_cases hd : sv.IsDir = true
  · rw [if_pos hd] at h ⊢
    cases hr : ReadDir (tp ++ "/" ++ sv.Name) with
    | error e => simp [hr, bind, Except.bind] at h
    | ok files =>
      simp only [hr, bind, Except.bind, pure, Except.pure, Except.ok.injEq] at h
      rw [← h, specFileLoop_foldl _ hj.2 files (hT.names _ _ hr)]
      unfold versionFiles
      rw [entriesOf_ok ReadDir _ files hr]
  · rw [if_neg hd] at h ⊢
    simp only [pure, Except.pure, Except.ok.injEq] at h
    simp [h]

theorem tier_foldlM_ok (ReadDir : ReadDirFn) (hT : DirectoryTree ReadDir) (tp : String)
    (htp : Path.CleanDir tp) (versions : List FileInfo) (hv : ReadDir tp = .ok versions)
    (acc res : List String)
    (h : versions.foldlM (stableVersionLoop ReadDir tp) acc = .ok res) :
    res = acc ++ tierFiles ReadDir tp := by
  have := foldlM_ok_flatMap (stableVersionLoop ReadDir tp)
    (fun sv => if sv.IsDir = true then versionFiles ReadDir (tp ++ "/" ++ sv.Name) else [])
    versions
    (fun sv hsv acc res h => stableVersionLoop_ok ReadDir hT tp htp sv
      (hT.names tp versions hv sv hsv) acc res h) acc res h
  rw [this, flatMap_ite_filter]
  unfold tierFiles
  rw [entriesOf_ok ReadDir tp versions hv]

theorem stablePreviewLoop_ok (ReadDir : ReadDirFn) (hT : DirectoryTree ReadDir) (np : String)
    (hnp : Path.CleanDir np) (tiers : List FileInfo) (ht : ReadDir np = .ok tiers)
    (sp : FileInfo) (hsp : sp ∈ tiers) (acc res : List String)
    (h : stablePreviewLoop ReadDir np acc sp = .ok res) :
    res = acc ++
      if (sp.IsDir && (sp.Name == "stable" || sp.Name == "preview")) = true then
        tierFiles ReadDir (np ++ "/" ++ sp.Name)
      else [] := by
  unfold stablePreviewLoop at h
  have hj := Path.Join_one np sp.Name hnp (hT.names np tiers ht sp hsp)
  rw [hj.1] at h
  by_cases hc : ((sp.IsDir && sp.Name == "stable") || sp.Name == "preview") = true
  · rw [if_pos hc] at h
    cases hr : ReadDir (np ++ "/" ++ sp.Name) with
    | error e => simp [hr, bind, Except.bind] at h
    | ok versions =>
      simp only [hr, bind, Except.bind] at h
      have hd : sp.IsDir = true := by
        by_contra hnd
        rw [Bool.not_eq_true] at hnd
        exact hT.files np tiers ht sp hsp hnd versions hr
      have hc2 : (sp.IsDir && (sp.Name == "stable" || sp.Name == "preview")) = true := by
        rw [hd] at hc ⊢
        simpa using hc
      rw [if_pos hc2]
      exact tier_foldlM_ok ReadDir hT _ hj.2 versions hr acc res h
  · rw [if_neg hc] at h
    simp only [pure, Except.pure, Except.ok.injEq] at h
    have hc2 : ¬ (sp.IsDir && (sp.Name == "stable" || sp.Name == "preview")) = true := by
      intro h2
      apply hc
      cases hd : sp.IsDir <;> simp_all
    rw [if_neg hc2, h]
    simp

theorem namespace_foldlM_ok (ReadDir : ReadDirFn) (hT : DirectoryTree ReadDir) (np : String)
    (hnp : Path.CleanDir np) (tiers : List FileInfo) (ht : ReadDir np = .ok tiers)
    (acc res : List String)
    (h : tiers.foldlM (stablePreviewLoop ReadDir np) acc = .ok res) :
    res = acc ++ namespaceFiles ReadDir np := by
  have := foldlM_ok_flatMap (stablePreviewLoop ReadDir np)
    (fun sp => if (sp.IsDir && (sp.Name == "stable" || sp.Name == "preview")) = true then
        tierFiles ReadDir (np ++ "/" ++ sp.Name) else [])
    tiers
    (fun sp hsp acc res h => stablePreviewLoop_ok ReadDir hT np hnp tiers ht sp hsp acc res h)
    acc res h
  rw [this, flatMap_ite_filter]
  unfold namespaceFiles
  rw [entriesOf_ok ReadDir np tiers ht]

theorem namespaceLoop_ok (ReadDir : ReadDirFn) (hT : DirectoryTree ReadDir) (specPath : String)
    (hsp : Path.CleanDir specPath) (specDir resourceManager ns : FileInfo)
    (hsd : IsFileName specDir.Name) (hrm : IsFileName resourceManager.Name)
    (hns : IsFileName ns.Name) (acc res : List String)
    (h : namespaceLoop ReadDir specPath specDir resourceManager acc ns = .ok res) :
    res = acc ++
      if ns.IsDir = true then
        namespaceFiles ReadDir
          (specPath ++ "/" ++ specDir.Name ++ "/" ++ resourceManager.Name ++ "/" ++ ns.Name)
      else [] := by
  unfold namespaceLoop at h
  rw [Path.Join_three specPath _ _ _ hsp hsd hrm hns] at h
  have hc1 := (Path.Join_one specPath specDir.Name hsp hsd).2
  have hc2 := (Path.Join_one _ resourceManager.Name hc1 hrm).2
  have hc3 := (Path.Join_one _ ns.Name hc2 hns).2
  by_cases hd : ns.IsDir = true
  · rw [if_pos hd] at h ⊢
    cases hr : ReadDir
        (specPath ++ "/" ++ specDir.Name ++ "/" ++ resourceManager.Name ++ "/" ++ ns.Name) with
    | error e => simp [hr, bind, Except.bind] at h
    | ok tiers =>
      simp only [hr, bind, Except.bind] at h
      exact namespace_foldlM_ok ReadDir hT _ hc3 tiers hr acc res h
  · rw [if_neg hd] at h ⊢
    simp only [pure, Except.pure, Except.ok.injEq] at h
    simp [h]

theorem resourceManagerLoop_ok (ReadDir : ReadDirFn) (hT : DirectoryTree ReadDir)
    (specPath : String) (hsp : Path.CleanDir specPath) (specDir resourceManager : FileInfo)
    (hsd : IsFileName specDir.Name) (hrm : IsFileName resourceManager.Name)
    (acc res : List String)
    (h : resourceManagerLoop ReadDir specPath specDir acc resourceManager = .ok res) :
    res = acc ++
      if (resourceManager.IsDir && resourceManager.Name == "resource-manager") = true then
        resourceManagerFiles ReadDir
          (specPath ++ "/" ++ specDir.Name ++ "/" ++ resourceManager.Name)
      else [] := by
  unfold resourceManagerLoop at h
  rw [Path.Join_two specPath _ _ hsp hsd hrm] at h
  by_cases hd : (resourceManager.IsDir && resourceManager.Name == "resource-manager") = true
  · rw [if_pos hd] at h ⊢
    cases hr : ReadDir (specPath ++ "/" ++ specDir.Name ++ "/" ++ resourceManager.Name) with
    | error e => simp [hr, bind, Except.bind] at h
    | ok namespaces =>
      simp only [hr, bind, Except.bind] at h
      have := foldlM_ok_flatMap (namespaceLoop ReadDir specPath specDir resourceManager)
        (fun ns => if ns.IsDir = true then
          namespaceFiles ReadDir
            (specPath ++ "/" ++ specDir.Name ++ "/" ++ resourceManager.Name ++ "/" ++ ns.Name)
          else [])
        namespaces
        (fun ns hns acc res h => namespaceLoop_ok ReadDir hT specPath hsp specDir
          resourceManager ns hsd hrm (hT.names _ namespaces hr ns hns) acc res h)
        acc res h
      rw [this, flatMap_ite_filter]
      unfold resourceManagerFiles
      rw [entriesOf_ok ReadDir _ namespaces hr]
  · rw [if_neg hd] at h ⊢
    simp only [pure, Except.pure, Except.ok.injEq] at h
    simp [h]

theorem specDirLoop_ok (ReadDir : ReadDirFn) (hT : DirectoryTree ReadDir) (specPath : String)
    (hsp : Path.CleanDir specPath) (specDir : FileInfo) (hsd : IsFileName specDir.Name)
    (acc res : List String) (h : specDirLoop ReadDir specPath acc specDir = .ok res) :
    res = acc ++
      if specDir.IsDir = true then serviceFiles ReadDir (specPath ++ "/" ++ specDir.Name)
      else [] := by
  unfold specDirLoop at h
  rw [(Path.Join_one specPath _ hsp hsd).1] at h
  by_cases hd : specDir.IsDir = true
  · rw [if_pos hd] at h ⊢
    cases hr : ReadDir (specPath ++ "/" ++ specDir.Name) with
    | error e => simp [hr, bind, Except.bind] at h
    | ok managers =>
      simp only [hr, bind, Except.bind] at h
      have := foldlM_ok_flatMap (resourceManagerLoop ReadDir specPath specDir)
        (fun rm => if (rm.IsDir && rm.Name == "resource-manager") = true then
          resourceManagerFiles ReadDir (specPath ++ "/" ++ specDir.Name ++ "/" ++ rm.Name)
          else [])
        managers
        (fun rm hrm acc res h => resourceManagerLoop_ok ReadDir hT specPath hsp specDir rm hsd
          (hT.names _ managers hr rm hrm) acc res h)
        acc res h
      rw [this, flatMap_ite_filter]
      unfold serviceFiles
      rw [entriesOf_ok ReadDir _ managers hr]
  · rw [if_neg hd] at h ⊢
    simp only [pure, Except.pure, Except.ok.injEq] at h
    simp [h]

/-- On a tree of directories and regular files, a successful `getSpecFiles`
returns the paths of the convention in nested listing order. -/
theorem getSpecFiles_eq_conventionPaths (ReadDir : ReadDirFn) (hT : DirectoryTree ReadDir)
    (sourceDir : String) (r : List String) (h : getSpecFiles ReadDir sourceDir = .ok r) :
    r = conventionPaths ReadDir sourceDir := by
  unfold getSpecFiles at h
  have hsp := Path.cleanDir_specPath sourceDir
  cases hr : ReadDir (Path.Join [sourceDir, "specification"]) with
  | error e => simp [hr, bind, Except.bind] at h
  | ok services =>
    simp only [hr, bind, Except.bind] at h
    have := foldlM_ok_flatMap (specDirLoop ReadDir (Path.Join [sourceDir, "specification"]))
      (fun sd => if sd.IsDir = true then
        serviceFiles ReadDir (Path.Join [sourceDir, "specification"] ++ "/" ++ sd.Name) else [])
      services
      (fun sd hsd acc res h => specDirLoop_ok ReadDir hT _ hsp sd
        (hT.names _ services hr sd hsd) acc res h)
      [] r h
    rw [this, flatMap_ite_filter]
    unfold conventionPaths
    rw [entriesOf_ok ReadDir _ services hr]
    simp

end AzSpecValidator

namespace AzSpecValidator

theorem sep_cancel (sep : Char) (a b r1 r2 : List Char) (ha : sep ∉ a) (hb : sep ∉ b)
    (h : a ++ sep :: r1 = b ++ sep :: r2) : a = b := by
  induction a generalizing b with
  | nil =>
    cases b with
    | nil => rfl
    | cons y ys =>
      simp only [List.nil_append, List.cons_append, List.cons.injEq] at h
      exact absurd (h.1 ▸ List.mem_cons_self _ _) hb
  | cons x xs ih =>
    cases b with
    | nil =>
      simp only [List.nil_append, List.cons_append, List.cons.injEq] at h
      exact absurd (h.1 ▸ List.mem_cons_self _ _) ha
    | cons y ys =>
      simp only [List.cons_append, List.cons.injEq] at h
      rw [h.1, ih ys (fun m => ha (List.mem_cons_of_mem _ m))
        (fun m => hb (List.mem_cons_of_mem _ m)) h.2]

theorem entriesOf_names (ReadDir : ReadDirFn) (hT : DirectoryTree ReadDir) (p : String) :
    ∀ e ∈ entriesOf ReadDir p, IsFileName e.Name := by
  unfold entriesOf
  cases hr : ReadDir p with
  | error e => simp
  | ok l => exact hT.names p l hr

theorem entriesOf_nodup (ReadDir : ReadDirFn) (hT : DirectoryTree ReadDir) (p : String) :
    ((entriesOf ReadDir p).map (fun e => e.Name)).Nodup := by
  unfold entriesOf
  cases hr : ReadDir p with
  | error e => simp
  | ok l => exact hT.distinct p l hr

theorem below_level (ReadDir : ReadDirFn) (c : FileInfo → Bool) (g : String → List String)
    (hg : Below g) :
    Below (fun D => ((entriesOf ReadDir D).filter c).flatMap (fun e => g (D ++ "/" ++ e.Name))) := by
  intro D q hq
  rw [List.mem_flatMap] at hq
  obtain ⟨e, -, hqe⟩ := hq
  obtain ⟨rest, hrest⟩ := hg _ q hqe
  exact ⟨e.Name.data ++ '/' :: rest, by simp [hrest]⟩

theorem nodup_level (ReadDir : ReadDirFn) (hT : DirectoryTree ReadDir) (c : FileInfo → Bool)
    (g : String → List String) (hg : Below g) (hnd : ∀ D, (g D).Nodup) (D : String) :
    (((entriesOf ReadDir D).filter c).flatMap (fun e => g (D ++ "/" ++ e.Name))).Nodup := by
  rw [List.nodup_flatMap]
  refine ⟨fun e _ => hnd _, ?_⟩
  have hpw : ((entriesOf ReadDir D).filter c).Pairwise (fun a b => a.Name ≠ b.Name) := by
    have h := entriesOf_nodup ReadDir hT D
    rw [List.Nodup, List.pairwise_map] at h
    exact h.sublist (List.filter_sublist _)
  refine hpw.imp_of_mem ?_
  intro a b ha hb hab
  have hna := entriesOf_names ReadDir hT D a (List.mem_of_mem_filter ha)
  have hnb := entriesOf_names ReadDir hT D b (List.mem_of_mem_filter hb)
  intro q hqa hqb
  obtain ⟨r1, h1⟩ := hg _ q hqa
  obtain ⟨r2, h2⟩ := hg _ q hqb
  rw [h1] at h2
  simp only [String.data_append, List.append_assoc, List.append_cancel_left_eq] at h2
  have h3 : a.Name.data ++ '/' :: r1 = b.Name.data ++ '/' :: r2 := by
    simpa using h2
  exact hab (String.ext (sep_cancel '/' _ _ r1 r2 hna.2.1 hnb.2.1 h3))

theorem below_versionFiles (ReadDir : ReadDirFn) : Below (versionFiles ReadDir) := by
  intro D q hq
  unfold versionFiles at hq
  rw [List.mem_map] at hq
  obtain ⟨f, -, rfl⟩ := hq
  exact ⟨f.Name.data, by simp⟩

theorem nodup_versionFiles (ReadDir : ReadDirFn) (hT : DirectoryTree ReadDir) (D : String) :
    (versionFiles ReadDir D).Nodup := by
  unfold versionFiles
  have h := entriesOf_nodup ReadDir hT D
  have h2 : (((entriesOf ReadDir D).filter
      (fun f => !f.IsDir && Path.Ext f.Name == ".json")).map (fun e => e.Name)).Nodup :=
    h.sublist ((List.filter_sublist _).map _)
  have h3 := h2.map (f := fun n => D ++ "/" ++ n) (by
    intro a b hab
    have := congrArg String.data hab
    simp only [String.data_append, List.append_cancel_left_eq] at this
    exact String.ext this)
  rw [List.map_map] at h3
  exact h3

theorem below_tierFiles (ReadDir : ReadDirFn) : Below (tierFiles ReadDir) :=
  below_level ReadDir _ _ (below_versionFiles ReadDir)

theorem below_namespaceFiles (ReadDir : ReadDirFn) : Below (namespaceFiles ReadDir) :=
  below_level ReadDir _ _ (below_tierFiles ReadDir)

theorem below_resourceManagerFiles (ReadDir : ReadDirFn) :
    Below (resourceManagerFiles ReadDir) :=
  below_level ReadDir _ _ (below_namespaceFiles ReadDir)

theorem below_serviceFiles (ReadDir : ReadDirFn) : Below (serviceFiles ReadDir) :=
  below_level ReadDir _ _ (below_resourceManagerFiles ReadDir)

/-- On a tree of directories and regular files no path of the convention is
listed twice. -/
theorem nodup_conventionPaths (ReadDir : ReadDirFn) (hT : DirectoryTree ReadDir)
    (sourceDir : String) : (conventionPaths ReadDir sourceDir).Nodup := by
  have h6 := nodup_versionFiles ReadDir hT
  have h5 : ∀ D, (tierFiles ReadDir D).Nodup :=
    nodup_level ReadDir hT _ _ (below_versionFiles ReadDir) h6
  have h4 : ∀ D, (namespaceFiles ReadDir D).Nodup :=
    nodup_level ReadDir hT _ _ (below_tierFiles ReadDir) h5
  have h3 : ∀ D, (resourceManagerFiles ReadDir D).Nodup :=
    nodup_level ReadDir hT _ _ (below_namespaceFiles ReadDir) h4
  have h2 : ∀ D, (serviceFiles ReadDir D).Nodup :=
    nodup_level ReadDir hT _ _ (below_resourceManagerFiles ReadDir) h3
  exact nodup_level ReadDir hT _ _ (below_serviceFiles ReadDir) h2 _

end AzSpecValidator

namespace AzSpecValidator

theorem treeOf_ok (table : List (String × List FileInfo)) (p : String) (l : List FileInfo)
    (h : treeOf table p = .ok l) : table.lookup p = some l := by
  unfold treeOf at h
  cases hl : table.lookup p with
  | none => simp [hl] at h
  | some l2 =>
    simp only [hl, Except.ok.injEq] at h
    rw [h]

theorem mem_of_lookup (table : List (String × List FileInfo)) (p : String) (l : List FileInfo)
    (h : table.lookup p = some l) : (p, l) ∈ table := by
  induction table with
  | nil => simp at h
  | cons x xs ih =>
    obtain ⟨k, v⟩ := x
    by_cases hk : p = k
    · subst hk
      simp only [List.lookup, beq_self_eq_true, Option.some.injEq] at h
      simp [h]
    · have hb : (p == k) = false := by simpa using hk
      simp only [List.lookup, hb] at h
      exact List.mem_cons_of_mem _ (ih h)

/-- A table whose listings hold distinct file names, and none of whose
non-directory entries has a listing of its own, is a tree of directories and
regular files. -/
theorem directoryTree_treeOf (table : List (String × List FileInfo))
    (hn : ∀ x ∈ table, ∀ e ∈ x.2, IsFileName e.Name)
    (hd : ∀ x ∈ table, (x.2.map (fun e => e.Name)).Nodup)
    (hf : ∀ x ∈ table, ∀ e ∈ x.2, e.IsDir = false →
      table.lookup (x.1 ++ "/" ++ e.Name) = none) :
    DirectoryTree (treeOf table) where
  names := fun p l h => hn (p, l) (mem_of_lookup table p l (treeOf_ok table p l h))
  distinct := fun p l h => hd (p, l) (mem_of_lookup table p l (treeOf_ok table p l h))
  files := by
    intro p l h e he hdir l2 h2
    have h3 := hf (p, l) (mem_of_lookup table p l (treeOf_ok table p l h)) e he hdir
    rw [treeOf_ok table _ l2 h2] at h3
    simp at h3

theorem directoryTree_sampleTree : DirectoryTree sampleTree :=
  directoryTree_treeOf sampleTable (by decide) (by decide) (by decide)

/-- The shape of every path of the convention: five single names below the
specification directory, of which the second is `resource-manager`, the fourth
`stable` or `preview`, and the last a name with the extension `.json`. -/
theorem conventionPaths_shape (ReadDir : ReadDirFn) (hT : DirectoryTree ReadDir)
    (sourceDir : String) :
    ∀ p ∈ conventionPaths ReadDir sourceDir, ∃ ns rns tier version file : String,
      p = Path.Join [sourceDir, "specification"] ++ "/" ++ ns ++ "/" ++ "resource-manager" ++
            "/" ++ rns ++ "/" ++ tier ++ "/" ++ version ++ "/" ++ file ∧
      (tier = "stable" ∨ tier = "preview") ∧ Path.Ext file = ".json" ∧
      IsFileName ns ∧ IsFileName rns ∧ IsFileName version ∧ IsFileName file := by
  intro p hp
  simp only [conventionPaths, serviceFiles, resourceManagerFiles, namespaceFiles, tierFiles,
    versionFiles, List.mem_flatMap, List.mem_map, List.mem_filter, Bool.and_eq_true,
    Bool.or_eq_true, beq_iff_eq, Bool.not_eq_true'] at hp
  obtain ⟨s, ⟨hs, -⟩, m, ⟨-, -, hmn⟩, n, ⟨hn, -⟩, t, ⟨-, -, htn⟩, v, ⟨hv, -⟩,
    f, ⟨hf, -, hfe⟩, rfl⟩ := hp
  refine ⟨s.Name, n.Name, t.Name, v.Name, f.Name, by rw [hmn], htn, hfe,
    entriesOf_names ReadDir hT _ s hs, entriesOf_names ReadDir hT _ n hn,
    entriesOf_names ReadDir hT _ v hv, entriesOf_names ReadDir hT _ f hf⟩

/-- On a tree of directories and regular files, where no entry that is not a
directory can be listed, on which `getSpecFiles` succeeds, the returned list is
the list of the convention paths
root/specification/ns/resource-manager/rns/tier/version/file in nested
directory-listing order (directories at every level, the tier named `stable`
or `preview`, the file a non-directory with extension `.json`), it has no
duplicates, and every returned path has that shape. -/
theorem getSpecFiles_result (ReadDir : ReadDirFn) (sourceDir : String) (r : List String)
    (hT : DirectoryTree ReadDir) (hok : getSpecFiles ReadDir sourceDir = .ok r) :
    r = conventionPaths ReadDir sourceDir ∧ r.Nodup ∧
    ∀ p ∈ r, ∃ ns rns tier version file : String,
      p = Path.Join [sourceDir, "specification"] ++ "/" ++ ns ++ "/" ++ "resource-manager" ++
            "/" ++ rns ++ "/" ++ tier ++ "/" ++ version ++ "/" ++ file ∧
      (tier = "stable" ∨ tier = "preview") ∧ Path.Ext file = ".json" ∧
      IsFileName ns ∧ IsFileName rns ∧ IsFileName version ∧ IsFileName file := by
  have h := getSpecFiles_eq_conventionPaths ReadDir hT sourceDir r hok
  subst h
  exact ⟨rfl, nodup_conventionPaths ReadDir hT sourceDir,
    conventionPaths_shape ReadDir hT sourceDir⟩

/-- The locator at the sample tree below the source `./r`, where it
returns the three `.json` files of the preview and stable version directories
and none of the files under `data-plane`, under the tier `other`, without the
extension, or below `examples`. -/
theorem getSpecFiles_result_witness :
    (DirectoryTree sampleTree ∧
      getSpecFiles sampleTree "./r" = .ok
        ["r/specification/foo/resource-manager/bar/preview/2021-01-01-preview/b.json",
         "r/specification/foo/resource-manager/bar/preview/2021-01-01-preview/svc.json",
         "r/specification/foo/resource-manager/bar/stable/2020-01-01/svc.json"]) ∧
    ["r/specification/foo/resource-manager/bar/preview/2021-01-01-preview/b.json",
     "r/specification/foo/resource-manager/bar/preview/2021-01-01-preview/svc.json",
     "r/specification/foo/resource-manager/bar/stable/2020-01-01/svc.json"] =
      conventionPaths sampleTree "./r" :=
  ⟨⟨directoryTree_sampleTree, rfl⟩,
   (getSpecFiles_result sampleTree "./r" _ directoryTree_sampleTree rfl).1⟩

/-- C10, evaluated at a regular file named `preview`: on a tree of directories
and regular files whose resource-namespace directory holds such a file, the
tier filter lets the file through, `getSpecFiles` tries to list it and returns
the error of that listing, although skipping the entry would have given the one
file below `stable`. -/
theorem tier_filter_preview_file :
    DirectoryTree previewFileTree ∧
    getSpecFiles previewFileTree "r" =
      .error "open r/specification/foo/resource-manager/bar/preview: cannot be listed" ∧
    conventionPaths previewFileTree "r" =
      ["r/specification/foo/resource-manager/bar/stable/2020-01-01/svc.json"] :=
  ⟨directoryTree_treeOf previewFileTable (by decide) (by decide) (by decide), rfl, by decide⟩

end AzSpecValidator

/-! ## The aggregation loop -/

namespace AzSpecValidator

namespace ReportMap

theorem read_nil (k : String) : get [] k = none := rfl

theorem read_cons (e : String × List SpecErrorOrInconsistency) (m : ReportMap) (k : String) :
    get (e :: m) k = if k = e.1 then some e.2 else get m k := by
  unfold get
  obtain ⟨a, b⟩ := e
  by_cases h : k = a
  · subst h
    simp [List.lookup]
  · have h2 : (k == a) = false := by simpa using h
    simp [List.lookup, h, h2]

theorem read_append_singleton (m : ReportMap) (k k2 : String)
    (v : List SpecErrorOrInconsistency) (hk : m.any (fun e => e.1 == k) = false) :
    get (m ++ [(k, v)]) k2 = if k2 = k then some v else get m k2 := by
  induction m with
  | nil => simp only [List.nil_append, read_cons, read_nil]
  | cons e es ih =>
    simp only [List.any_cons, Bool.or_eq_false_iff, beq_eq_false_iff_ne, ne_eq] at hk
    rw [List.cons_append, read_cons, read_cons, ih hk.2]
    by_cases h1 : k2 = e.1
    · simp [h1, hk.1]
    · simp [h1]

theorem read_map_update (m : ReportMap) (k k2 : String) (v : List SpecErrorOrInconsistency) :
    get (m.map (fun e => if e.1 == k then (k, v) else e)) k2 =
      if k2 = k ∧ m.any (fun e => e.1 == k) = true then some v else get m k2 := by
  induction m with
  | nil => simp [read_nil]
  | cons e es ih =>
    rw [List.map_cons, read_cons, ih, read_cons]
    by_cases h1 : e.1 = k
    · by_cases h2 : k2 = k
      · simp [h1, h2]
      · simp [h1, h2]
    · have h1b : (e.1 == k) = false := by simpa using h1
      by_cases h2 : k2 = k
      · subst h2
        have h3 : ¬ k2 = e.1 := fun h => h1 h.symm
        simp only [h1b, Bool.false_eq_true, if_false, List.any_cons, Bool.false_or, if_neg h3]
      · simp [h1, h1b, h2]

/-- Reading the report map after a write. -/
theorem read_set (m : ReportMap) (k k2 : String) (v : List SpecErrorOrInconsistency) :
    get (set m k v) k2 = if k2 = k then some v else get m k2 := by
  unfold set
  by_cases h : m.any (fun e => e.1 == k) = true
  · rw [if_pos h, read_map_update]
    simp [h]
  · rw [if_neg h]
    rw [Bool.not_eq_true] at h
    exact read_append_singleton m k k2 v h

theorem mem_set (m : ReportMap) (k : String) (v : List SpecErrorOrInconsistency)
    (e : String × List SpecErrorOrInconsistency) (he : e ∈ set m k v) :
    e ∈ m ∨ e = (k, v) := by
  unfold set at he
  split_ifs at he with h
  · rw [List.mem_map] at he
    obtain ⟨x, hx, hxe⟩ := he
    split_ifs at hxe with h2
    · exact Or.inr hxe.symm
    · exact Or.inl (hxe ▸ hx)
  · rw [List.mem_append, List.mem_singleton] at he
    exact he

end ReportMap

theorem get_aggregateStep (m : ReportMap) (r : Result) (k : String) :
    (aggregateStep m r).get k =
      if k = r.file ∧ r.errs ≠ [] then some r.errs else m.get k := by
  unfold aggregateStep
  by_cases h : r.errs = []
  · simp [h]
  · have hl : r.errs.length > 0 := List.length_pos.mpr h
    rw [if_pos hl, ReportMap.read_set]
    simp [h]

/-- A key that no record names keeps its entry through the loop. -/
theorem get_foldl_of_not_mem (rs : List Result) (m : ReportMap) (k : String)
    (hk : k ∉ rs.map (fun r => r.file)) :
    (rs.foldl aggregateStep m).get k = m.get k := by
  induction rs generalizing m with
  | nil => rfl
  | cons a as ih =>
    simp only [List.map_cons, List.mem_cons, not_or] at hk
    rw [List.foldl_cons, ih _ hk.2, get_aggregateStep]
    simp [hk.1]

/-- An entry of the map after the loop was there before or comes from a record
with at least one finding. -/
theorem get_foldl_some (rs : List Result) (m : ReportMap) (k : String)
    (v : List SpecErrorOrInconsistency) (h : (rs.foldl aggregateStep m).get k = some v) :
    m.get k = some v ∨ ∃ r ∈ rs, r.file = k ∧ r.errs = v ∧ v ≠ [] := by
  induction rs generalizing m with
  | nil => exact Or.inl h
  | cons a as ih =>
    rw [List.foldl_cons] at h
    rcases ih _ h with h1 | ⟨r, hr, h2⟩
    · rw [get_aggregateStep] at h1
      split_ifs at h1 with hc
      · right
        simp only [Option.some.injEq] at h1
        exact ⟨a, List.mem_cons_self _ _, hc.1.symm, h1, h1 ▸ hc.2⟩
      · exact Or.inl h1
    · exact Or.inr ⟨r, List.mem_cons_of_mem _ hr, h2⟩

/-- With pairwise distinct file paths every record with a finding is in the map
after the loop, under its file. -/
theorem get_foldl_of_mem (rs : List Result) (m : ReportMap)
    (hd : (rs.map (fun r => r.file)).Nodup) (r : Result) (hr : r ∈ rs) (hne : r.errs ≠ []) :
    (rs.foldl aggregateStep m).get r.file = some r.errs := by
  induction rs generalizing m with
  | nil => simp at hr
  | cons a as ih =>
    rw [List.map_cons, List.nodup_cons] at hd
    rw [List.foldl_cons]
    rw [List.mem_cons] at hr
    rcases hr with rfl | hr
    · rw [get_foldl_of_not_mem as _ _ hd.1, get_aggregateStep]
      simp [hne]
    · exact ih _ hd.2 hr

/-- The report map after the loop, for pairwise distinct file paths. -/
theorem get_aggregate_iff (rs : List Result) (hd : (rs.map (fun r => r.file)).Nodup)
    (k : String) (v : List SpecErrorOrInconsistency) :
    (aggregate rs).get k = some v ↔ ∃ r ∈ rs, r.file = k ∧ r.errs = v ∧ v ≠ [] := by
  unfold aggregate
  constructor
  · intro h
    rcases get_foldl_some rs [] k v h with h1 | h1
    · simp [ReportMap.read_nil] at h1
    · exact h1
  · rintro ⟨r, hr, rfl, rfl, hne⟩
    exact get_foldl_of_mem rs [] hd r hr hne

theorem aggregateStep_nonempty (m : ReportMap) (r : Result) (hm : ∀ e ∈ m, e.2 ≠ []) :
    ∀ e ∈ aggregateStep m r, e.2 ≠ [] := by
  unfold aggregateStep
  split_ifs with h
  · intro e he
    rcases ReportMap.mem_set m _ _ e he with h1 | h1
    · exact hm e h1
    · rw [h1]
      exact List.length_pos.mp h
  · exact hm

theorem foldl_aggregateStep_nonempty (rs : List Result) (m : ReportMap)
    (hm : ∀ e ∈ m, e.2 ≠ []) : ∀ e ∈ rs.foldl aggregateStep m, e.2 ≠ [] := by
  induction rs generalizing m with
  | nil => exact hm
  | cons a as ih =>
    rw [List.foldl_cons]
    exact ih _ (aggregateStep_nonempty m a hm)

/-- C13: after every number of steps of the aggregation loop, the end included,
no entry of the report map has an empty finding list; and for records with
pairwise distinct file paths the final map holds a file exactly if its record
has at least one finding, mapped to the finding list of that record. -/
theorem report_map_invariant (results : List Result) :
    (∀ n : Nat, ∀ e ∈ aggregate (results.take n), e.2 ≠ []) ∧
    (∀ e ∈ aggregate results, e.2 ≠ []) ∧
    ((results.map (fun r => r.file)).Nodup →
      ∀ (k : String) (v : List SpecErrorOrInconsistency),
        (aggregate results).get k = some v ↔
          ∃ r ∈ results, r.file = k ∧ r.errs = v ∧ v ≠ []) := by
  refine ⟨fun n => ?_, ?_, fun hd k v => get_aggregate_iff results hd k v⟩
  · exact foldl_aggregateStep_nonempty _ [] (by simp)
  · exact foldl_aggregateStep_nonempty _ [] (by simp)

/-- Witness for C13: the three sample records, of which the second has no
finding. -/
theorem report_map_invariant_witness :
    (sampleResults.map (fun r => r.file)).Nodup ∧
    (∀ e ∈ aggregate sampleResults, e.2 ≠ []) ∧
    ∀ (k : String) (v : List SpecErrorOrInconsistency),
      (aggregate sampleResults).get k = some v ↔
        ∃ r ∈ sampleResults, r.file = k ∧ r.errs = v ∧ v ≠ [] :=
  ⟨by decide, (report_map_invariant sampleResults).2.1,
   (report_map_invariant sampleResults).2.2 (by decide)⟩

/-- C19: for records with pairwise distinct file paths, the aggregation loop
builds the same report map from every rearrangement of the records: the same
files are present, each with the same finding list. -/
theorem aggregate_order_independent (rs rs2 : List Result) (hp : rs2.Perm rs)
    (hd : (rs.map (fun r => r.file)).Nodup) :
    ∀ k : String, (aggregate rs2).get k = (aggregate rs).get k := by
  intro k
  have hd2 : (rs2.map (fun r => r.file)).Nodup := (hp.map _).nodup_iff.mpr hd
  apply Option.ext
  intro v
  rw [Option.mem_def, Option.mem_def, get_aggregate_iff rs2 hd2, get_aggregate_iff rs hd]
  constructor
  · rintro ⟨r, hr, h⟩
    exact ⟨r, hp.mem_iff.mp hr, h⟩
  · rintro ⟨r, hr, h⟩
    exact ⟨r, hp.mem_iff.mpr hr, h⟩

/-- Witness for C19: the three sample records delivered in reverse order. -/
theorem aggregate_order_independent_witness :
    (sampleResults.reverse.Perm sampleResults ∧
      (sampleResults.map (fun r => r.file)).Nodup) ∧
    ∀ k : String, (aggregate sampleResults.reverse).get k = (aggregate sampleResults).get k :=
  ⟨⟨List.reverse_perm sampleResults, by decide⟩,
   aggregate_order_independent sampleResults sampleResults.reverse
     (List.reverse_perm sampleResults) (by decide)⟩

end AzSpecValidator

/-! ## The worker -/

namespace AzSpecValidator

theorem validateErrorTypes_none (specFile : String) (categories : CategoriesMap) :
    validateErrorTypes none specFile categories = none := by
  unfold validateErrorTypes
  cases (Strings.Split specFile '/')[5]? <;> cases (Strings.Split specFile '/')[6]? <;> rfl

theorem validateErrorTypes_some_inv (doc : Option Document) (specFile : String)
    (categories : CategoriesMap) (r : List SpecErrorOrInconsistency)
    (h : validateErrorTypes doc specFile categories = some r) :
    ∃ d stability versionFromPath, doc = some d ∧
      (Strings.Split specFile '/')[5]? = some stability ∧
      (Strings.Split specFile '/')[6]? = some versionFromPath := by
  cases doc with
  | none => rw [validateErrorTypes_none] at h; simp at h
  | some d =>
    unfold validateErrorTypes at h
    cases h5 : (Strings.Split specFile '/')[5]? with
    | none => simp [h5] at h
    | some s5 =>
      cases h6 : (Strings.Split specFile '/')[6]? with
      | none => simp [h5, h6] at h
      | some s6 => exact ⟨d, s5, s6, rfl, rfl, rfl⟩

/-- A returned list means the document has its info object, and its paths
object when ListOperationUsingPost is enabled. -/
theorem validateErrorTypes_some_info (d : Document) (specFile : String)
    (categories : CategoriesMap) (r : List SpecErrorOrInconsistency)
    (h : validateErrorTypes (some d) specFile categories = some r) :
    ∃ info, d.Spec.Info = some info ∧
      (categories.enabled InconsistencyListOperationUsingPost = true →
        d.Spec.Paths ≠ none) := by
  obtain ⟨d2, s5, s6, -, h5, h6⟩ := validateErrorTypes_some_inv _ _ _ _ h
  unfold validateErrorTypes at h
  cases hi : d.Spec.Info with
  | none => simp [h5, h6, hi] at h
  | some info =>
    refine ⟨info, rfl, ?_⟩
    intro hen hpn
    simp [h5, h6, hi, hen, hpn] at h

theorem findingsOf_eq_self (c : String) (l : List SpecErrorOrInconsistency)
    (h : ∀ f ∈ l, f.Inconsistency = c) : findingsOf c l = l := by
  unfold findingsOf
  rw [List.filter_eq_self]
  intro f hf
  simp [h f hf]

theorem findingsOf_eq_nil (c : String) (l : List SpecErrorOrInconsistency)
    (h : ∀ f ∈ l, f.Inconsistency ≠ c) : findingsOf c l = [] := by
  unfold findingsOf
  rw [List.filter_eq_nil_iff]
  intro f hf
  simp [h f hf]

/-- A list made of four blocks, each of one category, the categories pairwise
different, is the concatenation of its findings by category. -/
theorem grouped_of_blocks (c1 c2 c3 c4 : String) (a b c d : List SpecErrorOrInconsistency)
    (ha : ∀ f ∈ a, f.Inconsistency = c1) (hb : ∀ f ∈ b, f.Inconsistency = c2)
    (hc : ∀ f ∈ c, f.Inconsistency = c3) (hd : ∀ f ∈ d, f.Inconsistency = c4)
    (h12 : c1 ≠ c2) (h13 : c1 ≠ c3) (h14 : c1 ≠ c4) (h23 : c2 ≠ c3) (h24 : c2 ≠ c4)
    (h34 : c3 ≠ c4) :
    a ++ b ++ c ++ d =
      findingsOf c1 (a ++ b ++ c ++ d) ++ findingsOf c2 (a ++ b ++ c ++ d) ++
        findingsOf c3 (a ++ b ++ c ++ d) ++ findingsOf c4 (a ++ b ++ c ++ d) := by
  simp only [findingsOf_append]
  rw [findingsOf_eq_self c1 a ha, findingsOf_eq_self c2 b hb, findingsOf_eq_self c3 c hc,
    findingsOf_eq_self c4 d hd,
    findingsOf_eq_nil c1 b (fun f hf => (hb f hf) ▸ h12.symm),
    findingsOf_eq_nil c1 c (fun f hf => (hc f hf) ▸ h13.symm),
    findingsOf_eq_nil c1 d (fun f hf => (hd f hf) ▸ h14.symm),
    findingsOf_eq_nil c2 a (fun f hf => (ha f hf) ▸ h12),
    findingsOf_eq_nil c2 c (fun f hf => (hc f hf) ▸ h23.symm),
    findingsOf_eq_nil c2 d (fun f hf => (hd f hf) ▸ h24.symm),
    findingsOf_eq_nil c3 a (fun f hf => (ha f hf) ▸ h13),
    findingsOf_eq_nil c3 b (fun f hf => (hb f hf) ▸ h23),
    findingsOf_eq_nil c3 d (fun f hf => (hd f hf) ▸ h34.symm),
    findingsOf_eq_nil c4 a (fun f hf => (ha f hf) ▸ h14),
    findingsOf_eq_nil c4 b (fun f hf => (hb f hf) ▸ h24),
    findingsOf_eq_nil c4 c (fun f hf => (hc f hf) ▸ h34)]
  simp

theorem foldl_append_singleton {α β : Type} (f : α → β) (l : List α) (init : List β) :
    l.foldl (fun acc x => acc ++ [f x]) init = init ++ l.map f := by
  induction l generalizing init with
  | nil => simp
  | cons a as ih => rw [List.foldl_cons, ih]; simp

/-- The record of a worker whose document loaded: the findings of the checker,
followed by those of the schema validator when its category is enabled. -/
theorem worker_loaded (JSONSpec : String → Option Document)
    (Validate : Document → Option (List String)) (categories : CategoriesMap)
    (specFile : String) (d : Document) (r : List SpecErrorOrInconsistency)
    (hd : JSONSpec specFile = some d)
    (hr : validateErrorTypes (some d) specFile categories = some r) :
    worker JSONSpec Validate categories specFile =
      some { file := specFile,
             errs := r ++ if categories.enabled ErrorSchemaValidationFailed = true then
               schemaFindings Validate d else [] } := by
  unfold worker schemaFindings
  simp only [hd, hr, Option.bind_eq_bind, Option.some_bind]
  by_cases hen : categories.enabled ErrorSchemaValidationFailed = true
  · simp only [hen, if_true, Option.some_bind]
    cases hv : Validate d with
    | none => simp
    | some errors =>
      by_cases hl : errors.length > 0
      · simp [hl, foldl_append_singleton]
      · have he : errors = [] := List.length_eq_zero.mp (by omega)
        simp [he]
  · simp [hen]

/-- A worker whose document failed to load faults. -/
theorem worker_not_loaded (JSONSpec : String → Option Document)
    (Validate : Document → Option (List String)) (categories : CategoriesMap)
    (specFile : String) (hd : JSONSpec specFile = none) :
    worker JSONSpec Validate categories specFile = none := by
  unfold worker
  simp [hd, validateErrorTypes_none]

theorem worker_some_inv (JSONSpec : String → Option Document)
    (Validate : Document → Option (List String)) (categories : CategoriesMap)
    (specFile : String) (res : Result)
    (h : worker JSONSpec Validate categories specFile = some res) :
    ∃ d r, JSONSpec specFile = some d ∧
      validateErrorTypes (some d) specFile categories = some r ∧
      res = { file := specFile,
              errs := r ++ if categories.enabled ErrorSchemaValidationFailed = true then
                schemaFindings Validate d else [] } := by
  cases hd : JSONSpec specFile with
  | none => rw [worker_not_loaded _ _ _ _ hd] at h; simp at h
  | some d =>
    cases hr : validateErrorTypes (some d) specFile categories with
    | none =>
      unfold worker at h
      simp [hd, hr] at h
    | some r =>
      rw [worker_loaded _ _ _ _ d r hd hr] at h
      exact ⟨d, r, rfl, hr, (Option.some.inj h).symm⟩

theorem schemaFindings_category (Validate : Document → Option (List String)) (d : Document) :
    ∀ f ∈ schemaFindings Validate d, f.Inconsistency = ErrorSchemaValidationFailed := by
  unfold schemaFindings
  cases Validate d with
  | none => simp
  | some errors =>
    intro f hf
    simp only [List.mem_map] at hf
    obtain ⟨e, -, rfl⟩ := hf
    rfl

/-- The result of the checker, block by block, with the category of each block. -/
theorem validateErrorTypes_blocks (d : Document) (specFile : String)
    (categories : CategoriesMap) (r : List SpecErrorOrInconsistency)
    (h : validateErrorTypes (some d) specFile categories = some r) :
    ∃ a b c e : List SpecErrorOrInconsistency, r = a ++ b ++ c ++ e ∧
      (∀ f ∈ a, f.Inconsistency = ErrorTypeIncorrectSchemaVersion ∧
        categories.enabled ErrorTypeIncorrectSchemaVersion = true) ∧
      (∀ f ∈ b, f.Inconsistency = ErrorPreviewSchemaWithoutPreviewVersion ∧
        categories.enabled ErrorPreviewSchemaWithoutPreviewVersion = true) ∧
      (∀ f ∈ c, f.Inconsistency = ErrorStableSchemaWithPreviewVersion ∧
        categories.enabled ErrorStableSchemaWithPreviewVersion = true) ∧
      (∀ f ∈ e, f.Inconsistency = InconsistencyListOperationUsingPost ∧
        categories.enabled InconsistencyListOperationUsingPost = true) := by
  obtain ⟨d2, s5, s6, hd, h5, h6⟩ := validateErrorTypes_some_inv _ _ _ _ h
  obtain ⟨info, hi, hp⟩ := validateErrorTypes_some_info _ _ _ _ h
  rw [validateErrorTypes_eq d specFile categories s5 s6 info h5 h6 hi hp] at h
  refine ⟨_, _, _, _, (Option.some.inj h).symm, ?_, ?_, ?_, ?_⟩
  · intro f hf
    split_ifs at hf with hc
    · rw [List.mem_singleton] at hf
      exact ⟨hf ▸ rfl, hc.1⟩
    · simp at hf
  · intro f hf
    split_ifs at hf with hc
    · rw [List.mem_singleton] at hf
      exact ⟨hf ▸ rfl, hc.1⟩
    · simp at hf
  · intro f hf
    split_ifs at hf with hc
    · rw [List.mem_singleton] at hf
      exact ⟨hf ▸ rfl, hc.1⟩
    · simp at hf
  · intro f hf
    split_ifs at hf with hc
    · rw [List.mem_map] at hf
      obtain ⟨x, -, rfl⟩ := hf
      exact ⟨rfl, hc⟩
    · simp at hf

/-- C17: the list returned by the checker is its IncorrectSchemaVersion findings,
then its PreviewSchemaWithoutPreviewVersion findings, then its
StableSchemaWithPreviewVersion findings, then its ListOperationUsingPost
findings; and the record of the worker is that list followed by findings that
are all SchemaValidationFailed. -/
theorem fixed_rule_order (doc : Option Document) (specFile : String)
    (categories : CategoriesMap) (r : List SpecErrorOrInconsistency)
    (h : validateErrorTypes doc specFile categories = some r) :
    r = findingsOf ErrorTypeIncorrectSchemaVersion r ++
          findingsOf ErrorPreviewSchemaWithoutPreviewVersion r ++
          findingsOf ErrorStableSchemaWithPreviewVersion r ++
          findingsOf InconsistencyListOperationUsingPost r ∧
    ∀ (JSONSpec : String → Option Document) (Validate : Document → Option (List String))
      (res : Result), JSONSpec specFile = doc →
      worker JSONSpec Validate categories specFile = some res →
      ∃ appended, res.errs = r ++ appended ∧
        ∀ f ∈ appended, f.Inconsistency = ErrorSchemaValidationFailed := by
  obtain ⟨d, s5, s6, rfl, h5, h6⟩ := validateErrorTypes_some_inv _ _ _ _ h
  constructor
  · obtain ⟨a, b, c, e, rfl, ha, hb, hc, he⟩ := validateErrorTypes_blocks d _ _ _ h
    exact grouped_of_blocks _ _ _ _ a b c e (fun f hf => (ha f hf).1) (fun f hf => (hb f hf).1)
      (fun f hf => (hc f hf).1) (fun f hf => (he f hf).1)
      (by decide) (by decide) (by decide) (by decide) (by decide) (by decide)
  · intro JSONSpec Validate res hj hw
    rw [worker_loaded JSONSpec Validate categories specFile d r hj h] at hw
    rw [← Option.some.inj hw]
    refine ⟨_, rfl, ?_⟩
    intro f hf
    split_ifs at hf
    · exact schemaFindings_category Validate d f hf
    · simp at hf

/-- C18: every finding in the record of a worker carries a category that is
enabled in the mapping; with SchemaValidationFailed disabled the record holds
the findings of the checker only, and with all five categories disabled it is
empty. -/
theorem only_enabled_categories (JSONSpec : String → Option Document)
    (Validate : Document → Option (List String)) (categories : CategoriesMap)
    (specFile : String) (res : Result)
    (h : worker JSONSpec Validate categories specFile = some res) :
    (∀ f ∈ res.errs, categories.enabled f.Inconsistency = true) ∧
    (categories.enabled ErrorSchemaValidationFailed = false →
      validateErrorTypes (JSONSpec specFile) specFile categories = some res.errs) ∧
    ((∀ k ∈ knownCategories, categories.enabled k = false) → res.errs = []) := by
  obtain ⟨d, r, hd, hr, rfl⟩ := worker_some_inv _ _ _ _ _ h
  obtain ⟨a, b, c, e, rfl, ha, hb, hc, he⟩ := validateErrorTypes_blocks d _ _ _ hr
  have hmem : ∀ f ∈ a ++ b ++ c ++ e ++
      (if categories.enabled ErrorSchemaValidationFailed = true then
        schemaFindings Validate d else []),
      categories.enabled f.Inconsistency = true := by
    intro f hf
    simp only [List.mem_append] at hf
    rcases hf with (((hf | hf) | hf) | hf) | hf
    · rw [(ha f hf).1]; exact (ha f hf).2
    · rw [(hb f hf).1]; exact (hb f hf).2
    · rw [(hc f hf).1]; exact (hc f hf).2
    · rw [(he f hf).1]; exact (he f hf).2
    · split_ifs at hf with hen
      · rw [schemaFindings_category Validate d f hf]; exact hen
      · simp at hf
  refine ⟨hmem, ?_, ?_⟩
  · intro hoff
    rw [hd, hr]
    simp [hoff]
  · intro hall
    apply List.eq_nil_iff_forall_not_mem.mpr
    intro f hf
    have h1 := hmem f hf
    have h2 : f.Inconsistency ∈ knownCategories := by
      simp only [List.mem_append] at hf
      rcases hf with (((hf | hf) | hf) | hf) | hf
      · rw [(ha f hf).1]; decide
      · rw [(hb f hf).1]; decide
      · rw [(hc f hf).1]; decide
      · rw [(he f hf).1]; decide
      · split_ifs at hf with hen
        · rw [schemaFindings_category Validate d f hf]; decide
        · simp at hf
    rw [hall _ h2] at h1
    exact Bool.noConfusion h1

/-- Witness for C17: the mixed sample document under the default categories,
whose three findings come in the order of the rules. -/
theorem fixed_rule_order_witness :
    validateErrorTypes (some sampleMixedDocument) samplePath (categoriesMap none) =
      some sampleMixedFindings ∧
    (sampleMixedFindings =
      findingsOf ErrorTypeIncorrectSchemaVersion sampleMixedFindings ++
        findingsOf ErrorPreviewSchemaWithoutPreviewVersion sampleMixedFindings ++
        findingsOf ErrorStableSchemaWithPreviewVersion sampleMixedFindings ++
        findingsOf InconsistencyListOperationUsingPost sampleMixedFindings ∧
      ∀ (JSONSpec : String → Option Document) (Validate : Document → Option (List String))
        (res : Result), JSONSpec samplePath = some sampleMixedDocument →
        worker JSONSpec Validate (categoriesMap none) samplePath = some res →
        ∃ appended, res.errs = sampleMixedFindings ++ appended ∧
          ∀ f ∈ appended, f.Inconsistency = ErrorSchemaValidationFailed) :=
  ⟨by decide,
   fixed_rule_order (some sampleMixedDocument) samplePath (categoriesMap none)
     sampleMixedFindings (by decide)⟩

/-- Witness for C18: the worker on the mixed sample document with only
SchemaValidationFailed and ListOperationUsingPost supplied. -/
theorem only_enabled_categories_witness :
    worker (fun _ => some sampleMixedDocument) (fun _ => some ["info.title is required"])
        (categoriesMap (some [ErrorSchemaValidationFailed, InconsistencyListOperationUsingPost]))
        samplePath = some sampleRecord ∧
    ((∀ f ∈ sampleRecord.errs,
        (categoriesMap (some [ErrorSchemaValidationFailed,
          InconsistencyListOperationUsingPost])).enabled f.Inconsistency = true) ∧
      ((categoriesMap (some [ErrorSchemaValidationFailed,
          InconsistencyListOperationUsingPost])).enabled ErrorSchemaValidationFailed = false →
        validateErrorTypes ((fun _ => some sampleMixedDocument) samplePath) samplePath
          (categoriesMap (some [ErrorSchemaValidationFailed,
            InconsistencyListOperationUsingPost])) = some sampleRecord.errs) ∧
      ((∀ k ∈ knownCategories,
          (categoriesMap (some [ErrorSchemaValidationFailed,
            InconsistencyListOperationUsingPost])).enabled k = false) →
        sampleRecord.errs = [])) :=
  ⟨by decide,
   only_enabled_categories (fun _ => some sampleMixedDocument)
     (fun _ => some ["info.title is required"])
     (categoriesMap (some [ErrorSchemaValidationFailed, InconsistencyListOperationUsingPost]))
     samplePath sampleRecord (by decide)⟩

end AzSpecValidator

/-! ## Listing failures -/

namespace AzSpecValidator

theorem firstError_nil (ReadDir : ReadDirFn) : firstError ReadDir [] = none := rfl

theorem firstError_cons (ReadDir : ReadDirFn) (p : String) (dirs : List String) :
    firstError ReadDir (p :: dirs) =
      match ReadDir p with
      | .error e => some e
      | .ok _ => firstError ReadDir dirs := by
  unfold firstError
  rw [List.findSome?_cons]
  cases ReadDir p <;> rfl

theorem firstError_append (ReadDir : ReadDirFn) (a b : List String) :
    firstError ReadDir (a ++ b) = (firstError ReadDir a).or (firstError ReadDir b) := by
  induction a with
  | nil => simp [firstError_nil]
  | cons p ps ih =>
    rw [List.cons_append, firstError_cons, firstError_cons, ih]
    cases ReadDir p <;> simp

/-- A loop whose body fails exactly with the first failing listing among the
directories of its entry fails exactly with the first failing listing among the
directories of all entries. -/
theorem errorOf_foldlM {α : Type} (ReadDir : ReadDirFn)
    (step : List String → α → Except String (List String)) (dirs : α → List String)
    (l : List α)
    (hstep : ∀ a ∈ l, ∀ acc, errorOf (step acc a) = firstError ReadDir (dirs a)) :
    ∀ acc, errorOf (l.foldlM step acc) = firstError ReadDir (l.flatMap dirs) := by
  induction l with
  | nil => intro acc; rfl
  | cons a as ih =>
    intro acc
    rw [List.foldlM_cons, List.flatMap_cons, firstError_append]
    have h1 := hstep a (List.mem_cons_self _ _) acc
    cases hs : step acc a with
    | error e =>
      rw [hs] at h1
      rw [← h1]
      rfl
    | ok mid =>
      rw [hs] at h1
      rw [← h1]
      exact ih (fun b hb => hstep b (List.mem_cons_of_mem _ hb)) mid

theorem errorOf_stableVersionLoop (ReadDir : ReadDirFn) (tp : String) (acc : List String)
    (sv : FileInfo) :
    errorOf (stableVersionLoop ReadDir tp acc sv) = firstError ReadDir (versionDirs tp sv) := by
  unfold stableVersionLoop versionDirs
  by_cases hd : sv.IsDir = true
  · rw [if_pos hd, if_pos hd, firstError_cons, firstError_nil]
    cases hr : ReadDir (Path.Join [tp, sv.Name]) <;>
      simp only [hr, bind, Except.bind, pure, Except.pure, errorOf]
  · rw [if_neg hd, if_neg hd]
    rfl

theorem errorOf_stablePreviewLoop (ReadDir : ReadDirFn) (np : String) (acc : List String)
    (sp : FileInfo) :
    errorOf (stablePreviewLoop ReadDir np acc sp) =
      firstError ReadDir (stablePreviewDirs ReadDir np sp) := by
  unfold stablePreviewLoop stablePreviewDirs tierCondition
  by_cases hc : ((sp.IsDir && sp.Name == "stable") || sp.Name == "preview") = true
  · rw [if_pos hc, if_pos hc, firstError_cons]
    cases hr : ReadDir (Path.Join [np, sp.Name]) with
    | error e => simp only [hr, bind, Except.bind, errorOf]
    | ok versions =>
      rw [entriesOf_ok ReadDir _ versions hr]
      simp only [hr, bind, Except.bind]
      exact errorOf_foldlM ReadDir _ _ versions
        (fun sv _ acc => errorOf_stableVersionLoop ReadDir _ acc sv) acc
  · rw [if_neg hc, if_neg hc]
    rfl

theorem errorOf_namespaceLoop (ReadDir : ReadDirFn) (specPath : String)
    (specDir resourceManager : FileInfo) (acc : List String) (ns : FileInfo) :
    errorOf (namespaceLoop ReadDir specPath specDir resourceManager acc ns) =
      firstError ReadDir (namespaceDirs ReadDir specPath specDir resourceManager ns) := by
  unfold namespaceLoop namespaceDirs
  by_cases hd : ns.IsDir = true
  · rw [if_pos hd, if_pos hd, firstError_cons]
    cases hr : ReadDir
        (Path.Join [specPath, specDir.Name, resourceManager.Name, ns.Name]) with
    | error e => simp only [hr, bind, Except.bind, errorOf]
    | ok tiers =>
      rw [entriesOf_ok ReadDir _ tiers hr]
      simp only [hr, bind, Except.bind]
      exact errorOf_foldlM ReadDir _ _ tiers
        (fun sp _ acc => errorOf_stablePreviewLoop ReadDir _ acc sp) acc
  · rw [if_neg hd, if_neg hd]
    rfl

theorem errorOf_resourceManagerLoop (ReadDir : ReadDirFn) (specPath : String)
    (specDir : FileInfo) (acc : List String) (resourceManager : FileInfo) :
    errorOf (resourceManagerLoop ReadDir specPath specDir acc resourceManager) =
      firstError ReadDir (resourceManagerDirs ReadDir specPath specDir resourceManager) := by
  unfold resourceManagerLoop resourceManagerDirs
  by_cases hd : (resourceManager.IsDir && resourceManager.Name == "resource-manager") = true
  · rw [if_pos hd, if_pos hd, firstError_cons]
    cases hr : ReadDir (Path.Join [specPath, specDir.Name, resourceManager.Name]) with
    | error e => simp only [hr, bind, Except.bind, errorOf]
    | ok namespaces =>
      rw [entriesOf_ok ReadDir _ namespaces hr]
      simp only [hr, bind, Except.bind]
      exact errorOf_foldlM ReadDir _ _ namespaces
        (fun ns _ acc => errorOf_namespaceLoop ReadDir _ _ _ acc ns) acc
  · rw [if_neg hd, if_neg hd]
    rfl

theorem errorOf_specDirLoop (ReadDir : ReadDirFn) (specPath : String) (acc : List String)
    (specDir : FileInfo) :
    errorOf (specDirLoop ReadDir specPath acc specDir) =
      firstError ReadDir (specDirDirs ReadDir specPath specDir) := by
  unfold specDirLoop specDirDirs
  by_cases hd : specDir.IsDir = true
  · rw [if_pos hd, if_pos hd, firstError_cons]
    cases hr : ReadDir (Path.Join [specPath, specDir.Name]) with
    | error e => simp only [hr, bind, Except.bind, errorOf]
    | ok managers =>
      rw [entriesOf_ok ReadDir _ managers hr]
      simp only [hr, bind, Except.bind]
      exact errorOf_foldlM ReadDir _ _ managers
        (fun rm _ acc => errorOf_resourceManagerLoop ReadDir _ _ acc rm) acc
  · rw [if_neg hd, if_neg hd]
    rfl

/-- The locator fails exactly with the error of the first directory of its
traversal whose listing fails. -/
theorem errorOf_getSpecFiles (ReadDir : ReadDirFn) (sourceDir : String) :
    errorOf (getSpecFiles ReadDir sourceDir) =
      firstError ReadDir (traversalDirs ReadDir sourceDir) := by
  unfold getSpecFiles traversalDirs
  rw [firstError_cons]
  cases hr : ReadDir (Path.Join [sourceDir, "specification"]) with
  | error e => simp only [hr, bind, Except.bind, errorOf]
  | ok services =>
    rw [entriesOf_ok ReadDir _ services hr]
    simp only [hr, bind, Except.bind]
    exact errorOf_foldlM ReadDir _ _ services
      (fun sd _ acc => errorOf_specDirLoop ReadDir _ acc sd) []

theorem errorOf_eq_some {α : Type} (x : Except String α) (e : String) :
    errorOf x = some e ↔ x = .error e := by
  cases x <;> simp [errorOf]

theorem runAllValidations_discovery_error (env : Env) (supplied : Option (List String))
    (sourceDir : String) (e : String) (h : getSpecFiles env.ReadDir sourceDir = .error e) :
    runAllValidations env supplied sourceDir =
      some { err := some e, validated := [], report := none } := by
  unfold runAllValidations
  simp only [h]

/-- C11: `getSpecFiles` fails exactly when the listing of the specification
directory or of a directory it descends into fails, and then returns the error
of the first such listing, in place of any list of paths; `runAllValidations`
then returns that error, having handed no file to the workers and written no
report. -/
theorem discovery_error_atomic (env : Env) (supplied : Option (List String))
    (sourceDir : String) :
    (∀ e, getSpecFiles env.ReadDir sourceDir = .error e ↔
      firstError env.ReadDir (traversalDirs env.ReadDir sourceDir) = some e) ∧
    (∀ e, env.ReadDir (Path.Join [sourceDir, "specification"]) = .error e →
      getSpecFiles env.ReadDir sourceDir = .error e) ∧
    (∀ e, getSpecFiles env.ReadDir sourceDir = .error e →
      runAllValidations env supplied sourceDir =
        some { err := some e, validated := [], report := none }) := by
  refine ⟨fun e => ?_, fun e he => ?_, fun e he =>
    runAllValidations_discovery_error env supplied sourceDir e he⟩
  · rw [← errorOf_eq_some, errorOf_getSpecFiles]
  · rw [← errorOf_eq_some, errorOf_getSpecFiles]
    unfold traversalDirs
    rw [firstError_cons, he]

/-- Witness for C11: the tree with a regular file named `preview`, whose
listing is the first to fail; the run returns that error, validates nothing and
writes nothing. -/
theorem discovery_error_atomic_witness :
    firstError previewFileEnv.ReadDir (traversalDirs previewFileEnv.ReadDir "r") =
      some "open r/specification/foo/resource-manager/bar/preview: cannot be listed" ∧
    getSpecFiles previewFileEnv.ReadDir "r" =
      .error "open r/specification/foo/resource-manager/bar/preview: cannot be listed" ∧
    runAllValidations previewFileEnv none "r" =
      some { err := some "open r/specification/foo/resource-manager/bar/preview: cannot be listed",
             validated := [], report := none } :=
  ⟨by decide,
   ((discovery_error_atomic previewFileEnv none "r").1 _).mpr (by decide),
   (discovery_error_atomic previewFileEnv none "r").2.2 _
     (((discovery_error_atomic previewFileEnv none "r").1 _).mpr (by decide))⟩

end AzSpecValidator

/-! ## The run -/

namespace AzSpecValidator

/-- A run that returns gives an error exactly when discovery failed, and
otherwise has handed every discovered file to a worker and written a report. -/
theorem runAllValidations_returns (env : Env) (supplied : Option (List String))
    (sourceDir : String) (run : Run) (h : runAllValidations env supplied sourceDir = some run) :
    (∀ e, run.err = some e ↔ getSpecFiles env.ReadDir sourceDir = .error e) ∧
    (run.err = none ↔ ∃ specFiles, getSpecFiles env.ReadDir sourceDir = .ok specFiles) := by
  unfold runAllValidations at h
  cases hg : getSpecFiles env.ReadDir sourceDir with
  | error e0 =>
    simp only [hg, Option.some.injEq] at h
    subst h
    simp
  | ok specFiles =>
    simp only [hg] at h
    cases hw : runWorkers env.JSONSpec env.Validate (categoriesMap supplied) specFiles with
    | none => simp [hw] at h
    | some results =>
      simp only [hw, Option.some.injEq] at h
      subst h
      simp

/-- C14, evaluated at a document that failed to load: the checker dereferences
the nil document and faults, for every path and category mapping, so the worker
faults and emits no record. -/
theorem load_failure_faults (Validate : Document → Option (List String))
    (categories : CategoriesMap) (specFile : String) :
    validateErrorTypes none specFile categories = none ∧
    worker (fun _ => none) Validate categories specFile = none :=
  ⟨validateErrorTypes_none specFile categories,
   worker_not_loaded _ Validate categories specFile rfl⟩

/-- C15, evaluated at a tree with a file that fails to load: discovery succeeds
with three files, yet the run does not return, as the worker of the failing file
faults; a run that does return gives an error exactly when discovery failed. -/
theorem exit_status_load_failure :
    getSpecFiles failedLoadEnv.ReadDir "r" = .ok
      ["r/specification/foo/resource-manager/bar/preview/2021-01-01-preview/b.json",
       "r/specification/foo/resource-manager/bar/preview/2021-01-01-preview/svc.json",
       "r/specification/foo/resource-manager/bar/stable/2020-01-01/svc.json"] ∧
    runAllValidations failedLoadEnv none "r" = none ∧
    (∀ (env : Env) (supplied : Option (List String)) (sourceDir : String) (run : Run),
      runAllValidations env supplied sourceDir = some run →
        (run.err = none ↔ ∃ specFiles, getSpecFiles env.ReadDir sourceDir = .ok specFiles)) :=
  ⟨rfl, by decide, fun env supplied sourceDir run h =>
    (runAllValidations_returns env supplied sourceDir run h).2⟩

/-- C16: when the `specification` directory of the root lists no entries,
`getSpecFiles` returns the empty list without error, and the run returns no
error, validates no file and writes the empty report map. -/
theorem empty_discovery (env : Env) (supplied : Option (List String)) (sourceDir : String)
    (h : env.ReadDir (Path.Join [sourceDir, "specification"]) = .ok []) :
    getSpecFiles env.ReadDir sourceDir = .ok [] ∧
    runAllValidations env supplied sourceDir =
      some { err := none, validated := [], report := some [] } := by
  have hg : getSpecFiles env.ReadDir sourceDir = .ok [] := by
    unfold getSpecFiles
    simp only [h, bind, Except.bind]
    rfl
  refine ⟨hg, ?_⟩
  unfold runAllValidations
  simp only [hg, runWorkers]
  have hp := env.schedule.perm []
  rw [List.perm_nil] at hp
  rw [hp]
  rfl

/-- Witness for C16: the tree whose `specification` directory is empty. -/
theorem empty_discovery_witness :
    emptyEnv.ReadDir (Path.Join ["r", "specification"]) = .ok [] ∧
    getSpecFiles emptyEnv.ReadDir "r" = .ok [] ∧
    runAllValidations emptyEnv none "r" =
      some { err := none, validated := [], report := some [] } :=
  ⟨rfl, empty_discovery emptyEnv none "r" rfl⟩

end AzSpecValidator

/-! ## The located paths, for listings of plain names -/

namespace AzSpecValidator

theorem entriesOf_plain (ReadDir : ReadDirFn) (hN : PlainNames ReadDir) (p : String) :
    ∀ e ∈ entriesOf ReadDir p, IsFileName e.Name := by
  unfold entriesOf
  cases hr : ReadDir p with
  | error e => simp
  | ok l => exact hN p l hr

theorem stableVersionLoop_plain (ReadDir : ReadDirFn) (hN : PlainNames ReadDir) (tp : String)
    (htp : Path.CleanDir tp) (sv : FileInfo) (hsv : IsFileName sv.Name)
    (acc res : List String) (h : stableVersionLoop ReadDir tp acc sv = .ok res) :
    res = acc ++ if sv.IsDir = true then versionFiles ReadDir (tp ++ "/" ++ sv.Name) else [] := by
  unfold stableVersionLoop at h
  have hj := Path.Join_one tp sv.Name htp hsv
  rw [hj.1] at h
  by_cases hd : sv.IsDir = true
  · rw [if_pos hd] at h ⊢
    cases hr : ReadDir (tp ++ "/" ++ sv.Name) with
    | error e => simp [hr, bind, Except.bind] at h
    | ok files =>
      simp only [hr, bind, Except.bind, pure, Except.pure, Except.ok.injEq] at h
      rw [← h, specFileLoop_foldl _ hj.2 files (hN _ _ hr)]
      unfold versionFiles
      rw [entriesOf_ok ReadDir _ files hr]
  · rw [if_neg hd] at h ⊢
    simp only [pure, Except.pure, Except.ok.injEq] at h
    simp [h]

theorem tier_foldlM_plain (ReadDir : ReadDirFn) (hN : PlainNames ReadDir) (tp : String)
    (htp : Path.CleanDir tp) (versions : List FileInfo) (hv : ReadDir tp = .ok versions)
    (acc res : List String)
    (h : versions.foldlM (stableVersionLoop ReadDir tp) acc = .ok res) :
    res = acc ++ tierFiles ReadDir tp := by
  have := foldlM_ok_flatMap (stableVersionLoop ReadDir tp)
    (fun sv => if sv.IsDir = true then versionFiles ReadDir (tp ++ "/" ++ sv.Name) else [])
    versions
    (fun sv hsv acc res h => stableVersionLoop_plain ReadDir hN tp htp sv
      (hN tp versions hv sv hsv) acc res h) acc res h
  rw [this, flatMap_ite_filter]
  unfold tierFiles
  rw [entriesOf_ok ReadDir tp versions hv]

theorem stablePreviewLoop_located (ReadDir : ReadDirFn) (hN : PlainNames ReadDir) (np : String)
    (hnp : Path.CleanDir np) (sp : FileInfo) (hsp : IsFileName sp.Name)
    (acc res : List String) (h : stablePreviewLoop ReadDir np acc sp = .ok res) :
    res = acc ++
      if tierCondition sp = true then tierFiles ReadDir (np ++ "/" ++ sp.Name) else [] := by
  unfold stablePreviewLoop at h
  unfold tierCondition
  have hj := Path.Join_one np sp.Name hnp hsp
  rw [hj.1] at h
  by_cases hc : ((sp.IsDir && sp.Name == "stable") || sp.Name == "preview") = true
  · rw [if_pos hc] at h ⊢
    cases hr : ReadDir (np ++ "/" ++ sp.Name) with
    | error e => simp [hr, bind, Except.bind] at h
    | ok versions =>
      simp only [hr, bind, Except.bind] at h
      exact tier_foldlM_plain ReadDir hN _ hj.2 versions hr acc res h
  · rw [if_neg hc] at h ⊢
    simp only [pure, Except.pure, Except.ok.injEq] at h
    simp [h]

theorem namespace_foldlM_located (ReadDir : ReadDirFn) (hN : PlainNames ReadDir) (np : String)
    (hnp : Path.CleanDir np) (tiers : List FileInfo) (ht : ReadDir np = .ok tiers)
    (acc res : List String)
    (h : tiers.foldlM (stablePreviewLoop ReadDir np) acc = .ok res) :
    res = acc ++ locatedNamespaceFiles ReadDir np := by
  have := foldlM_ok_flatMap (stablePreviewLoop ReadDir np)
    (fun sp => if tierCondition sp = true then tierFiles ReadDir (np ++ "/" ++ sp.Name) else [])
    tiers
    (fun sp hsp acc res h => stablePreviewLoop_located ReadDir hN np hnp sp
      (hN np tiers ht sp hsp) acc res h)
    acc res h
  rw [this, flatMap_ite_filter]
  unfold locatedNamespaceFiles
  rw [entriesOf_ok ReadDir np tiers ht]

theorem namespaceLoop_located (ReadDir : ReadDirFn) (hN : PlainNames ReadDir)
    (specPath : String) (hsp : Path.CleanDir specPath) (specDir resourceManager ns : FileInfo)
    (hsd : IsFileName specDir.Name) (hrm : IsFileName resourceManager.Name)
    (hns : IsFileName ns.Name) (acc res : List String)
    (h : namespaceLoop ReadDir specPath specDir resourceManager acc ns = .ok res) :
    res = acc ++
      if ns.IsDir = true then
        locatedNamespaceFiles ReadDir
          (specPath ++ "/" ++ specDir.Name ++ "/" ++ resourceManager.Name ++ "/" ++ ns.Name)
      else [] := by
  unfold namespaceLoop at h
  rw [Path.Join_three specPath _ _ _ hsp hsd hrm hns] at h
  have hc1 := (Path.Join_one specPath specDir.Name hsp hsd).2
  have hc2 := (Path.Join_one _ resourceManager.Name hc1 hrm).2
  have hc3 := (Path.Join_one _ ns.Name hc2 hns).2
  by_cases hd : ns.IsDir = true
  · rw [if_pos hd] at h ⊢
    cases hr : ReadDir
        (specPath ++ "/" ++ specDir.Name ++ "/" ++ resourceManager.Name ++ "/" ++ ns.Name) with
    | error e => simp [hr, bind, Except.bind] at h
    | ok tiers =>
      simp only [hr, bind, Except.bind] at h
      exact namespace_foldlM_located ReadDir hN _ hc3 tiers hr acc res h
  · rw [if_neg hd] at h ⊢
    simp only [pure, Except.pure, Except.ok.injEq] at h
    simp [h]

theorem resourceManagerLoop_located (ReadDir : ReadDirFn) (hN : PlainNames ReadDir)
    (specPath : String) (hsp : Path.CleanDir specPath) (specDir resourceManager : FileInfo)
    (hsd : IsFileName specDir.Name) (hrm : IsFileName resourceManager.Name)
    (acc res : List String)
    (h : resourceManagerLoop ReadDir specPath specDir acc resourceManager = .ok res) :
    res = acc ++
      if (resourceManager.IsDir && resourceManager.Name == "resource-manager") = true then
        locatedResourceManagerFiles ReadDir
          (specPath ++ "/" ++ specDir.Name ++ "/" ++ resourceManager.Name)
      else [] := by
  unfold resourceManagerLoop at h
  rw [Path.Join_two specPath _ _ hsp hsd hrm] at h
  by_cases hd : (resourceManager.IsDir && resourceManager.Name == "resource-manager") = true
  · rw [if_pos hd] at h ⊢
    cases hr : ReadDir (specPath ++ "/" ++ specDir.Name ++ "/" ++ resourceManager.Name) with
    | error e => simp [hr, bind, Except.bind] at h
    | ok namespaces =>
      simp only [hr, bind, Except.bind] at h
      have := foldlM_ok_flatMap (namespaceLoop ReadDir specPath specDir resourceManager)
        (fun ns => if ns.IsDir = true then
          locatedNamespaceFiles ReadDir
            (specPath ++ "/" ++ specDir.Name ++ "/" ++ resourceManager.Name ++ "/" ++ ns.Name)
          else [])
        namespaces
        (fun ns hns acc res h => namespaceLoop_located ReadDir hN specPath hsp specDir
          resourceManager ns hsd hrm (hN _ namespaces hr ns hns) acc res h)
        acc res h
      rw [this, flatMap_ite_filter]
      unfold locatedResourceManagerFiles
      rw [entriesOf_ok ReadDir _ namespaces hr]
  · rw [if_neg hd] at h ⊢
    simp only [pure, Except.pure, Except.ok.injEq] at h
    simp [h]

theorem specDirLoop_located (ReadDir : ReadDirFn) (hN : PlainNames ReadDir)
    (specPath : String) (hsp : Path.CleanDir specPath) (specDir : FileInfo)
    (hsd : IsFileName specDir.Name) (acc res : List String)
    (h : specDirLoop ReadDir specPath acc specDir = .ok res) :
    res = acc ++
      if specDir.IsDir = true then
        locatedServiceFiles ReadDir (specPath ++ "/" ++ specDir.Name)
      else [] := by
  unfold specDirLoop at h
  rw [(Path.Join_one specPath _ hsp hsd).1] at h
  by_cases hd : specDir.IsDir = true
  · rw [if_pos hd] at h ⊢
    cases hr : ReadDir (specPath ++ "/" ++ specDir.Name) with
    | error e => simp [hr, bind, Except.bind] at h
    | ok managers =>
      simp only [hr, bind, Except.bind] at h
      have := foldlM_ok_flatMap (resourceManagerLoop ReadDir specPath specDir)
        (fun rm => if (rm.IsDir && rm.Name == "resource-manager") = true then
          locatedResourceManagerFiles ReadDir (specPath ++ "/" ++ specDir.Name ++ "/" ++ rm.Name)
          else [])
        managers
        (fun rm hrm acc res h => resourceManagerLoop_located ReadDir hN specPath hsp specDir rm
          hsd (hN _ managers hr rm hrm) acc res h)
        acc res h
      rw [this, flatMap_ite_filter]
      unfold locatedServiceFiles
      rw [entriesOf_ok ReadDir _ managers hr]
  · rw [if_neg hd] at h ⊢
    simp only [pure, Except.pure, Except.ok.injEq] at h
    simp [h]

/-- For listings of plain names, a successful `getSpecFiles` returns the
located paths. -/
theorem getSpecFiles_eq_locatedPaths (ReadDir : ReadDirFn) (hN : PlainNames ReadDir)
    (sourceDir : String) (r : List String) (h : getSpecFiles ReadDir sourceDir = .ok r) :
    r = locatedPaths ReadDir sourceDir := by
  unfold getSpecFiles at h
  have hsp := Path.cleanDir_specPath sourceDir
  cases hr : ReadDir (Path.Join [sourceDir, "specification"]) with
  | error e => simp [hr, bind, Except.bind] at h
  | ok services =>
    simp only [hr, bind, Except.bind] at h
    have := foldlM_ok_flatMap (specDirLoop ReadDir (Path.Join [sourceDir, "specification"]))
      (fun sd => if sd.IsDir = true then
        locatedServiceFiles ReadDir (Path.Join [sourceDir, "specification"] ++ "/" ++ sd.Name)
        else [])
      services
      (fun sd hsd acc res h => specDirLoop_located ReadDir hN _ hsp sd
        (hN _ services hr sd hsd) acc res h)
      [] r h
    rw [this, flatMap_ite_filter]
    unfold locatedPaths
    rw [entriesOf_ok ReadDir _ services hr]
    simp

/-- The shape of every located path. -/
theorem locatedPaths_shape (ReadDir : ReadDirFn) (hN : PlainNames ReadDir)
    (sourceDir : String) :
    ∀ p ∈ locatedPaths ReadDir sourceDir, ∃ ns rns tier version file : String,
      p = Path.Join [sourceDir, "specification"] ++ "/" ++ ns ++ "/" ++ "resource-manager" ++
            "/" ++ rns ++ "/" ++ tier ++ "/" ++ version ++ "/" ++ file ∧
      (tier = "stable" ∨ tier = "preview") ∧
      IsFileName ns ∧ IsFileName rns ∧ IsFileName version ∧ IsFileName file := by
  intro p hp
  simp only [locatedPaths, locatedServiceFiles, locatedResourceManagerFiles,
    locatedNamespaceFiles, tierFiles, versionFiles, tierCondition, List.mem_flatMap,
    List.mem_map, List.mem_filter, Bool.and_eq_true, Bool.or_eq_true, beq_iff_eq,
    Bool.not_eq_true'] at hp
  obtain ⟨s, ⟨hs, -⟩, m, ⟨-, -, hmn⟩, n, ⟨hn, -⟩, t, ⟨-, htn⟩, v, ⟨hv, -⟩,
    f, ⟨hf, -, -⟩, rfl⟩ := hp
  refine ⟨s.Name, n.Name, t.Name, v.Name, f.Name, by rw [hmn], ?_,
    entriesOf_plain ReadDir hN _ s hs, entriesOf_plain ReadDir hN _ n hn,
    entriesOf_plain ReadDir hN _ v hv, entriesOf_plain ReadDir hN _ f hf⟩
  rcases htn with ⟨-, h1⟩ | h1
  · exact Or.inl h1
  · exact Or.inr h1

end AzSpecValidator

/-! ## The segments of the located paths -/

namespace AzSpecValidator

theorem Split_append_name (p n : String) (hn : '/' ∉ n.data) :
    Strings.Split (p ++ "/" ++ n) '/' = Strings.Split p '/' ++ [n] := by
  unfold Strings.Split
  have hd : (p ++ "/" ++ n).data = p.data ++ '/' :: n.data := by simp
  rw [hd, Strings.splitChars_append_sep, Strings.splitChars_of_not_mem '/' n.data hn]
  simp

/-- The segments of a located path: those of the specification directory
followed by the six names below it. -/
theorem Split_located (specPath ns rns tier version file : String)
    (hns : IsFileName ns) (hrns : IsFileName rns) (htier : tier = "stable" ∨ tier = "preview")
    (hv : IsFileName version) (hf : IsFileName file) :
    Strings.Split (specPath ++ "/" ++ ns ++ "/" ++ "resource-manager" ++ "/" ++ rns ++ "/" ++
        tier ++ "/" ++ version ++ "/" ++ file) '/' =
      Strings.Split specPath '/' ++ [ns, "resource-manager", rns, tier, version, file] := by
  have ht : '/' ∉ tier.data := by
    rcases htier with rfl | rfl <;> decide
  rw [Split_append_name _ file hf.2.1, Split_append_name _ version hv.2.1,
    Split_append_name _ tier ht, Split_append_name _ rns hrns.2.1,
    Split_append_name _ "resource-manager" (by decide), Split_append_name _ ns hns.2.1]
  simp

theorem treeOf_plainNames (table : List (String × List FileInfo))
    (hn : ∀ x ∈ table, ∀ e ∈ x.2, IsFileName e.Name) : PlainNames (treeOf table) :=
  fun p l h => hn (p, l) (mem_of_lookup table p l (treeOf_ok table p l h))

/-- C12 as stated fails: below a root that contributes five segments before
`specification`, the returned path has `specification` at index 5 and the
service directory at index 6; its tier directory is at index 9 and its version
directory at index 10. -/
theorem five_segment_root_counterexample :
    (Strings.Split (Path.Join ["a/b/c/d/e", "specification"]) '/').length = 5 + 1 ∧
    getSpecFiles deepTree "a/b/c/d/e" = .ok
      ["a/b/c/d/e/specification/foo/resource-manager/bar/stable/2020-01-01/svc.json"] ∧
    (Strings.Split
      "a/b/c/d/e/specification/foo/resource-manager/bar/stable/2020-01-01/svc.json" '/')[5]? =
        some "specification" ∧
    (Strings.Split
      "a/b/c/d/e/specification/foo/resource-manager/bar/stable/2020-01-01/svc.json" '/')[6]? =
        some "foo" ∧
    (Strings.Split
      "a/b/c/d/e/specification/foo/resource-manager/bar/stable/2020-01-01/svc.json" '/')[9]? =
        some "stable" ∧
    (Strings.Split
      "a/b/c/d/e/specification/foo/resource-manager/bar/stable/2020-01-01/svc.json" '/')[10]? =
        some "2020-01-01" :=
  ⟨by decide, rfl, by decide, by decide, by decide, by decide⟩

/-- C12 amended: for listings of plain names, when the source root contributes
exactly one segment before `specification`, every path that `getSpecFiles`
returns has its tier directory, `stable` or `preview`, at index 5 and its
version directory at index 6 of the split on `/`. -/
theorem one_segment_root_indices (ReadDir : ReadDirFn) (sourceDir : String) (r : List String)
    (hN : PlainNames ReadDir)
    (hroot : (Strings.Split (Path.Join [sourceDir, "specification"]) '/').length = 1 + 1)
    (hok : getSpecFiles ReadDir sourceDir = .ok r) :
    ∀ p ∈ r, ∃ ns rns tier version file : String,
      p = Path.Join [sourceDir, "specification"] ++ "/" ++ ns ++ "/" ++ "resource-manager" ++
            "/" ++ rns ++ "/" ++ tier ++ "/" ++ version ++ "/" ++ file ∧
      (tier = "stable" ∨ tier = "preview") ∧
      (Strings.Split p '/')[5]? = some tier ∧
      (Strings.Split p '/')[6]? = some version := by
  intro p hp
  rw [getSpecFiles_eq_locatedPaths ReadDir hN sourceDir r hok] at hp
  obtain ⟨ns, rns, tier, version, file, rfl, htier, hns, hrns, hv, hf⟩ :=
    locatedPaths_shape ReadDir hN sourceDir p hp
  refine ⟨ns, rns, tier, version, file, rfl, htier, ?_, ?_⟩
  · rw [Split_located _ ns rns tier version file hns hrns htier hv hf]
    obtain ⟨a, b, hab⟩ := List.length_eq_two.mp hroot
    rw [hab]
    rfl
  · rw [Split_located _ ns rns tier version file hns hrns htier hv hf]
    obtain ⟨a, b, hab⟩ := List.length_eq_two.mp hroot
    rw [hab]
    rfl

/-- Witness for C12: the sample tree below the one-segment root `r`. -/
theorem one_segment_root_indices_witness :
    (PlainNames sampleTree ∧
      (Strings.Split (Path.Join ["r", "specification"]) '/').length = 1 + 1 ∧
      getSpecFiles sampleTree "r" = .ok
        ["r/specification/foo/resource-manager/bar/preview/2021-01-01-preview/b.json",
         "r/specification/foo/resource-manager/bar/preview/2021-01-01-preview/svc.json",
         "r/specification/foo/resource-manager/bar/stable/2020-01-01/svc.json"]) ∧
    ∀ p ∈ ["r/specification/foo/resource-manager/bar/preview/2021-01-01-preview/b.json",
           "r/specification/foo/resource-manager/bar/preview/2021-01-01-preview/svc.json",
           "r/specification/foo/resource-manager/bar/stable/2020-01-01/svc.json"],
      ∃ ns rns tier version file : String,
        p = Path.Join ["r", "specification"] ++ "/" ++ ns ++ "/" ++ "resource-manager" ++
              "/" ++ rns ++ "/" ++ tier ++ "/" ++ version ++ "/" ++ file ∧
        (tier = "stable" ∨ tier = "preview") ∧
        (Strings.Split p '/')[5]? = some tier ∧
        (Strings.Split p '/')[6]? = some version :=
  ⟨⟨treeOf_plainNames sampleTable (by decide), by decide, rfl⟩,
   one_segment_root_indices sampleTree "r" _ (treeOf_plainNames sampleTable (by decide))
     (by decide) rfl⟩

end AzSpecValidator

namespace AzSpecValidator

namespace Path

theorem joinChars_sep_mem (sep : Char) (a b : List Char) (rest : List (List Char)) :
    sep ∈ Strings.joinChars sep (a :: b :: rest) := by
  rw [Strings.joinChars]
  simp

theorem Join_single (s : String) (hs : s ≠ "") : Join [s] = Clean s := by
  have hb : (s == "") = false := by simpa using hs
  unfold Join
  simp only [List.dropWhile_cons, hb, Bool.false_eq_true, if_false, List.dropWhile_nil,
    List.cons_ne_nil, reduceCtorEq, List.map_cons, List.map_nil, Strings.joinChars]

/-- When the source directory cleans to one relative segment, the path of the
specification directory is that segment followed by `/specification`. -/
theorem specPath_of_segment (sourceDir : String) (hs : IsRelativeSegment (Join [sourceDir])) :
    Join [sourceDir, "specification"] = Join [sourceDir] ++ "/" ++ "specification" := by
  have hne : sourceDir ≠ "" := by
    intro h
    subst h
    exact hs.1 (by decide)
  have hsb : (sourceDir == "") = false := by simpa using hne
  have hd : sourceDir.data ≠ [] := fun h => hne (String.ext h)
  rw [Join_single sourceDir hne] at hs ⊢
  have hjoin : Join [sourceDir, "specification"] =
      Clean (String.mk (sourceDir.data ++ '/' :: "specification".data)) := by
    unfold Join
    simp only [List.dropWhile_cons, hsb, Bool.false_eq_true, if_false, List.cons_ne_nil,
      reduceCtorEq, List.map_cons, List.map_nil, Strings.joinChars]
  have hout : ∀ rooted : Bool,
      (Strings.splitChars '/' (sourceDir.data ++ '/' :: "specification".data)).foldl
        (cleanStep rooted) [] =
      (Strings.splitChars '/' sourceDir.data).foldl (cleanStep rooted) [] ++
        ["specification".data] := by
    intro rooted
    rw [Strings.splitChars_append_sep, List.foldl_append,
      Strings.splitChars_of_not_mem '/' "specification".data (by decide)]
    exact cleanStep_normal rooted _ _ normal_specification
  have hhead : (sourceDir.data ++ '/' :: "specification".data).head? = sourceDir.data.head? :=
    List.head?_append_of_ne_nil _ hd
  have hc : ∃ x, Clean sourceDir = String.mk x ∧
      (Strings.splitChars '/' sourceDir.data).foldl (cleanStep false) [] = [x] ∧
      (sourceDir.data.head? == some '/') = false := by
    unfold Clean at hs ⊢
    rw [if_neg hne] at hs ⊢
    by_cases hr : (sourceDir.data.head? == some '/') = true
    · simp only [hr, if_true] at hs
      exact absurd (List.mem_cons_self _ _) hs.2.1
    · rw [Bool.not_eq_true] at hr
      simp only [hr, Bool.false_eq_true, if_false] at hs ⊢
      cases hout1 : (Strings.splitChars '/' sourceDir.data).foldl (cleanStep false) [] with
      | nil =>
        rw [hout1] at hs
        simp only [if_true] at hs
        exact absurd rfl hs.2.2
      | cons x xs =>
        rw [hout1] at hs
        simp only [List.cons_ne_nil, if_false, reduceCtorEq] at hs
        cases xs with
        | nil => exact ⟨x, by simp [Strings.joinChars], rfl, trivial⟩
        | cons y ys => exact absurd (joinChars_sep_mem '/' x y ys) hs.2.1
  obtain ⟨x, hcx, hox, hrx⟩ := hc
  rw [hcx, hjoin]
  unfold Clean
  rw [if_neg (by simp [String.ext_iff, hd])]
  simp only [hout, hhead, hrx, hox, Bool.false_eq_true, if_false]
  rw [if_neg (by simp)]
  apply String.ext
  simp [Strings.joinChars]

end Path

/-- C20: for listings of plain names and a source that `path.Join` cleans to a
single relative segment, as it does the default `./azure-rest-api-specs`, every
path returned by `getSpecFiles` splits on `/` into exactly 8 segments, with
`stable` or `preview` at index 5 and the name of its version directory at
index 6, so that the two indexings of the checker are in range on it: on a
loaded document the checker returns a list exactly when the document has its
info object, and its paths object when ListOperationUsingPost is enabled; and
the trailing segment of a URL is in range for every URL, the empty one
included. -/
theorem locator_output_in_range (ReadDir : ReadDirFn) (sourceDir : String) (r : List String)
    (hN : PlainNames ReadDir) (hs : IsRelativeSegment (Path.Join [sourceDir]))
    (hok : getSpecFiles ReadDir sourceDir = .ok r) :
    (∀ p ∈ r, ∃ ns rns tier version file : String,
      p = Path.Join [sourceDir] ++ "/" ++ "specification" ++ "/" ++ ns ++ "/" ++
            "resource-manager" ++ "/" ++ rns ++ "/" ++ tier ++ "/" ++ version ++ "/" ++ file ∧
      Strings.Split p '/' =
        [Path.Join [sourceDir], "specification", ns, "resource-manager", rns, tier, version,
          file] ∧
      (Strings.Split p '/').length = 8 ∧
      (tier = "stable" ∨ tier = "preview") ∧
      (Strings.Split p '/')[5]? = some tier ∧
      (Strings.Split p '/')[6]? = some version ∧
      ∀ (d : Document) (categories : CategoriesMap),
        (∃ res, validateErrorTypes (some d) p categories = some res) ↔
          ((∃ info, d.Spec.Info = some info) ∧
            (categories.enabled InconsistencyListOperationUsingPost = true →
              d.Spec.Paths ≠ none))) ∧
    (∀ url : String, ∃ ending,
      (Strings.Split url '/')[(Strings.Split url '/').length - 1]? = some ending) := by
  refine ⟨?_, fun url => Strings.Split_last_isSome url '/'⟩
  intro p hp
  rw [getSpecFiles_eq_locatedPaths ReadDir hN sourceDir r hok] at hp
  obtain ⟨ns, rns, tier, version, file, hpe, htier, hns, hrns, hv, hf⟩ :=
    locatedPaths_shape ReadDir hN sourceDir p hp
  rw [Path.specPath_of_segment sourceDir hs] at hpe
  have hsplit : Strings.Split p '/' =
      [Path.Join [sourceDir], "specification", ns, "resource-manager", rns, tier, version,
        file] := by
    rw [hpe, Split_located _ ns rns tier version file hns hrns htier hv hf,
      Split_append_name _ "specification" (by decide)]
    unfold Strings.Split
    rw [Strings.splitChars_of_not_mem '/' _ hs.2.1]
    rfl
  have h5 : (Strings.Split p '/')[5]? = some tier := by rw [hsplit]; rfl
  have h6 : (Strings.Split p '/')[6]? = some version := by rw [hsplit]; rfl
  refine ⟨ns, rns, tier, version, file, hpe, hsplit, by rw [hsplit]; rfl, htier, h5, h6, ?_⟩
  intro d categories
  constructor
  · rintro ⟨res, hres⟩
    obtain ⟨info, hi, hpaths⟩ := validateErrorTypes_some_info d p categories res hres
    exact ⟨⟨info, hi⟩, hpaths⟩
  · rintro ⟨⟨info, hi⟩, hpaths⟩
    exact ⟨_, validateErrorTypes_eq d p categories tier version info h5 h6 hi hpaths⟩

/-- Witness for C20: the default source over a tree below it. -/
theorem locator_output_in_range_witness :
    (PlainNames defaultTree ∧ IsRelativeSegment (Path.Join [defaultSource]) ∧
      getSpecFiles defaultTree defaultSource = .ok
        ["azure-rest-api-specs/specification/foo/resource-manager/bar/preview/2021-01-01-preview/svc.json",
         "azure-rest-api-specs/specification/foo/resource-manager/bar/stable/2020-01-01/svc.json"]) ∧
    ∀ p ∈ ["azure-rest-api-specs/specification/foo/resource-manager/bar/preview/2021-01-01-preview/svc.json",
           "azure-rest-api-specs/specification/foo/resource-manager/bar/stable/2020-01-01/svc.json"],
      ∃ ns rns tier version file : String,
        p = Path.Join [defaultSource] ++ "/" ++ "specification" ++ "/" ++ ns ++ "/" ++
              "resource-manager" ++ "/" ++ rns ++ "/" ++ tier ++ "/" ++ version ++ "/" ++ file ∧
        Strings.Split p '/' =
          [Path.Join [defaultSource], "specification", ns, "resource-manager", rns, tier,
            version, file] ∧
        (Strings.Split p '/').length = 8 ∧
        (tier = "stable" ∨ tier = "preview") ∧
        (Strings.Split p '/')[5]? = some tier ∧
        (Strings.Split p '/')[6]? = some version ∧
        ∀ (d : Document) (categories : CategoriesMap),
          (∃ res, validateErrorTypes (some d) p categories = some res) ↔
            ((∃ info, d.Spec.Info = some info) ∧
              (categories.enabled InconsistencyListOperationUsingPost = true →
                d.Spec.Paths ≠ none)) :=
  ⟨⟨treeOf_plainNames defaultTable (by decide), by decide, rfl⟩,
   (locator_output_in_range defaultTree defaultSource _
     (treeOf_plainNames defaultTable (by decide)) (by decide) rfl).1⟩

end AzSpecValidator

namespace AzSpecValidator

/-- C9, evaluated at a symbolic link named `preview`: the resource-namespace
directory lists an entry `preview` that is not a directory and a directory
`stable`, and the link can be listed. `getSpecFiles` succeeds and returns the
file below the link before the file below `stable`, although the tier of the
first is not a directory, so the returned list is not the list of convention
paths, which holds the stable file only. On the same tree with the link named
`stable` and `preview` a directory, the link is skipped. -/
theorem preview_link_is_descended :
    PlainNames previewLinkTree ∧
    previewLinkTree "r/specification/foo/resource-manager/bar" =
      .ok [⟨"preview", false⟩, ⟨"stable", true⟩] ∧
    getSpecFiles previewLinkTree "r" = .ok
      ["r/specification/foo/resource-manager/bar/preview/2021-01-01-preview/svc.json",
       "r/specification/foo/resource-manager/bar/stable/2020-01-01/svc.json"] ∧
    conventionPaths previewLinkTree "r" =
      ["r/specification/foo/resource-manager/bar/stable/2020-01-01/svc.json"] ∧
    getSpecFiles stableLinkTree "r" = .ok
      ["r/specification/foo/resource-manager/bar/preview/2021-01-01-preview/svc.json"] :=
  ⟨treeOf_plainNames previewLinkTable (by decide), rfl, rfl, by decide, rfl⟩

end AzSpecValidator
